import Mathlib

/-!
# Front-coded dictionary over integer term-id sequences

A shallow embedding of `include/integer_fc_dictionary.hpp`
(`autocomplete::integer_fc_dictionary<BucketSize, Pointers>`).

Conventions of the embedding.

* `std::vector<uint32_t>`, `std::vector<uint8_t>` and `uint32_range` are lists of
  natural numbers; a `uint32_range` is represented by the words it spans.
* A value of type `Option _` equal to `none` stands for a run that does not
  return normally: a failed `assert`, a read or write outside an array,
  `__builtin_unreachable()`, or reading a record from an exhausted source.
* `int` variables are integers; conversions between `int`, `size_t`, `uint32_t` and
  `uint64_t` are `to_int32`, `to_uint32`, `to_uint64`; unsigned arithmetic is taken
  modulo the width where it can wrap.
* The `while (lo <= hi)` loops carry an explicit iteration budget (first argument);
  every caller passes a budget that the loop cannot exhaust. The `for (i = 1; i <= n; ++i)`
  scans recurse on the number of iterations left.
-/

namespace autocomplete

/-! ## Collaborators that live outside `integer_fc_dictionary.hpp` -/

/-- Modelled from the spec: `global::invalid_term_id` (constants of `util_types.hpp`,
not part of the sources at hand); the spec fixes it as the all-ones 32-bit value. -/
def invalid_term_id : Nat := 4294967295

/-- Modelled from the spec: the two-argument `uint32_range_compare` of `util_types.hpp`
(not part of the sources at hand). Section 4.3: it returns -1/0/+1 comparing two
term-id sequences lexicographically by unsigned term id, then by length
(shorter before longer with equal prefix). -/
def uint32_range_compare : List Nat → List Nat → Int
  | [], [] => 0
  | [], _ :: _ => -1
  | _ :: _, [] => 1
  | a :: l, b :: r =>
    if a < b then -1 else if b < a then 1 else uint32_range_compare l r

/-- Modelled from the spec: the three-argument `uint32_range_compare` of `util_types.hpp`
(not part of the sources at hand). Section 4.3: `l` is compared against `r` truncated to
at most `n` terms; when `r` has fewer than `n` terms `l` is compared in full against it,
otherwise only the first `n` terms of either side matter. -/
def uint32_range_compare_n (l r : List Nat) (n : Nat) : Int :=
  if r.length < n then uint32_range_compare l r
  else uint32_range_compare (l.take n) (r.take n)

/-- Modelled from the spec: `Pointers::operator[]` (the pointer-array type is a template
argument): random access to a monotone offset sequence, `p[i]` being the pair
`(p_i, p_{i+1})` read as a `range`. -/
def pointers_at (p : List Nat) (i : Nat) : Option (Nat × Nat) :=
  match p[i]?, p[i + 1]? with
  | some b, some e => some (b, e)
  | _, _ => none

/-- Modelled from the spec: one record of the sorted source read through
`completion_iterator`: a completion closed by the terminator, and its doc id. -/
structure completion_record where
  completion : List Nat
  doc_id : Nat
deriving DecidableEq, Repr

/-- Conversion of an `int` to `uint32_t` (`id_type`). -/
def to_uint32 (x : Int) : Nat := (x % 4294967296).toNat

/-- Conversion of a `size_t` to `int` (two's complement, 32 bits). -/
def to_int32 (x : Nat) : Int :=
  if x % 4294967296 < 2147483648 then ((x % 4294967296 : Nat) : Int)
  else ((x % 4294967296 : Nat) : Int) - 4294967296

/-- The four bytes of a 32-bit word, in memory order. -/
def bytes_of_word (w : Nat) : List Nat :=
  [w % 256, w / 256 % 256, w / 65536 % 256, w / 16777216 % 256]

/-- The byte image of a run of 32-bit words (`reinterpret_cast<uint8_t const*>`). -/
def bytes_of_words : List Nat → List Nat
  | [] => []
  | w :: ws => bytes_of_word w ++ bytes_of_words ws

/-- The words held by a run of bytes (`memcpy` into a `uint32_t` buffer). -/
def words_of_bytes : List Nat → List Nat
  | b0 :: b1 :: b2 :: b3 :: rest =>
    (b0 + 256 * b1 + 65536 * b2 + 16777216 * b3) :: words_of_bytes rest
  | _ => []

/-! ## The sealed dictionary -/

/-- The data members of `integer_fc_dictionary`. -/
structure integer_fc_dictionary where
  m_size : Nat
  m_pointers_to_headers : List Nat
  m_pointers_to_buckets : List Nat
  m_headers : List Nat
  m_buckets : List Nat
deriving DecidableEq, Repr

namespace integer_fc_dictionary

/-- Number of completions: `size()`. -/
def size (d : integer_fc_dictionary) : Nat := d.m_size

/-- Number of buckets: `buckets()`, `m_pointers_to_headers.size() - 1` in `size_t`
arithmetic (`0 - 1` wraps to `2^64 - 1`). -/
def buckets (d : integer_fc_dictionary) : Nat :=
  if d.m_pointers_to_headers.length = 0 then 18446744073709551615
  else d.m_pointers_to_headers.length - 1

/-- The `size_t` value `buckets() - 1` (`0 - 1` wraps to `2^64 - 1`). -/
def buckets_minus_one (d : integer_fc_dictionary) : Nat :=
  if d.buckets = 0 then 18446744073709551615 else d.buckets - 1

/-- Number of delta records of a bucket: `bucket_size(bucket_id)`, computed in
`uint32_t` arithmetic for the last bucket. -/
def bucket_size (BucketSize : Nat) (d : integer_fc_dictionary) (bucket_id : Nat) : Nat :=
  let n := d.size % 4294967296
  if bucket_id ≠ d.buckets_minus_one then BucketSize
  else (n - (n / (BucketSize + 1)) * (BucketSize + 1) + 4294967296 - 1) % 4294967296

/-- The header of bucket `i`: `header(i)`, with its `assert(i < buckets())`. -/
def header (d : integer_fc_dictionary) (i : Nat) : Option (List Nat) :=
  if i < d.buckets then
    match pointers_at d.m_pointers_to_headers i with
    | some (b, e) =>
      if b ≤ e ∧ e ≤ d.m_headers.length then some ((d.m_headers.drop b).take (e - b))
      else none
    | none => none
  else none

/-- One delta record read at byte offset `inp` and unpacked over `out`: `decode`.
Returns the decoded length (a `uint8_t`), the rewritten buffer and `lcp_len`. -/
def decode (d : integer_fc_dictionary) (inp : Nat) (out : List Nat) :
    Option (Nat × List Nat × Nat) :=
  match d.m_buckets[inp]?, d.m_buckets[inp + 1]? with
  | some l, some suffix_len =>
    if inp + 2 + suffix_len * 4 ≤ d.m_buckets.length ∧ l + suffix_len ≤ out.length then
      some ((l + suffix_len) % 256,
        out.take l ++ words_of_bytes ((d.m_buckets.drop (inp + 2)).take (suffix_len * 4))
          ++ out.drop (l + suffix_len),
        l)
    else none
  | _, _ => none

/-- The cursor update `curr += (l - lcp_len) * sizeof(uint32_t) + 2`. -/
def advance (curr l lcp_len : Nat) : Nat := curr + (l - lcp_len) * 4 + 2

/-- The loop of the three-argument `extract`: `k` more records to decode. -/
def extract_loop (d : integer_fc_dictionary) :
    Nat → Nat → List Nat → Nat → Option (Nat × List Nat)
  | 0, _, c, string_len => some (string_len, c)
  | k + 1, curr, c, _ =>
    match d.decode curr c with
    | none => none
    | some (string_len, c', lcp_len) =>
      extract_loop d k (advance curr string_len lcp_len) c' string_len

/-- The private `extract(id, bucket_id, c)`: returns the length and the buffer. -/
def extract_in_bucket (BucketSize : Nat) (d : integer_fc_dictionary)
    (id bucket_id : Nat) (c : List Nat) : Option (Nat × List Nat) :=
  match d.header bucket_id with
  | none => none
  | some h =>
    if h.length ≤ c.length then
      if id ≤ d.bucket_size BucketSize bucket_id then
        match pointers_at d.m_pointers_to_buckets bucket_id with
        | none => none
        | some (pb, _) => extract_loop d id pb (h ++ c.drop h.length) (h.length % 256)
      else none
    else none

/-- The public `extract(id, c)`. -/
def extract (BucketSize : Nat) (d : integer_fc_dictionary) (id : Nat) (c : List Nat) :
    Option (Nat × List Nat) :=
  extract_in_bucket BucketSize d (id % (BucketSize + 1)) (id / (BucketSize + 1)) c

/-- The macro `INT_FC_DICT_LOCATE_INIT`: the header is copied into the static
scratch `decoded`; yields the scratch, `n` and the byte cursor `curr`. -/
def INT_FC_DICT_LOCATE_INIT (BucketSize : Nat) (d : integer_fc_dictionary)
    (h : List Nat) (bucket_id : Nat) (decoded : List Nat) : Option (List Nat × Nat × Nat) :=
  if h.length ≤ decoded.length then
    match pointers_at d.m_pointers_to_buckets bucket_id with
    | none => none
    | some (pb, _) =>
      some (h ++ decoded.drop h.length, d.bucket_size BucketSize bucket_id % 4294967296, pb)
  else none

/-- The loop of the in-bucket `locate(t, h, bucket_id)`; running off its end is
`assert(false); __builtin_unreachable();`. -/
def locate_scan (d : integer_fc_dictionary) (t : List Nat) :
    Nat → Nat → Nat → List Nat → Option Nat
  | 0, _, _, _ => none
  | k + 1, i, curr, decoded =>
    match d.decode curr decoded with
    | none => none
    | some (l, decoded', lcp_len) =>
      let cmp := uint32_range_compare t (decoded'.take l)
      if cmp = 0 then some i
      else if cmp < 0 then some invalid_term_id
      else locate_scan d t k (i + 1) (advance curr l lcp_len) decoded'

/-- The private `locate(t, h, bucket_id)`. -/
def locate_in_bucket (BucketSize : Nat) (d : integer_fc_dictionary) (decoded : List Nat)
    (t h : List Nat) (bucket_id : Nat) : Option Nat :=
  match INT_FC_DICT_LOCATE_INIT BucketSize d h bucket_id decoded with
  | none => none
  | some (decoded', n, curr) => locate_scan d t n 1 curr decoded'

/-- The loop of `left_locate`. -/
def left_locate_scan (d : integer_fc_dictionary) (p : List Nat) (n : Nat) :
    Nat → Nat → Nat → List Nat → Option Nat
  | 0, _, _, _ => some ((n + 1) % 4294967296)
  | k + 1, i, curr, decoded =>
    match d.decode curr decoded with
    | none => none
    | some (l, decoded', lcp_len) =>
      let cmp := uint32_range_compare_n (decoded'.take l) p p.length
      if cmp = 0 then some i
      else left_locate_scan d p n k (i + 1) (advance curr l lcp_len) decoded'

/-- The private `left_locate(p, h, bucket_id)`. -/
def left_locate (BucketSize : Nat) (d : integer_fc_dictionary) (decoded : List Nat)
    (p h : List Nat) (bucket_id : Nat) : Option Nat :=
  match INT_FC_DICT_LOCATE_INIT BucketSize d h bucket_id decoded with
  | none => none
  | some (decoded', n, curr) => left_locate_scan d p n n 1 curr decoded'

/-- The loop of `right_locate`. -/
def right_locate_scan (d : integer_fc_dictionary) (p : List Nat) (n : Nat) :
    Nat → Nat → Nat → List Nat → Option Nat
  | 0, _, _, _ => some n
  | k + 1, i, curr, decoded =>
    match d.decode curr decoded with
    | none => none
    | some (l, decoded', lcp_len) =>
      let cmp := uint32_range_compare_n (decoded'.take l) p p.length
      if cmp > 0 then some (i - 1)
      else right_locate_scan d p n k (i + 1) (advance curr l lcp_len) decoded'

/-- The private `right_locate(p, h, bucket_id)`. -/
def right_locate (BucketSize : Nat) (d : integer_fc_dictionary) (decoded : List Nat)
    (p h : List Nat) (bucket_id : Nat) : Option Nat :=
  match INT_FC_DICT_LOCATE_INIT BucketSize d h bucket_id decoded with
  | none => none
  | some (decoded', n, curr) => right_locate_scan d p n n 1 curr decoded'

/-- The loop of `left_locate2`. -/
def left_locate2_scan (d : integer_fc_dictionary) (p : List Nat) (n : Nat) :
    Nat → Nat → Nat → List Nat → Option Nat
  | 0, _, _, _ => some ((n + 1) % 4294967296)
  | k + 1, i, curr, decoded =>
    match d.decode curr decoded with
    | none => none
    | some (l, decoded', lcp_len) =>
      let cmp := uint32_range_compare_n (decoded'.take l) p p.length
      if cmp ≥ 0 then some i
      else left_locate2_scan d p n k (i + 1) (advance curr l lcp_len) decoded'

/-- The private `left_locate2(p, h, bucket_id)`. -/
def left_locate2 (BucketSize : Nat) (d : integer_fc_dictionary) (decoded : List Nat)
    (p h : List Nat) (bucket_id : Nat) : Option Nat :=
  match INT_FC_DICT_LOCATE_INIT BucketSize d h bucket_id decoded with
  | none => none
  | some (decoded', n, curr) => left_locate2_scan d p n n 1 curr decoded'

/-- The `while (lo <= hi)` loop of `locate_bucket`. The result is
`(returned_true, mi, cmp, h)` as the variables stand when the loop is left. -/
def locate_bucket_loop (d : integer_fc_dictionary) (t : List Nat) :
    Nat → Int → Int → Int → Int → List Nat → Option (Bool × Int × Int × List Nat)
  | 0, lo, hi, mi, cmp, h => if lo ≤ hi then none else some (false, mi, cmp, h)
  | fuel + 1, lo, hi, mi, cmp, h =>
    if lo ≤ hi then
      let mi' := (lo + hi) / 2
      match d.header (to_uint32 mi') with
      | none => none
      | some h' =>
        let cmp' := uint32_range_compare h' t
        if cmp' > 0 then locate_bucket_loop d t fuel lo (mi' - 1) mi' cmp' h'
        else if cmp' < 0 then locate_bucket_loop d t fuel (mi' + 1) hi mi' cmp' h'
        else some (true, mi', cmp', h')
    else some (false, mi, cmp, h)

/-- The private `locate_bucket(t, h, bucket_id)`: returns `(result, h, bucket_id)`. -/
def locate_bucket (d : integer_fc_dictionary) (t : List Nat) :
    Option (Bool × List Nat × Nat) :=
  match locate_bucket_loop d t (d.buckets + 1) 0 (to_int32 d.buckets_minus_one) 0 0 [] with
  | none => none
  | some (true, mi, _, h) => some (true, h, to_uint32 mi)
  | some (false, mi, cmp, h) =>
    if cmp < 0 then some (false, h, to_uint32 mi)
    else
      match d.header (to_uint32 (mi - 1)) with
      | none => none
      | some h' => some (false, h', to_uint32 (mi - 1))

/-- The public `locate(c)`; `decoded` is the content of the static scratch of the
in-bucket scan when the call starts. -/
def locate (BucketSize : Nat) (d : integer_fc_dictionary) (decoded : List Nat)
    (c : List Nat) : Option Nat :=
  match d.locate_bucket c with
  | none => none
  | some (is_header, h, bucket_id) =>
    let base_id := (bucket_id * (BucketSize + 1)) % 4294967296
    if is_header then some base_id
    else
      match locate_in_bucket BucketSize d decoded c h bucket_id with
      | none => none
      | some offset_id =>
        if offset_id = invalid_term_id then some invalid_term_id
        else some ((base_id + offset_id) % 4294967296)

/-- First loop of `locate_buckets` (left bucket); returns `lo` on exit. -/
def locate_buckets_left_loop (d : integer_fc_dictionary) (p : List Nat) (n : Nat) :
    Nat → Int → Int → Option Int
  | 0, lo, hi => if lo ≤ hi then none else some lo
  | fuel + 1, lo, hi =>
    if lo ≤ hi then
      let mi := (lo + hi) / 2
      match d.header (to_uint32 mi) with
      | none => none
      | some h =>
        let cmp := uint32_range_compare_n h p n
        if cmp ≥ 0 then locate_buckets_left_loop d p n fuel lo (mi - 1)
        else locate_buckets_left_loop d p n fuel (mi + 1) hi
    else some lo

/-- Second loop of `locate_buckets` (right bucket); returns `hi` on exit. -/
def locate_buckets_right_loop (d : integer_fc_dictionary) (p : List Nat) (n : Nat) :
    Nat → Int → Int → Option Int
  | 0, lo, hi => if lo ≤ hi then none else some hi
  | fuel + 1, lo, hi =>
    if lo ≤ hi then
      let mi := (lo + hi) / 2
      match d.header (to_uint32 mi) with
      | none => none
      | some h =>
        let cmp := uint32_range_compare_n h p n
        if cmp ≤ 0 then locate_buckets_right_loop d p n fuel (mi + 1) hi
        else locate_buckets_right_loop d p n fuel lo (mi - 1)
    else some hi

/-- Conversion of an `int` to the `uint64_t` fields of `range`. -/
def to_uint64 (x : Int) : Nat := (x % 18446744073709551616).toNat

/-- Step 1 of `locate_buckets`, after the first loop: the left bucket chosen from `lo`
(`lo == 0 ? 0 : (uint32_range_compare(header(lo), p) == 0 ? lo : lo - 1)`). -/
def locate_buckets_left (d : integer_fc_dictionary) (p : List Nat) (lo : Int) : Option Int :=
  if lo = 0 then some 0
  else
    match d.header (to_uint32 lo) with
    | none => none
    | some h => some (if uint32_range_compare h p = 0 then lo else lo - 1)

/-- Steps 2 and 3 of `locate_buckets`: the range is the single bucket `left` when it is
the last bucket or the next header is larger than `p` on its first `n` terms; otherwise
the right bucket is searched for. -/
def locate_buckets_right (d : integer_fc_dictionary) (p : List Nat) (n : Nat) (left : Int) :
    Option (Nat × Nat) :=
  if to_uint32 left = d.buckets_minus_one then some (to_uint64 left, to_uint64 left)
  else
    match d.header (to_uint32 (left + 1)) with
    | none => none
    | some h =>
      if uint32_range_compare_n h p n > 0 then some (to_uint64 left, to_uint64 left)
      else
        match locate_buckets_right_loop d p n (d.buckets + 1) left
            (to_int32 d.buckets_minus_one) with
        | none => none
        | some right => some (to_uint64 left, to_uint64 right)

/-- The private `locate_buckets(p)`: the pair `(r.begin, r.end)`. -/
def locate_buckets (d : integer_fc_dictionary) (p : List Nat) : Option (Nat × Nat) :=
  let n := p.length
  match locate_buckets_left_loop d p n (d.buckets + 1) 0 (to_int32 d.buckets_minus_one) with
  | none => none
  | some lo =>
    if to_uint32 lo = d.buckets then some (to_uint64 (lo - 1), to_uint64 (lo - 1))
    else
      match locate_buckets_left d p lo with
      | none => none
      | some left => locate_buckets_right d p n left

/-- The public `locate_prefix(c)`, returning the inclusive pair `(p_begin, p_end)`;
`decoded_l` and `decoded_r` are the static scratch areas of `left_locate` and
`right_locate` when the call starts. -/
def locate_prefix (BucketSize : Nat) (d : integer_fc_dictionary)
    (decoded_l decoded_r : List Nat) (c : List Nat) : Option (Nat × Nat) :=
  match d.locate_buckets c with
  | none => none
  | some (b_begin, b_end) =>
    match d.header (b_begin % 4294967296), d.header (b_end % 4294967296) with
    | some h_begin, some h_end =>
      let p_begin := (b_begin * (BucketSize + 1)) % 4294967296
      let p_end := (b_end * (BucketSize + 1)) % 4294967296
      let p_begin? : Option Nat :=
        if uint32_range_compare h_begin c ≠ 0 then
          match left_locate BucketSize d decoded_l c h_begin (b_begin % 4294967296) with
          | none => none
          | some off => some ((p_begin + off) % 4294967296)
        else some p_begin
      match p_begin? with
      | none => none
      | some p_begin' =>
        match right_locate BucketSize d decoded_r c h_end (b_end % 4294967296) with
        | none => none
        | some off => some (p_begin', (p_end + off) % 4294967296)
    | _, _ => none

/-- The public `locate_prefix(prefix, suffix_lex_range)`, returning the half-open pair
`(p_begin, p_end + 1)` together with the caller's `prefix` buffer as the call leaves it;
`decoded_l` and `decoded_r` are the static scratch areas of `left_locate2` and
`right_locate` when the call starts. -/
def locate_prefix_range (BucketSize : Nat) (d : integer_fc_dictionary)
    (decoded_l decoded_r : List Nat) (pfx : List Nat) (suffix_lex_range : Nat × Nat) :
    Option ((Nat × Nat) × List Nat) :=
  let prefix1 := pfx ++ [suffix_lex_range.1]
  match d.locate_bucket prefix1 with
  | none => none
  | some (is_header_begin, h_begin, bucket_id_begin) =>
    let p_begin := (bucket_id_begin * (BucketSize + 1)) % 4294967296
    let p_begin? : Option Nat :=
      if ¬ is_header_begin then
        match left_locate2 BucketSize d decoded_l prefix1 h_begin bucket_id_begin with
        | none => none
        | some off => some ((p_begin + off) % 4294967296)
      else some p_begin
    match p_begin? with
    | none => none
    | some p_begin' =>
      let prefix2 := prefix1.dropLast
      let prefix3 := prefix2 ++ [suffix_lex_range.2]
      let prefix4 :=
        if suffix_lex_range.1 = suffix_lex_range.2 then prefix3 ++ [invalid_term_id]
        else prefix3
      match d.locate_bucket prefix4 with
      | none => none
      | some (_, h_end, bucket_id_end) =>
        let p_end := (bucket_id_end * (BucketSize + 1)) % 4294967296
        match right_locate BucketSize d decoded_r prefix4 h_end bucket_id_end with
        | none => none
        | some off =>
          let p_end' := (p_end + off) % 4294967296
          let prefix5 := prefix4.dropLast
          let prefix6 :=
            if suffix_lex_range.1 = suffix_lex_range.2 then prefix5.dropLast else prefix5
          some ((p_begin', (p_end' + 1) % 4294967296), prefix6)

end integer_fc_dictionary
/-! ## The builder -/

/-- The data members of `integer_fc_dictionary::builder`. -/
structure builder where
  m_size : Nat
  m_pointers_to_headers : List Nat
  m_pointers_to_buckets : List Nat
  m_headers : List Nat
  m_buckets : List Nat
  m_doc_ids : List Nat
deriving DecidableEq, Repr

namespace builder

/-- The inline loop computing `l`, the length of the longest common prefix of
`curr` and `prev` (both still closed by the terminator). -/
def lcp : List Nat → List Nat → Nat
  | a :: curr, b :: prev => if a = b then lcp curr prev + 1 else 0
  | _, _ => 0

/-- The private `write_header(c)`; `MAX_NUM_TERMS_PER_QUERY` and `terminator` are the
constants of `constants.hpp` and `util_types.hpp`, taken as parameters. -/
def write_header (MAX_NUM_TERMS_PER_QUERY terminator : Nat) (bl : builder) (c : List Nat) :
    Option builder :=
  if 0 < c.length ∧ c.length ≤ MAX_NUM_TERMS_PER_QUERY ∧ c.getLast? = some terminator then
    some { bl with m_headers := bl.m_headers ++ c.take (c.length - 1) }
  else none

/-- The private `write(c, lcp)`: two length bytes, then the bytes of the suffix. -/
def write (MAX_NUM_TERMS_PER_QUERY terminator : Nat) (bl : builder) (c : List Nat)
    (lcp : Nat) : Option builder :=
  if 0 < c.length ∧ c.length ≤ MAX_NUM_TERMS_PER_QUERY ∧ c.getLast? = some terminator then
    let size := (c.length - 1) % 256
    if size ≥ lcp then
      some { bl with
        m_buckets := bl.m_buckets ++ [lcp % 256, (size - lcp) % 256]
          ++ bytes_of_words ((c.take size).drop lcp) }
    else none
  else none

/-- The inner loop of the constructor: `size` more records of the current bucket are
read from the source `it` and written as deltas against `prev`. -/
def construct_deltas (MAX_NUM_TERMS_PER_QUERY terminator : Nat) :
    Nat → List completion_record → List Nat → builder →
      Option (builder × List completion_record)
  | 0, it, _, bl => some (bl, it)
  | _ + 1, [], _, _ => none
  | size + 1, record :: it, prev, bl =>
    let bl1 := { bl with m_doc_ids := bl.m_doc_ids ++ [record.doc_id] }
    let l := lcp record.completion prev
    match write MAX_NUM_TERMS_PER_QUERY terminator bl1 record.completion l with
    | none => none
    | some bl2 =>
      construct_deltas MAX_NUM_TERMS_PER_QUERY terminator size it record.completion bl2

/-- The outer loop of the constructor: `k` more buckets, the next one being `b`. -/
def construct_buckets (BucketSize MAX_NUM_TERMS_PER_QUERY terminator buckets tail : Nat) :
    Nat → Nat → List completion_record → builder → Option builder
  | 0, _, _, bl => some bl
  | _ + 1, _, [], _ => none
  | k + 1, b, header :: it, bl =>
    let bl1 := { bl with m_doc_ids := bl.m_doc_ids ++ [header.doc_id] }
    match write_header MAX_NUM_TERMS_PER_QUERY terminator bl1 header.completion with
    | none => none
    | some bl2 =>
      let bl3 := { bl2 with
        m_pointers_to_headers := bl2.m_pointers_to_headers ++ [bl2.m_headers.length] }
      let size := if b ≠ (buckets + 4294967296 - 1) % 4294967296 then BucketSize else tail
      match construct_deltas MAX_NUM_TERMS_PER_QUERY terminator size it
          header.completion bl3 with
      | none => none
      | some (bl4, it') =>
        construct_buckets BucketSize MAX_NUM_TERMS_PER_QUERY terminator buckets tail k
          (b + 1) it'
          { bl4 with
            m_pointers_to_buckets := bl4.m_pointers_to_buckets ++ [bl4.m_buckets.length] }

/-- The constructor `builder(params)`: `num_completions` is `params.num_completions`
and `input` the records of `<collection_basename>.mapped`. The bucket count
`std::ceil(double(m_size) / (BucketSize + 1))` is the integer ceiling (exact for
every size below `2^53`). -/
def construct (BucketSize MAX_NUM_TERMS_PER_QUERY terminator : Nat)
    (num_completions : Nat) (input : List completion_record) : Option builder :=
  let m_size := num_completions
  let buckets := ((m_size + BucketSize) / (BucketSize + 1)) % 4294967296
  let tail :=
    ((m_size - (m_size / (BucketSize + 1)) * (BucketSize + 1) + 18446744073709551616 - 1)
      % 18446744073709551616) % 4294967296
  construct_buckets BucketSize MAX_NUM_TERMS_PER_QUERY terminator buckets tail buckets 0 input
    { m_size := m_size, m_pointers_to_headers := [0], m_pointers_to_buckets := [0],
      m_headers := [], m_buckets := [], m_doc_ids := [] }

/-- The method `build(d)`: the arrays move into the dictionary. -/
def build (bl : builder) : integer_fc_dictionary :=
  { m_size := bl.m_size,
    m_pointers_to_headers := bl.m_pointers_to_headers,
    m_pointers_to_buckets := bl.m_pointers_to_buckets,
    m_headers := bl.m_headers,
    m_buckets := bl.m_buckets }

end builder

/-- A dictionary built from a source: the constructor followed by `build`. -/
def build_dictionary (BucketSize MAX_NUM_TERMS_PER_QUERY terminator : Nat)
    (input : List completion_record) : Option integer_fc_dictionary :=
  (builder.construct BucketSize MAX_NUM_TERMS_PER_QUERY terminator input.length input).map
    builder.build

/-! ## The corpus of the end-to-end scenarios -/

/-- The seven completions of the scenario section, closed by `TERM = 0xFFFFFFFF`,
with doc id equal to the position. -/
def spec_corpus : List completion_record :=
  [⟨[10, 20, 4294967295], 0⟩, ⟨[10, 21, 4294967295], 1⟩, ⟨[10, 30, 4294967295], 2⟩,
   ⟨[11, 5, 7, 4294967295], 3⟩, ⟨[11, 5, 8, 4294967295], 4⟩, ⟨[11, 6, 4294967295], 5⟩,
   ⟨[12, 4294967295], 6⟩]

/-- The dictionary the builder produces for `spec_corpus` with `BucketSize = 2`. -/
def spec_dictionary : integer_fc_dictionary :=
  { m_size := 7,
    m_pointers_to_headers := [0, 2, 5, 6],
    m_pointers_to_buckets := [0, 12, 24, 24],
    m_headers := [10, 20, 11, 5, 7, 12],
    m_buckets := [1, 1, 21, 0, 0, 0, 1, 1, 30, 0, 0, 0, 2, 1, 8, 0, 0, 0, 1, 1, 6, 0, 0, 0] }

/-- A scratch area of 64 words, as `new uint32_t[64]` may hand it out. -/
def scratch0 : List Nat := List.replicate 64 0

/-! ## Vocabulary of the correctness statements -/

/-- The stored form of a source completion: the closing terminator is dropped
(`c.begin() .. c.begin() + c.size() - 1`). -/
def strip (c : List Nat) : List Nat := c.take (c.length - 1)

/-- The stored sequences of a source, in source order. -/
def stored (src : List completion_record) : List (List Nat) :=
  src.map (fun r => strip r.completion)

/-- The byte image of the delta record of `e` against its predecessor `prev`:
the lcp byte, the suffix-length byte, the suffix words. -/
def enc_delta (prev e : List Nat) : List Nat :=
  builder.lcp e prev :: (e.length - builder.lcp e prev) ::
    bytes_of_words (e.drop (builder.lcp e prev))

/-- The byte image of a run of delta records, each against the entry before it. -/
def enc_deltas : List Nat → List (List Nat) → List Nat
  | _, [] => []
  | prev, e :: es => enc_delta prev e ++ enc_deltas e es

/-- A source the builder is meant for: `N >= 1` records, `N` not a multiple of
`BucketSize + 1`, every completion made of 1 to `MAX - 1` 32-bit terms different from the
terminator and closed by the terminator, the stored sequences strictly increasing for
`uint32_range_compare`. The sizes are such that `int` indices and `uint32_t` ids do not
wrap, and `MAX` fits the length bytes. -/
structure ValidSource (BucketSize MAX_NUM_TERMS_PER_QUERY terminator : Nat)
    (src : List completion_record) : Prop where
  nonempty : 0 < src.length
  size_lt : src.length < 2147483648
  bucket_lt : BucketSize + 1 < 4294967296
  not_multiple : src.length % (BucketSize + 1) ≠ 0
  max_le : MAX_NUM_TERMS_PER_QUERY ≤ 255
  shape : ∀ r ∈ src, 2 ≤ r.completion.length ∧
    r.completion.length ≤ MAX_NUM_TERMS_PER_QUERY ∧
    r.completion.getLast? = some terminator ∧
    ∀ x ∈ strip r.completion, x ≠ terminator ∧ x < 4294967296
  increasing : (stored src).Pairwise (fun a b => uint32_range_compare a b < 0)

/-- A pointer table `P` over `data` after `b` segments: `P` has `b + 1` entries, the first
one is 0, the last one is the current length of `data`, and segment `i` sits at `P[i]` and
ends at `P[i+1]`. -/
def Segmented (P data : List Nat) (b : Nat) (seg : Nat → List Nat) : Prop :=
  P.length = b + 1 ∧ P[0]? = some 0 ∧ P[b]? = some data.length ∧
    ∀ i, i < b → ∃ s, P[i]? = some s ∧ P[i + 1]? = some (s + (seg i).length) ∧
      s + (seg i).length ≤ data.length ∧ seg i <+: data.drop s

/-- The header segment of bucket `i` of the stored sequences `S`. -/
def hseg (BucketSize : Nat) (S : List (List Nat)) (i : Nat) : List Nat :=
  S.getD (i * (BucketSize + 1)) []

/-- The number of delta records of bucket `i` among `N` completions with `N` not a
multiple of `BucketSize + 1`: `BucketSize`, but `N % (BucketSize + 1) - 1` in the
last bucket. -/
def delta_count (BucketSize N i : Nat) : Nat :=
  if i ≠ (N + BucketSize) / (BucketSize + 1) - 1 then BucketSize
  else N % (BucketSize + 1) - 1

/-- The entries of bucket `i` that follow its header. -/
def bucket_entries (BucketSize : Nat) (S : List (List Nat)) (i : Nat) : List (List Nat) :=
  (S.drop (i * (BucketSize + 1) + 1)).take (delta_count BucketSize S.length i)

/-- The byte segment of bucket `i`. -/
def bseg (BucketSize : Nat) (S : List (List Nat)) (i : Nat) : List Nat :=
  enc_deltas (hseg BucketSize S i) (bucket_entries BucketSize S i)

/-- The arrays of `d` hold the sequences `S` bucket by bucket: the header of bucket `b` is
`S[b * (BucketSize + 1)]`, `bucket_size` counts the entries that follow it, and the bytes
between the bucket's two pointers are the delta records of those entries. -/
structure Represents (BucketSize : Nat) (d : integer_fc_dictionary)
    (S : List (List Nat)) : Prop where
  size_eq : d.m_size = S.length
  buckets_eq : d.buckets = (S.length + BucketSize) / (BucketSize + 1)
  header_eq : ∀ b, b < d.buckets → d.header b = S[b * (BucketSize + 1)]?
  bucket_size_eq : ∀ b, b < d.buckets →
    d.bucket_size BucketSize b = delta_count BucketSize S.length b
  deltas : ∀ b, b < d.buckets → ∃ pb pe,
    pointers_at d.m_pointers_to_buckets b = some (pb, pe) ∧
    pe = pb + (bseg BucketSize S b).length ∧
    bseg BucketSize S b <+: d.m_buckets.drop pb

/-- Entries of a bucket fit a buffer of `cap` words and the length bytes, and their
terms are 32-bit words. -/
def EntriesFit (cap : Nat) (es : List (List Nat)) : Prop :=
  ∀ e ∈ es, e.length ≤ cap ∧ e.length < 256 ∧ ∀ w ∈ e, w < 4294967296

/-! ## The scans and the cursor read on decoded entries -/

namespace integer_fc_dictionary

/-- The cursor of the decoding loops (`extract`, the in-bucket scans) followed over `k`
records from byte offset `curr`: each record is decoded over the buffer and the cursor
advances by `(l - lcp_len) * sizeof(uint32_t) + 2`. Returns the final cursor and, for every
record read, the pair `(lcp_len, l - lcp_len)`. -/
def decode_records (d : integer_fc_dictionary) :
    Nat → Nat → List Nat → Option (Nat × List (Nat × Nat))
  | 0, curr, _ => some (curr, [])
  | k + 1, curr, out =>
    match d.decode curr out with
    | none => none
    | some (l, out', lcp_len) =>
      match decode_records d k (advance curr l lcp_len) out' with
      | none => none
      | some (c, recs) => some (c, (lcp_len, l - lcp_len) :: recs)

end integer_fc_dictionary

/-- The pairs `(lcp, suffix length)` of a run of entries, each against the entry before. -/
def delta_records : List Nat → List (List Nat) → List (Nat × Nat)
  | _, [] => []
  | prev, e :: es => (builder.lcp e prev, e.length - builder.lcp e prev) :: delta_records e es

/-- The in-bucket `locate` loop read on the decoded entries of a bucket. -/
def locate_entries (t : List Nat) : Nat → List (List Nat) → Option Nat
  | _, [] => none
  | i, e :: es =>
    if uint32_range_compare t e = 0 then some i
    else if uint32_range_compare t e < 0 then some invalid_term_id
    else locate_entries t (i + 1) es

/-- The `left_locate` loop read on the decoded entries of a bucket. -/
def left_locate_entries (p : List Nat) (n : Nat) : Nat → List (List Nat) → Nat
  | _, [] => (n + 1) % 4294967296
  | i, e :: es =>
    if uint32_range_compare_n e p p.length = 0 then i
    else left_locate_entries p n (i + 1) es

/-- The `right_locate` loop read on the decoded entries of a bucket. -/
def right_locate_entries (p : List Nat) (n : Nat) : Nat → List (List Nat) → Nat
  | _, [] => n
  | i, e :: es =>
    if uint32_range_compare_n e p p.length > 0 then i - 1
    else right_locate_entries p n (i + 1) es

/-- The `left_locate2` loop read on the decoded entries of a bucket. -/
def left_locate2_entries (p : List Nat) (n : Nat) : Nat → List (List Nat) → Nat
  | _, [] => (n + 1) % 4294967296
  | i, e :: es =>
    if uint32_range_compare_n e p p.length ≥ 0 then i
    else left_locate2_entries p n (i + 1) es

/-- The arrays a builder would have to produce for the first six completions of the
scenario corpus with `BucketSize = 2`: two buckets of three completions. -/
def full_tail_dictionary : integer_fc_dictionary :=
  { m_size := 6,
    m_pointers_to_headers := [0, 2, 5],
    m_pointers_to_buckets := [0, 12, 24],
    m_headers := [10, 20, 11, 5, 7],
    m_buckets := [1, 1, 21, 0, 0, 0, 1, 1, 30, 0, 0, 0, 2, 1, 8, 0, 0, 0, 1, 1, 6, 0, 0, 0] }

end autocomplete

/-! # Proofs -/

namespace autocomplete
open integer_fc_dictionary

/-! ## The comparator is a strict total order -/

theorem uint32_range_compare_self (a : List Nat) : uint32_range_compare a a = 0 := by
  induction a with
  | nil => rfl
  | cons x xs ih => simp [uint32_range_compare, ih]

theorem uint32_range_compare_values (a b : List Nat) :
    uint32_range_compare a b = -1 ∨ uint32_range_compare a b = 0 ∨
      uint32_range_compare a b = 1 := by
  induction a generalizing b with
  | nil => cases b <;> simp [uint32_range_compare]
  | cons x xs ih =>
    cases b with
    | nil => simp [uint32_range_compare]
    | cons y ys =>
      simp only [uint32_range_compare]
      split_ifs
      · simp
      · simp
      · exact ih ys

theorem uint32_range_compare_eq_zero {a b : List Nat} :
    uint32_range_compare a b = 0 ↔ a = b := by
  induction a generalizing b with
  | nil => cases b <;> simp [uint32_range_compare]
  | cons x xs ih =>
    cases b with
    | nil => simp [uint32_range_compare]
    | cons y ys =>
      simp only [uint32_range_compare]
      split_ifs with h1 h2
      · simp; omega
      · simp; omega
      · have : x = y := by omega
        simp [this, ih]

theorem uint32_range_compare_swap (a b : List Nat) :
    uint32_range_compare b a = - uint32_range_compare a b := by
  induction a generalizing b with
  | nil => cases b <;> simp [uint32_range_compare]
  | cons x xs ih =>
    cases b with
    | nil => simp [uint32_range_compare]
    | cons y ys =>
      simp only [uint32_range_compare]
      split_ifs <;> first | omega | simp | exact ih ys

theorem uint32_range_compare_trans {a b c : List Nat}
    (h1 : uint32_range_compare a b < 0) (h2 : uint32_range_compare b c < 0) :
    uint32_range_compare a c < 0 := by
  induction a generalizing b c with
  | nil =>
    cases b with
    | nil => simp [uint32_range_compare] at h1
    | cons y ys =>
      cases c with
      | nil => simp [uint32_range_compare] at h2
      | cons z zs => simp [uint32_range_compare]
  | cons x xs ih =>
    cases b with
    | nil => simp [uint32_range_compare] at h1
    | cons y ys =>
      cases c with
      | nil => simp [uint32_range_compare] at h2
      | cons z zs =>
        simp only [uint32_range_compare] at h1 h2 ⊢
        split_ifs at h1 h2 ⊢ <;> first | omega | exact ih h1 h2

theorem uint32_range_compare_le_trans {a b c : List Nat}
    (h1 : uint32_range_compare a b ≤ 0) (h2 : uint32_range_compare b c ≤ 0) :
    uint32_range_compare a c ≤ 0 := by
  rcases lt_or_eq_of_le h1 with h1 | h1
  · rcases lt_or_eq_of_le h2 with h2 | h2
    · exact le_of_lt (uint32_range_compare_trans h1 h2)
    · rw [uint32_range_compare_eq_zero] at h2; subst h2; exact le_of_lt h1
  · rw [uint32_range_compare_eq_zero] at h1; subst h1; exact h2

theorem uint32_range_compare_take_mono {a b : List Nat} (n : Nat)
    (h : uint32_range_compare a b ≤ 0) :
    uint32_range_compare (a.take n) (b.take n) ≤ 0 := by
  induction n generalizing a b with
  | zero => simp [uint32_range_compare]
  | succ n ih =>
    cases a with
    | nil => cases b <;> simp [uint32_range_compare]
    | cons x xs =>
      cases b with
      | nil => simp [uint32_range_compare] at h
      | cons y ys =>
        simp only [List.take_succ_cons, uint32_range_compare] at h ⊢
        split_ifs at h ⊢ <;> first | omega | exact ih h

/-- With the query length as third argument the prefix comparison is the full comparison of
the truncated entry against the query. -/
theorem uint32_range_compare_n_length (e p : List Nat) :
    uint32_range_compare_n e p p.length = uint32_range_compare (e.take p.length) p := by
  simp [uint32_range_compare_n]

theorem uint32_range_compare_n_mono {a b : List Nat} (p : List Nat)
    (h : uint32_range_compare a b ≤ 0) :
    uint32_range_compare_n a p p.length ≤ uint32_range_compare_n b p p.length := by
  rw [uint32_range_compare_n_length, uint32_range_compare_n_length]
  have hm := uint32_range_compare_take_mono p.length h
  have key : ∀ x y : List Nat, uint32_range_compare x y ≤ 0 →
      uint32_range_compare p x ≤ 0 → 0 ≤ uint32_range_compare y p := by
    intro x y hxy hpx
    have h3 := uint32_range_compare_le_trans hpx hxy
    have h4 := uint32_range_compare_swap p y
    omega
  rcases uint32_range_compare_values (a.take p.length) p with v | v | v
  · rcases uint32_range_compare_values (b.take p.length) p with w | w | w <;> omega
  · have h2 : uint32_range_compare p (a.take p.length) ≤ 0 := by
      rw [uint32_range_compare_swap]; omega
    have := key _ _ hm h2
    omega
  · have h2 : uint32_range_compare p (a.take p.length) ≤ 0 := by
      rw [uint32_range_compare_swap]; omega
    have h5 := key _ _ hm h2
    rcases uint32_range_compare_values (b.take p.length) p with w | w | w
    · omega
    · rw [uint32_range_compare_eq_zero] at w
      rw [w] at hm
      omega
    · omega

theorem uint32_range_compare_n_eq_zero {e p : List Nat} :
    uint32_range_compare_n e p p.length = 0 ↔ p <+: e := by
  rw [uint32_range_compare_n_length, uint32_range_compare_eq_zero, List.prefix_iff_eq_take]
  exact eq_comm

/-! ## The byte image of delta records and one decoding step -/

theorem bytes_of_words_length (ws : List Nat) : (bytes_of_words ws).length = 4 * ws.length := by
  induction ws with
  | nil => rfl
  | cons w ws ih => simp [bytes_of_words, bytes_of_word, ih]; omega

theorem words_of_bytes_of_words (ws : List Nat) (h : ∀ w ∈ ws, w < 4294967296) :
    words_of_bytes (bytes_of_words ws) = ws := by
  induction ws with
  | nil => rfl
  | cons w ws ih =>
    have hw : w < 4294967296 := h w (List.mem_cons_self _ _)
    have ih' := ih (fun x hx => h x (List.mem_cons_of_mem _ hx))
    simp only [bytes_of_words, bytes_of_word, List.cons_append, List.nil_append, words_of_bytes,
      List.append_eq, ih']
    congr 1
    omega

theorem lcp_le_left (a b : List Nat) : builder.lcp a b ≤ a.length := by
  induction a generalizing b with
  | nil => simp [builder.lcp]
  | cons x xs ih =>
    cases b with
    | nil => simp [builder.lcp]
    | cons y ys =>
      simp only [builder.lcp]
      split_ifs
      · have := ih ys; simp; omega
      · simp

theorem lcp_le_right (a b : List Nat) : builder.lcp a b ≤ b.length := by
  induction a generalizing b with
  | nil => simp [builder.lcp]
  | cons x xs ih =>
    cases b with
    | nil => simp [builder.lcp]
    | cons y ys =>
      simp only [builder.lcp]
      split_ifs
      · have := ih ys; simp; omega
      · simp

theorem lcp_take (a b : List Nat) :
    a.take (builder.lcp a b) = b.take (builder.lcp a b) := by
  induction a generalizing b with
  | nil => simp [builder.lcp]
  | cons x xs ih =>
    cases b with
    | nil => simp [builder.lcp]
    | cons y ys =>
      simp only [builder.lcp]
      split_ifs with h
      · simp [h, ih ys]
      · simp

theorem lcp_terminated (t : Nat) (a b : List Nat) (hne : a ≠ b)
    (ha : ∀ x ∈ a, x ≠ t) (hb : ∀ x ∈ b, x ≠ t) :
    builder.lcp (a ++ [t]) (b ++ [t]) = builder.lcp a b := by
  induction a generalizing b with
  | nil =>
    cases b with
    | nil => exact absurd rfl hne
    | cons y ys =>
      have : ¬ t = y := fun h => hb y (List.mem_cons_self _ _) h.symm
      simp [builder.lcp, this]
  | cons x xs ih =>
    cases b with
    | nil =>
      have : ¬ x = t := ha x (List.mem_cons_self _ _)
      simp [builder.lcp, this]
    | cons y ys =>
      simp only [List.cons_append, builder.lcp, List.append_eq]
      split_ifs with h
      · subst h
        rw [ih ys (fun h => hne (by rw [h])) (fun z hz => ha z (List.mem_cons_of_mem _ hz))
          (fun z hz => hb z (List.mem_cons_of_mem _ hz))]
      · rfl

theorem prefix_drop_facts {a b : Nat} {rest ys : List Nat} {curr : Nat}
    (h : a :: b :: rest <+: ys.drop curr) :
    ys[curr]? = some a ∧ ys[curr + 1]? = some b ∧
      (ys.drop (curr + 2)).take rest.length = rest ∧ curr + 2 + rest.length ≤ ys.length := by
  obtain ⟨t, ht⟩ := h
  have h0 : (ys.drop curr)[0]? = some a := by rw [← ht]; rfl
  have h1 : (ys.drop curr)[1]? = some b := by rw [← ht]; simp
  have h2 : (ys.drop curr).drop 2 = rest ++ t := by rw [← ht]; rfl
  have hl : (ys.drop curr).length = 2 + rest.length + t.length := by
    rw [← ht]; simp; omega
  rw [List.getElem?_drop] at h0 h1
  rw [List.drop_drop] at h2
  rw [List.length_drop] at hl
  refine ⟨by simpa using h0, h1, ?_, by omega⟩
  rw [h2]
  simp

theorem decode_step (d : integer_fc_dictionary) (curr : Nat) (prev e out : List Nat)
    (h1 : enc_delta prev e <+: d.m_buckets.drop curr)
    (h2 : prev <+: out) (h3 : e.length ≤ out.length) (h4 : e.length < 256)
    (h5 : ∀ w ∈ e, w < 4294967296) :
    d.decode curr out = some (e.length, e ++ out.drop e.length, builder.lcp e prev) ∧
      advance curr e.length (builder.lcp e prev) = curr + (enc_delta prev e).length := by
  have hl := lcp_le_left e prev
  have hr := lcp_le_right e prev
  have ht := lcp_take e prev
  obtain ⟨g0, g1, g2, g3⟩ := prefix_drop_facts h1
  rw [bytes_of_words_length, List.length_drop] at g2 g3
  constructor
  · unfold decode
    rw [g0, g1]
    simp only []
    have e1 : (e.length - builder.lcp e prev) * 4 = 4 * (e.length - builder.lcp e prev) := by
      omega
    rw [e1, g2]
    have e2 : builder.lcp e prev + (e.length - builder.lcp e prev) = e.length := by omega
    rw [e2, if_pos ⟨by omega, h3⟩]
    have e3 : e.length % 256 = e.length := Nat.mod_eq_of_lt h4
    rw [e3, words_of_bytes_of_words _ (fun w hw => h5 w (List.mem_of_mem_drop hw))]
    obtain ⟨t, rfl⟩ := h2
    have e4 : List.take (builder.lcp e prev) (prev ++ t) = e.take (builder.lcp e prev) := by
      rw [List.take_append_of_le_length hr, ht]
    rw [e4, List.take_append_drop]
  · unfold advance enc_delta
    simp [bytes_of_words_length]
    omega

/-! ## The in-bucket scans over a run of delta records -/

theorem enc_deltas_cons_prefix {prev e : List Nat} {es : List (List Nat)} {ys : List Nat}
    {curr : Nat} (h : enc_deltas prev (e :: es) <+: ys.drop curr) :
    enc_delta prev e <+: ys.drop curr ∧
      enc_deltas e es <+: ys.drop (curr + (enc_delta prev e).length) := by
  obtain ⟨t, ht⟩ := h
  simp only [enc_deltas, List.append_assoc] at ht
  refine ⟨⟨_, ht⟩, ?_⟩
  have : ys.drop (curr + (enc_delta prev e).length) = enc_deltas e es ++ t := by
    rw [← List.drop_drop, ← ht, List.drop_left]
  rw [this]
  exact List.prefix_append _ _

/-- One iteration of any of the scans: the record of `e` is decoded over a buffer that
starts with the previous entry. -/
theorem scan_step (d : integer_fc_dictionary) (curr : Nat) (prev e : List Nat)
    (es : List (List Nat)) (out : List Nat)
    (hc : enc_deltas prev (e :: es) <+: d.m_buckets.drop curr)
    (ho : prev <+: out) (h3 : e.length ≤ out.length) (h4 : e.length < 256)
    (h5 : ∀ w ∈ e, w < 4294967296) :
    d.decode curr out = some (e.length, e ++ out.drop e.length, builder.lcp e prev) ∧
      enc_deltas e es <+: d.m_buckets.drop (advance curr e.length (builder.lcp e prev)) ∧
      (e ++ out.drop e.length).length = out.length ∧
      (e ++ out.drop e.length).take e.length = e := by
  obtain ⟨c1, c2⟩ := enc_deltas_cons_prefix hc
  obtain ⟨s1, s2⟩ := decode_step d curr prev e out c1 ho h3 h4 h5
  refine ⟨s1, ?_, ?_, ?_⟩
  · rw [s2]; exact c2
  · simp; omega
  · simp

theorem EntriesFit.head_fit {cap : Nat} {e : List Nat} {es : List (List Nat)}
    (h : EntriesFit cap (e :: es)) :
    e.length ≤ cap ∧ e.length < 256 ∧ ∀ w ∈ e, w < 4294967296 :=
  h e (List.mem_cons_self _ _)

theorem EntriesFit.tail_fit {cap : Nat} {e : List Nat} {es : List (List Nat)}
    (h : EntriesFit cap (e :: es)) : EntriesFit cap es :=
  fun x hx => h x (List.mem_cons_of_mem _ hx)

/-- The loop of `extract` reaches entry `k` of the run `prev :: es`. -/
theorem extract_loop_spec (d : integer_fc_dictionary) (es : List (List Nat)) :
    ∀ (k curr : Nat) (prev out x : List Nat),
      enc_deltas prev es <+: d.m_buckets.drop curr → prev <+: out →
      EntriesFit out.length es → (prev :: es)[k]? = some x →
      ∃ out', extract_loop d k curr out prev.length = some (x.length, out') ∧
        out'.take x.length = x ∧ out'.length = out.length := by
  induction es with
  | nil =>
    intro k curr prev out x _ ho _ hk
    cases k with
    | zero =>
      simp at hk; subst hk
      exact ⟨out, rfl, (List.prefix_iff_eq_take.mp ho).symm, rfl⟩
    | succ k => simp at hk
  | cons e es ih =>
    intro k curr prev out x hc ho hf hk
    cases k with
    | zero =>
      simp at hk; subst hk
      exact ⟨out, rfl, (List.prefix_iff_eq_take.mp ho).symm, rfl⟩
    | succ k =>
      obtain ⟨f1, f2, f3⟩ := hf.head_fit
      obtain ⟨s1, s2, s3, s4⟩ := scan_step d curr prev e es out hc ho f1 f2 f3
      have hk' : (e :: es)[k]? = some x := by simpa using hk
      have hf' : EntriesFit (e ++ out.drop e.length).length es := by rw [s3]; exact hf.tail_fit
      obtain ⟨out', r1, r2, r3⟩ := ih k _ e _ x s2 (List.prefix_append _ _) hf' hk'
      refine ⟨out', ?_, r2, by rw [r3, s3]⟩
      simp only [extract_loop, s1]
      exact r1

/-- The loop of the in-bucket `locate` finds an entry of a run whose earlier entries are
all smaller than it. -/
theorem locate_scan_found (d : integer_fc_dictionary) (t : List Nat) (es : List (List Nat)) :
    ∀ (j i curr : Nat) (prev out : List Nat),
      enc_deltas prev es <+: d.m_buckets.drop curr → prev <+: out →
      EntriesFit out.length es → es[j]? = some t →
      (∀ j' e', j' < j → es[j']? = some e' → 0 < uint32_range_compare t e') →
      locate_scan d t es.length i curr out = some (i + j) := by
  induction es with
  | nil => intro j i curr prev out _ _ _ hj; simp at hj
  | cons e es ih =>
    intro j i curr prev out hc ho hf hj hlt
    obtain ⟨f1, f2, f3⟩ := hf.head_fit
    obtain ⟨s1, s2, s3, s4⟩ := scan_step d curr prev e es out hc ho f1 f2 f3
    simp only [List.length_cons, locate_scan, s1, s4]
    cases j with
    | zero =>
      simp at hj; subst hj
      simp [uint32_range_compare_self]
    | succ j =>
      have h0 : 0 < uint32_range_compare t e := hlt 0 e (by omega) (by simp)
      rw [if_neg (by omega), if_neg (by omega)]
      have hf' : EntriesFit (e ++ out.drop e.length).length es := by rw [s3]; exact hf.tail_fit
      have := ih j (i + 1) _ e _ s2 (List.prefix_append _ _) hf' (by simpa using hj)
        (fun j' e' hj' he' => hlt (j' + 1) e' (by omega) (by simpa using he'))
      rw [this]; congr 1; omega

/-- The loop of `left_locate` returns either the position of an entry that starts with
`p`, or `n + 1`. -/
theorem left_locate_scan_spec (d : integer_fc_dictionary) (p : List Nat) (n : Nat)
    (es : List (List Nat)) :
    ∀ (i curr : Nat) (prev out : List Nat),
      enc_deltas prev es <+: d.m_buckets.drop curr → prev <+: out →
      EntriesFit out.length es →
      ∃ off, left_locate_scan d p n es.length i curr out = some off ∧
        ((∃ j e, off = i + j ∧ es[j]? = some e ∧ p <+: e ∧
            ∀ j' e', j' < j → es[j']? = some e' → ¬ p <+: e') ∨
          (off = (n + 1) % 4294967296 ∧ ∀ e ∈ es, ¬ p <+: e)) := by
  induction es with
  | nil =>
    intro i curr prev out _ _ _
    exact ⟨_, rfl, Or.inr ⟨rfl, by simp⟩⟩
  | cons e es ih =>
    intro i curr prev out hc ho hf
    obtain ⟨f1, f2, f3⟩ := hf.head_fit
    obtain ⟨s1, s2, s3, s4⟩ := scan_step d curr prev e es out hc ho f1 f2 f3
    simp only [List.length_cons, left_locate_scan, s1, s4]
    by_cases hz : uint32_range_compare_n e p p.length = 0
    · rw [if_pos hz]
      refine ⟨i, rfl, Or.inl ⟨0, e, rfl, by simp, uint32_range_compare_n_eq_zero.mp hz, ?_⟩⟩
      intro j' e' hj'; omega
    · rw [if_neg hz]
      have hne : ¬ p <+: e := fun h => hz (uint32_range_compare_n_eq_zero.mpr h)
      have hf' : EntriesFit (e ++ out.drop e.length).length es := by rw [s3]; exact hf.tail_fit
      obtain ⟨off, r1, r2⟩ := ih (i + 1) _ e _ s2 (List.prefix_append _ _) hf'
      refine ⟨off, r1, ?_⟩
      rcases r2 with ⟨j, x, hj, hx, hp, hmin⟩ | ⟨hoff, hnone⟩
      · refine Or.inl ⟨j + 1, x, by omega, by simpa using hx, hp, ?_⟩
        intro j' e' hj' he'
        cases j' with
        | zero => simp at he'; subst he'; exact hne
        | succ j' => exact hmin j' e' (by omega) (by simpa using he')
      · refine Or.inr ⟨hoff, ?_⟩
        intro x hx
        rcases List.mem_cons.mp hx with h | h
        · subst h; exact hne
        · exact hnone x h

/-- The loop of `right_locate` counts the leading entries that do not compare greater
than `p`. -/
theorem right_locate_scan_spec (d : integer_fc_dictionary) (p : List Nat) (n : Nat)
    (es : List (List Nat)) :
    ∀ (i curr : Nat) (prev out : List Nat),
      enc_deltas prev es <+: d.m_buckets.drop curr → prev <+: out →
      EntriesFit out.length es →
      ∃ j, j ≤ es.length ∧
        (∀ j' e', j' < j → es[j']? = some e' → uint32_range_compare_n e' p p.length ≤ 0) ∧
        ((∃ e, es[j]? = some e ∧ 0 < uint32_range_compare_n e p p.length ∧
            right_locate_scan d p n es.length i curr out = some (i + j - 1)) ∨
          (j = es.length ∧ right_locate_scan d p n es.length i curr out = some n)) := by
  induction es with
  | nil =>
    intro i curr prev out _ _ _
    exact ⟨0, le_refl _, by intro j' e' h; omega, Or.inr ⟨rfl, rfl⟩⟩
  | cons e es ih =>
    intro i curr prev out hc ho hf
    obtain ⟨f1, f2, f3⟩ := hf.head_fit
    obtain ⟨s1, s2, s3, s4⟩ := scan_step d curr prev e es out hc ho f1 f2 f3
    simp only [List.length_cons, right_locate_scan, s1, s4]
    by_cases hz : uint32_range_compare_n e p p.length > 0
    · rw [if_pos hz]
      exact ⟨0, by omega, by intro j' e' h; omega, Or.inl ⟨e, by simp, hz, rfl⟩⟩
    · rw [if_neg hz]
      have hf' : EntriesFit (e ++ out.drop e.length).length es := by rw [s3]; exact hf.tail_fit
      obtain ⟨j, r1, r2, r3⟩ := ih (i + 1) _ e _ s2 (List.prefix_append _ _) hf'
      refine ⟨j + 1, by omega, ?_, ?_⟩
      · intro j' e' hj' he'
        cases j' with
        | zero => simp at he'; subst he'; omega
        | succ j' => exact r2 j' e' (by omega) (by simpa using he')
      · rcases r3 with ⟨x, hx, hpos, hr⟩ | ⟨hj, hr⟩
        · refine Or.inl ⟨x, by simpa using hx, hpos, ?_⟩
          rw [hr]; congr 1; omega
        · exact Or.inr ⟨by omega, hr⟩

/-! ## The builder lays the source out bucket by bucket -/

theorem Segmented.push {P data : List Nat} {b : Nat} {seg : Nat → List Nat}
    (h : Segmented P data b seg) :
    Segmented (P ++ [(data ++ seg b).length]) (data ++ seg b) (b + 1) seg := by
  obtain ⟨h1, h0, h2, h3⟩ := h
  refine ⟨by simp [h1], ?_, ?_, ?_⟩
  · rw [List.getElem?_append_left (by omega)]; exact h0
  · rw [List.getElem?_append_right (by omega)]
    simp [h1]
  · intro i hi
    by_cases hib : i < b
    · obtain ⟨s, a1, a2, a3, a4⟩ := h3 i hib
      refine ⟨s, ?_, ?_, ?_, ?_⟩
      · rw [List.getElem?_append_left (by omega)]; exact a1
      · rw [List.getElem?_append_left (by omega)]; exact a2
      · simp; omega
      · rw [List.drop_append_eq_append_drop]
        exact a4.trans (List.prefix_append _ _)
    · have hib' : i = b := by omega
      subst hib'
      refine ⟨data.length, ?_, ?_, ?_, ?_⟩
      · rw [List.getElem?_append_left (by omega)]; exact h2
      · rw [List.getElem?_append_right (by omega)]
        simp [h1]
      · simp
      · simp

theorem strip_append_singleton (e : List Nat) (t : Nat) : strip (e ++ [t]) = e := by
  simp [strip]

theorem eq_strip_append_of_getLast? {c : List Nat} {t : Nat} (h : c.getLast? = some t) :
    c = strip c ++ [t] := by
  have := List.dropLast_append_getLast? t h
  rw [List.dropLast_eq_take] at this
  exact this.symm

theorem write_header_spec (MAX term : Nat) (bl : builder) (e : List Nat)
    (hlen : e.length + 1 ≤ MAX) :
    builder.write_header MAX term bl (e ++ [term]) =
      some { bl with m_headers := bl.m_headers ++ e } := by
  unfold builder.write_header
  rw [if_pos ⟨by simp, by simpa using hlen, by simp⟩]
  simp

theorem write_spec (MAX term : Nat) (hmax : MAX ≤ 256) (bl : builder) (e prev : List Nat)
    (hlen : e.length + 1 ≤ MAX) (hne : e ≠ prev)
    (he : ∀ x ∈ e, x ≠ term) (hp : ∀ x ∈ prev, x ≠ term) :
    builder.write MAX term bl (e ++ [term]) (builder.lcp (e ++ [term]) (prev ++ [term])) =
      some { bl with m_buckets := bl.m_buckets ++ enc_delta prev e } := by
  have hl := lcp_le_left e prev
  unfold builder.write
  rw [if_pos ⟨by simp, by simpa using hlen, by simp⟩, lcp_terminated term e prev hne he hp]
  have e1 : ((e ++ [term]).length - 1) % 256 = e.length := by
    simp; omega
  simp only [e1]
  rw [if_pos (by omega)]
  have e2 : builder.lcp e prev % 256 = builder.lcp e prev := Nat.mod_eq_of_lt (by omega)
  have e3 : (e.length - builder.lcp e prev) % 256 = e.length - builder.lcp e prev :=
    Nat.mod_eq_of_lt (by omega)
  rw [e2, e3]
  simp [enc_delta]

theorem construct_deltas_spec (MAX term : Nat) (hmax : MAX ≤ 256) :
    ∀ (recs rest : List completion_record) (prev : List Nat) (bl : builder),
      (∀ r ∈ recs, r.completion = strip r.completion ++ [term] ∧
        r.completion.length ≤ MAX ∧ ∀ x ∈ strip r.completion, x ≠ term) →
      (∀ x ∈ prev, x ≠ term) →
      List.Chain (fun a b => a ≠ b) prev (stored recs) →
      builder.construct_deltas MAX term recs.length (recs ++ rest) (prev ++ [term]) bl =
        some ({ bl with
                m_buckets := bl.m_buckets ++ enc_deltas prev (stored recs),
                m_doc_ids := bl.m_doc_ids ++ recs.map (fun r => r.doc_id) }, rest) := by
  intro recs
  induction recs with
  | nil =>
    intro rest prev bl _ _ _
    simp [builder.construct_deltas, stored, enc_deltas]
  | cons r recs ih =>
    intro rest prev bl hs hp hch
    obtain ⟨hc, hlen, hnt⟩ := hs r (List.mem_cons_self _ _)
    rcases r with ⟨c, did⟩
    simp only [stored, List.map_cons] at hch ⊢
    simp only at hc hlen hnt
    generalize hE : strip c = e at hc hnt hch ⊢
    subst hc
    have hch' := List.chain_cons.mp hch
    have hlen' : e.length + 1 ≤ MAX := by simpa using hlen
    simp only [List.length_cons, List.cons_append, builder.construct_deltas]
    rw [write_spec MAX term hmax _ e prev hlen' (Ne.symm hch'.1) hnt hp]
    simp only []
    have := fun bl' => ih rest e bl'
      (fun r hr => hs r (List.mem_cons_of_mem _ hr)) hnt hch'.2
    simp only [stored, List.append_eq] at this ⊢
    rw [this]
    simp [enc_deltas]

theorem bucket_count_eq (N B : Nat) (hm : N % (B + 1) ≠ 0) :
    (N + B) / (B + 1) = N / (B + 1) + 1 := by
  have h1 := Nat.div_add_mod N (B + 1)
  have h2 : N % (B + 1) < B + 1 := Nat.mod_lt N (by omega)
  generalize N / (B + 1) = q at h1 ⊢
  generalize N % (B + 1) = r at h1 h2 hm
  apply Nat.div_eq_of_lt_le
  · have : (q + 1) * (B + 1) = (B + 1) * q + (B + 1) := by ring
    omega
  · show N + B < (q + 1 + 1) * (B + 1)
    have : (q + 1 + 1) * (B + 1) = (B + 1) * q + (B + 1) + (B + 1) := by ring
    omega

theorem bucket_start_lt (N B b : Nat) (hm : N % (B + 1) ≠ 0)
    (hb : b < (N + B) / (B + 1)) : b * (B + 1) < N := by
  rw [bucket_count_eq N B hm] at hb
  have h1 := Nat.div_add_mod N (B + 1)
  have h3 : b * (B + 1) ≤ (N / (B + 1)) * (B + 1) := Nat.mul_le_mul_right _ (by omega)
  rw [Nat.mul_comm (N / (B + 1))] at h3
  omega

theorem bucket_end_inner (N B b : Nat) (hm : N % (B + 1) ≠ 0)
    (hb : b + 1 < (N + B) / (B + 1)) :
    b * (B + 1) + 1 + delta_count B N b = (b + 1) * (B + 1) ∧ (b + 1) * (B + 1) < N := by
  have hlt := bucket_start_lt N B (b + 1) hm hb
  refine ⟨?_, hlt⟩
  unfold delta_count
  rw [if_pos (by omega), Nat.add_mul]
  omega

theorem bucket_end_last (N B b : Nat) (hm : N % (B + 1) ≠ 0)
    (hb : b + 1 = (N + B) / (B + 1)) :
    b * (B + 1) + 1 + delta_count B N b = N := by
  have hk := bucket_count_eq N B hm
  have h1 := Nat.div_add_mod N (B + 1)
  unfold delta_count
  rw [if_neg (by omega)]
  have : b = N / (B + 1) := by omega
  rw [this, Nat.mul_comm]
  omega

theorem bucket_end_le (N B b : Nat) (hm : N % (B + 1) ≠ 0)
    (hb : b < (N + B) / (B + 1)) :
    b * (B + 1) + 1 + delta_count B N b ≤ N := by
  by_cases h : b + 1 < (N + B) / (B + 1)
  · have := bucket_end_inner N B b hm h; omega
  · have := bucket_end_last N B b hm (by omega); omega

theorem delta_count_le (N B b : Nat) : delta_count B N b ≤ B := by
  unfold delta_count
  have h2 : N % (B + 1) < B + 1 := Nat.mod_lt N (by omega)
  split_ifs <;> omega

theorem construct_deltas_take (MAX term : Nat) (hmax : MAX ≤ 256)
    (size : Nat) (it : List completion_record) (prev : List Nat) (bl : builder)
    (hsize : size ≤ it.length)
    (hs : ∀ r ∈ it.take size, r.completion = strip r.completion ++ [term] ∧
        r.completion.length ≤ MAX ∧ ∀ x ∈ strip r.completion, x ≠ term)
    (hp : ∀ x ∈ prev, x ≠ term)
    (hch : List.Chain (fun a b => a ≠ b) prev (stored (it.take size))) :
    builder.construct_deltas MAX term size it (prev ++ [term]) bl =
      some ({ bl with
              m_buckets := bl.m_buckets ++ enc_deltas prev (stored (it.take size)),
              m_doc_ids := bl.m_doc_ids ++ (it.take size).map (fun r => r.doc_id) },
            it.drop size) := by
  have := construct_deltas_spec MAX term hmax (it.take size) (it.drop size) prev bl hs hp hch
  rw [List.take_append_drop, List.length_take, min_eq_left hsize] at this
  exact this

theorem stored_length (src : List completion_record) : (stored src).length = src.length := by
  simp [stored]

theorem stored_getElem? (src : List completion_record) (i : Nat) :
    (stored src)[i]? = (src[i]?).map (fun r => strip r.completion) := by
  simp [stored]

theorem stored_take_drop (src : List completion_record) (n m : Nat) :
    stored ((src.drop m).take n) = ((stored src).drop m).take n := by
  simp [stored, List.map_take, List.map_drop]

theorem increasing_ne {S : List (List Nat)}
    (h : S.Pairwise (fun a b => uint32_range_compare a b < 0)) :
    S.Pairwise (fun a b => a ≠ b) := by
  refine h.imp ?_
  intro a b hab he
  subst he
  rw [uint32_range_compare_self] at hab
  omega

theorem construct_buckets_spec (B MAX term : Nat) (src : List completion_record)
    (hv : ValidSource B MAX term src) :
    ∀ (k b : Nat) (it : List completion_record) (bl : builder),
      b + k = (src.length + B) / (B + 1) →
      (0 < k → it = src.drop (b * (B + 1))) →
      bl.m_size = src.length →
      Segmented bl.m_pointers_to_headers bl.m_headers b (hseg B (stored src)) →
      Segmented bl.m_pointers_to_buckets bl.m_buckets b (bseg B (stored src)) →
      ∃ bl', builder.construct_buckets B MAX term ((src.length + B) / (B + 1))
          (src.length % (B + 1) - 1) k b it bl = some bl' ∧
        bl'.m_size = src.length ∧
        Segmented bl'.m_pointers_to_headers bl'.m_headers ((src.length + B) / (B + 1))
          (hseg B (stored src)) ∧
        Segmented bl'.m_pointers_to_buckets bl'.m_buckets ((src.length + B) / (B + 1))
          (bseg B (stored src)) := by
  intro k
  induction k with
  | zero =>
    intro b it bl hbk _ hs h1 h2
    have hb : b = (src.length + B) / (B + 1) := by omega
    rw [hb] at h1 h2
    exact ⟨bl, rfl, hs, h1, h2⟩
  | succ k ih =>
    intro b it bl hbk hit hs h1 h2
    have hbK : b < (src.length + B) / (B + 1) := by omega
    have hlt := bucket_start_lt src.length B b hv.not_multiple hbK
    have hend := bucket_end_le src.length B b hv.not_multiple hbK
    rw [hit (by omega), List.drop_eq_getElem_cons hlt]
    obtain ⟨sh1, sh2, sh3, sh4⟩ := hv.shape src[b * (B + 1)] (List.getElem_mem _)
    have hc := eq_strip_append_of_getLast? sh3
    have hse : hseg B (stored src) b = strip (src[b * (B + 1)]).completion := by
      simp [hseg, stored, List.getD_eq_getElem?_getD, hlt]
    have hsb : bseg B (stored src) b = enc_deltas (strip (src[b * (B + 1)]).completion)
        (stored ((src.drop (b * (B + 1) + 1)).take (delta_count B src.length b))) := by
      rw [bseg, hse, bucket_entries, stored_take_drop, stored_length]
    have hpw := increasing_ne hv.increasing
    have hchain : List.Chain (fun a b => a ≠ b) (strip (src[b * (B + 1)]).completion)
        (stored ((src.drop (b * (B + 1) + 1)).take (delta_count B src.length b))) := by
      rw [stored_take_drop]
      have h3 : (stored src).drop (b * (B + 1)) =
          strip (src[b * (B + 1)]).completion :: (stored src).drop (b * (B + 1) + 1) := by
        rw [List.drop_eq_getElem_cons (by rw [stored_length]; exact hlt)]
        simp [stored]
      have h4 := hpw.sublist (List.drop_sublist (b * (B + 1)) (stored src))
      rw [h3] at h4
      have h5 := h4.sublist (List.Sublist.cons₂ _ (List.take_sublist
        (delta_count B src.length b) ((stored src).drop (b * (B + 1) + 1))))
      exact List.Pairwise.chain h5
    generalize src[b * (B + 1)] = r at sh1 sh2 sh3 sh4 hc hse hsb hchain ⊢
    rcases r with ⟨c, did⟩
    simp only at sh1 sh2 sh3 sh4 hc hse hsb hchain ⊢
    generalize hE : strip c = e at sh4 hc hse hsb hchain ⊢
    subst hc
    have hlen : e.length + 1 ≤ MAX := by simpa using sh2
    have hmax := hv.max_le
    have hK1 : (src.length + B) / (B + 1) ≤ src.length + 1 := by
      rw [bucket_count_eq src.length B hv.not_multiple]
      have := Nat.div_le_self src.length (B + 1)
      omega
    have hNlt := hv.size_lt
    have hsz : (if b ≠ ((src.length + B) / (B + 1) + 4294967296 - 1) % 4294967296 then B
        else src.length % (B + 1) - 1) = delta_count B src.length b := by
      unfold delta_count
      have : ((src.length + B) / (B + 1) + 4294967296 - 1) % 4294967296 =
          (src.length + B) / (B + 1) - 1 := by omega
      rw [this]
    simp only [builder.construct_buckets]
    rw [write_header_spec MAX term _ e hlen]
    simp only [hsz]
    rw [construct_deltas_take MAX term (by omega) _ _ e _ (by simp; omega) ?_
      (fun x hx => (sh4 x hx).1) hchain]
    · simp only []
      refine ih (b + 1) _ _ (by omega) ?_ hs ?_ ?_
      · intro hk
        rw [List.drop_drop]
        have := bucket_end_inner src.length B b hv.not_multiple (by omega)
        congr 1
        omega
      · have := h1.push
        rw [hse] at this
        exact this
      · have := h2.push
        rw [hsb] at this
        exact this
    · intro r hr
      have hmem : r ∈ src := List.mem_of_mem_drop (List.mem_of_mem_take hr)
      obtain ⟨t1, t2, t3, t4⟩ := hv.shape r hmem
      exact ⟨eq_strip_append_of_getLast? t3, t2, fun x hx => (t4 x hx).1⟩

theorem construct_spec (B MAX term : Nat) (src : List completion_record)
    (hv : ValidSource B MAX term src) :
    ∃ bl, builder.construct B MAX term src.length src = some bl ∧
      bl.m_size = src.length ∧
      Segmented bl.m_pointers_to_headers bl.m_headers ((src.length + B) / (B + 1))
        (hseg B (stored src)) ∧
      Segmented bl.m_pointers_to_buckets bl.m_buckets ((src.length + B) / (B + 1))
        (bseg B (stored src)) := by
  have hK := bucket_count_eq src.length B hv.not_multiple
  have hdiv := Nat.div_le_self src.length (B + 1)
  have hNlt := hv.size_lt
  have h1 := Nat.div_add_mod src.length (B + 1)
  have h2 : src.length % (B + 1) < B + 1 := Nat.mod_lt _ (by omega)
  have hnm := hv.not_multiple
  have hbl := hv.bucket_lt
  have e1 : ((src.length + B) / (B + 1)) % 4294967296 = (src.length + B) / (B + 1) := by
    rw [hK]
    generalize src.length / (B + 1) = q at hdiv
    omega
  have e2 : ((src.length - (src.length / (B + 1)) * (B + 1) + 18446744073709551616 - 1)
      % 18446744073709551616) % 4294967296 = src.length % (B + 1) - 1 := by
    rw [Nat.mul_comm]
    generalize src.length / (B + 1) = q at h1
    generalize src.length % (B + 1) = r at h1 h2 hnm
    omega
  unfold builder.construct
  simp only [e1, e2]
  refine construct_buckets_spec B MAX term src hv _ 0 src _ (by omega) (by simp) rfl ?_ ?_
  · exact ⟨rfl, rfl, rfl, fun i hi => absurd hi (by omega)⟩
  · exact ⟨rfl, rfl, rfl, fun i hi => absurd hi (by omega)⟩

theorem Segmented.lookup {P data : List Nat} {K : Nat} {seg : Nat → List Nat}
    (h : Segmented P data K seg) {b : Nat} (hb : b < K) :
    ∃ s, autocomplete.pointers_at P b = some (s, s + (seg b).length) ∧
      s + (seg b).length ≤ data.length ∧ (data.drop s).take (seg b).length = seg b ∧
      seg b <+: data.drop s := by
  obtain ⟨s, a1, a2, a3, a4⟩ := h.2.2.2 b hb
  refine ⟨s, ?_, a3, (List.prefix_iff_eq_take.mp a4).symm, a4⟩
  simp [autocomplete.pointers_at, a1, a2]

theorem build_represents (B MAX term : Nat) (src : List completion_record)
    (hv : ValidSource B MAX term src) :
    ∃ d, build_dictionary B MAX term src = some d ∧ Represents B d (stored src) := by
  obtain ⟨bl, hb, hs, hH, hB⟩ := construct_spec B MAX term src hv
  refine ⟨bl.build, by simp [build_dictionary, hb], ?_⟩
  have hKle : (src.length + B) / (B + 1) ≤ src.length + 1 := by
    rw [bucket_count_eq src.length B hv.not_multiple]
    have := Nat.div_le_self src.length (B + 1)
    omega
  have hK : bl.build.buckets = (src.length + B) / (B + 1) := by
    simp only [buckets, builder.build, hH.1]
    rw [if_neg (Nat.succ_ne_zero _)]
    exact Nat.add_sub_cancel _ 1
  have hNlt := hv.size_lt
  have hnm := hv.not_multiple
  have h1 := Nat.div_add_mod src.length (B + 1)
  have h2 : src.length % (B + 1) < B + 1 := Nat.mod_lt _ (by omega)
  refine ⟨by simp [builder.build, hs, stored_length], by rw [hK, stored_length], ?_, ?_, ?_⟩
  · intro b hb'
    rw [hK] at hb'
    obtain ⟨s, p1, p2, p3, _⟩ := hH.lookup hb'
    have hlt := bucket_start_lt src.length B b hv.not_multiple hb'
    have hS : (stored src)[b * (B + 1)]? = some (hseg B (stored src) b) := by
      simp [hseg, stored, List.getD_eq_getElem?_getD, hlt]
    rw [hS]
    unfold header
    rw [if_pos (by rw [hK]; exact hb')]
    simp only [builder.build] at p1 ⊢
    rw [p1]
    simp only []
    rw [if_pos ⟨by omega, p2⟩]
    simp [p3]
  · intro b hb'
    have hK1 : 1 ≤ (src.length + B) / (B + 1) := by
      rw [bucket_count_eq src.length B hv.not_multiple]; exact Nat.le_add_left 1 _
    have hbm : bl.build.buckets_minus_one = (src.length + B) / (B + 1) - 1 := by
      rw [buckets_minus_one, hK, if_neg (Nat.pos_iff_ne_zero.mp hK1)]
    unfold bucket_size delta_count
    rw [hbm, stored_length]
    simp only [size, builder.build, hs]
    have e0 : src.length % 4294967296 = src.length := by omega
    rw [e0]
    split_ifs
    · rfl
    · rw [Nat.mul_comm]
      generalize src.length / (B + 1) = q at h1
      generalize src.length % (B + 1) = r at h1 h2 hnm
      omega
  · intro b hb'
    rw [hK] at hb'
    obtain ⟨s, p1, _, _, p4⟩ := hB.lookup hb'
    exact ⟨s, _, p1, rfl, p4⟩

/-! ## Reading a represented dictionary -/

theorem bucket_of_lt (N B i : Nat) (hm : N % (B + 1) ≠ 0) (hi : i < N) :
    i / (B + 1) < (N + B) / (B + 1) := by
  rw [bucket_count_eq N B hm]
  have := Nat.div_le_div_right (c := B + 1) (Nat.le_of_lt hi)
  omega

/-- Position `j` of the run "header, then entries" of bucket `b` is the stored sequence
`b * (BucketSize + 1) + j`. -/
theorem bucket_run_getElem? (B : Nat) (S : List (List Nat)) (b j : Nat)
    (hm : S.length % (B + 1) ≠ 0) (hb : b < (S.length + B) / (B + 1))
    (hj : j ≤ delta_count B S.length b) :
    (hseg B S b :: bucket_entries B S b)[j]? = S[b * (B + 1) + j]? ∧
      b * (B + 1) + j < S.length := by
  have hlt := bucket_start_lt S.length B b hm hb
  have hend := bucket_end_le S.length B b hm hb
  refine ⟨?_, by omega⟩
  cases j with
  | zero => simp [hseg, List.getD_eq_getElem?_getD, hlt]
  | succ j =>
    simp only [List.getElem?_cons_succ, bucket_entries]
    rw [List.getElem?_take_of_lt (by omega), List.getElem?_drop]
    congr 1
    omega

theorem bucket_entries_length (B : Nat) (S : List (List Nat)) (b : Nat)
    (hm : S.length % (B + 1) ≠ 0) (hb : b < (S.length + B) / (B + 1)) :
    (bucket_entries B S b).length = delta_count B S.length b := by
  have hend := bucket_end_le S.length B b hm hb
  simp [bucket_entries]
  omega

theorem bucket_entries_getElem? (B : Nat) (S : List (List Nat)) (b j : Nat)
    (hm : S.length % (B + 1) ≠ 0) (hb : b < (S.length + B) / (B + 1))
    (hj : j < delta_count B S.length b) :
    (bucket_entries B S b)[j]? = S[b * (B + 1) + 1 + j]? := by
  have := (bucket_run_getElem? B S b (j + 1) hm hb (by omega)).1
  rw [List.getElem?_cons_succ] at this
  rw [this]
  congr 1
  omega

theorem bucket_entries_fit {cap : Nat} (B : Nat) (S : List (List Nat)) (b : Nat)
    (h : EntriesFit cap S) : EntriesFit cap (bucket_entries B S b) :=
  fun e he => h e (List.mem_of_mem_drop (List.mem_of_mem_take he))

/-- Splitting an id into bucket and offset. -/
theorem offset_le_delta_count (N B i : Nat) (hm : N % (B + 1) ≠ 0) (hi : i < N) :
    i % (B + 1) ≤ delta_count B N (i / (B + 1)) := by
  have hb := bucket_of_lt N B i hm hi
  have h1 := Nat.div_add_mod i (B + 1)
  have h2 : i % (B + 1) < B + 1 := Nat.mod_lt _ (by omega)
  by_cases h : i / (B + 1) + 1 < (N + B) / (B + 1)
  · unfold delta_count
    rw [if_pos (by omega)]
    omega
  · have := bucket_end_last N B (i / (B + 1)) hm (by omega)
    rw [Nat.mul_comm] at this
    omega

theorem extract_spec (B : Nat) (d : integer_fc_dictionary) (S : List (List Nat))
    (hR : Represents B d S) (hm : S.length % (B + 1) ≠ 0)
    (i : Nat) (x : List Nat) (hx : S[i]? = some x) (buf : List Nat)
    (hfit : EntriesFit buf.length S) :
    ∃ buf', extract B d i buf = some (x.length, buf') ∧ buf'.take x.length = x ∧
      buf'.length = buf.length := by
  have hi : i < S.length := by
    by_contra hc
    rw [List.getElem?_eq_none (by omega)] at hx
    exact absurd hx (by simp)
  have hb := bucket_of_lt S.length B i hm hi
  have hk := offset_le_delta_count S.length B i hm hi
  have hbd : i / (B + 1) < d.buckets := by rw [hR.buckets_eq]; exact hb
  obtain ⟨r1, r2⟩ := bucket_run_getElem? B S (i / (B + 1)) (i % (B + 1)) hm hb hk
  have hlt := bucket_start_lt S.length B (i / (B + 1)) hm hb
  have hh : d.header (i / (B + 1)) = some (hseg B S (i / (B + 1))) := by
    rw [hR.header_eq _ hbd]
    simp [hseg, List.getD_eq_getElem?_getD, hlt]
  have hmem : hseg B S (i / (B + 1)) ∈ S := by
    simp only [hseg]
    rw [List.getD_eq_getElem?_getD, List.getElem?_eq_getElem hlt]
    exact List.getElem_mem _
  obtain ⟨g1, g2, g3⟩ := hfit _ hmem
  obtain ⟨pb, pe, q1, _, q3⟩ := hR.deltas _ hbd
  have hidx : i / (B + 1) * (B + 1) + i % (B + 1) = i := by
    rw [Nat.mul_comm]; exact Nat.div_add_mod i (B + 1)
  rw [hidx, hx] at r1
  have hout : (hseg B S (i / (B + 1)) ++ buf.drop (hseg B S (i / (B + 1))).length).length
      = buf.length := by
    simp; omega
  obtain ⟨buf', e1, e2, e3⟩ := extract_loop_spec d (bucket_entries B S (i / (B + 1)))
    (i % (B + 1)) pb (hseg B S (i / (B + 1)))
    (hseg B S (i / (B + 1)) ++ buf.drop (hseg B S (i / (B + 1))).length) x q3
    (List.prefix_append _ _) (by rw [hout]; exact bucket_entries_fit B S _ hfit) r1
  refine ⟨buf', ?_, e2, by rw [e3, hout]⟩
  unfold extract extract_in_bucket
  rw [hh]
  simp only []
  rw [if_pos g1, if_pos (by rw [hR.bucket_size_eq _ hbd]; exact hk), q1]
  simp only []
  rw [Nat.mod_eq_of_lt g2]
  exact e1

theorem stored_fit (B MAX term : Nat) (src : List completion_record)
    (hv : ValidSource B MAX term src) (cap : Nat) (hcap : MAX ≤ cap + 1) :
    EntriesFit cap (stored src) := by
  intro e he
  simp only [stored, List.mem_map] at he
  obtain ⟨r, hr, rfl⟩ := he
  obtain ⟨t1, t2, t3, t4⟩ := hv.shape r hr
  have hmax := hv.max_le
  refine ⟨?_, ?_, fun w hw => (t4 w hw).2⟩
  · simp [strip]; omega
  · simp [strip]; omega

/-! ## The binary searches over the headers -/

theorem to_uint32_natCast (b : Nat) (hb : b < 4294967296) : to_uint32 (b : Int) = b := by
  unfold to_uint32
  omega

theorem to_uint32_of_nonneg (x : Int) (h0 : 0 ≤ x) (h1 : x < 4294967296) :
    to_uint32 x = x.toNat := by
  unfold to_uint32
  omega

theorem buckets_minus_one_eq (d : integer_fc_dictionary) (K : Nat) (hbk : d.buckets = K)
    (h1 : 1 ≤ K) : d.buckets_minus_one = K - 1 := by
  rw [buckets_minus_one, hbk, if_neg (by omega)]

theorem to_int32_buckets_minus_one (d : integer_fc_dictionary) (K : Nat)
    (hbk : d.buckets = K) (h1 : 1 ≤ K) (h2 : K ≤ 2147483648) :
    to_int32 d.buckets_minus_one = (K : Int) - 1 := by
  rw [buckets_minus_one_eq d K hbk h1]
  unfold to_int32
  split_ifs <;> omega

theorem to_uint32_neg_one : to_uint32 (-1) = 4294967295 := by decide

theorem compare_pos_of_lt_of_pos {a b t : List Nat} (hab : uint32_range_compare a b < 0)
    (hat : 0 < uint32_range_compare a t) : 0 < uint32_range_compare b t := by
  have h1 : uint32_range_compare t a < 0 := by rw [uint32_range_compare_swap]; omega
  have h2 := uint32_range_compare_trans h1 hab
  rw [uint32_range_compare_swap] at h2
  omega

theorem locate_bucket_loop_spec (d : integer_fc_dictionary) (t : List Nat)
    (H : Nat → List Nat) (K : Nat) (hK : K < 4294967296)
    (hH : ∀ b, b < K → d.header b = some (H b))
    (hmono : ∀ b b', b < b' → b' < K → uint32_range_compare (H b) (H b') < 0) :
    ∀ (fuel : Nat) (lo hi mi cmp : Int) (h : List Nat),
      0 ≤ lo → hi < K → lo ≤ hi + 1 → (hi + 1 - lo).toNat < fuel →
      (∀ b : Nat, (b : Int) < lo → uint32_range_compare (H b) t < 0) →
      (∀ b : Nat, hi < (b : Int) → b < K → 0 < uint32_range_compare (H b) t) →
      (lo ≤ hi ∨ (cmp < 0 ∧ mi = lo - 1 ∧ h = H (lo - 1).toNat ∧ 1 ≤ lo) ∨
        (0 < cmp ∧ mi = lo)) →
      (∃ b : Nat, b < K ∧ H b = t ∧
          locate_bucket_loop d t fuel lo hi mi cmp h = some (true, (b : Int), 0, H b)) ∨
      (∃ (lo' : Nat) (mi' cmp' : Int) (h' : List Nat), lo' ≤ K ∧
          locate_bucket_loop d t fuel lo hi mi cmp h = some (false, mi', cmp', h') ∧
          (∀ b : Nat, b < lo' → uint32_range_compare (H b) t < 0) ∧
          (∀ b : Nat, lo' ≤ b → b < K → 0 < uint32_range_compare (H b) t) ∧
          ((cmp' < 0 ∧ mi' = (lo' : Int) - 1 ∧ h' = H (lo' - 1) ∧ 1 ≤ lo') ∨
            (0 < cmp' ∧ mi' = (lo' : Int)))) := by
  intro fuel
  induction fuel with
  | zero => intro lo hi mi cmp h _ _ _ hf; omega
  | succ fuel ih =>
    intro lo hi mi cmp h h0 hhi hle hf hlo hup hex
    unfold locate_bucket_loop
    by_cases hc : lo ≤ hi
    · rw [if_pos hc]
      have hm1 : lo ≤ (lo + hi) / 2 := by omega
      have hm2 : (lo + hi) / 2 ≤ hi := by omega
      obtain ⟨m, hm⟩ : ∃ m : Nat, (lo + hi) / 2 = (m : Int) :=
        ⟨((lo + hi) / 2).toNat, by omega⟩
      rw [hm] at hm1 hm2 ⊢
      have hmK : m < K := by omega
      simp only [to_uint32_natCast m (by omega), hH m hmK]
      by_cases hpos : uint32_range_compare (H m) t > 0
      · rw [if_pos hpos]
        refine ih lo ((m : Int) - 1) _ _ _ h0 (by omega) (by omega) (by omega) hlo ?_ ?_
        · intro b hb1 hb2
          by_cases hbm : b = m
          · subst hbm; exact hpos
          · exact compare_pos_of_lt_of_pos (hmono m b (by omega) hb2) hpos
        · by_cases hl : lo ≤ (m : Int) - 1
          · exact Or.inl hl
          · exact Or.inr (Or.inr ⟨hpos, by omega⟩)
      · rw [if_neg hpos]
        by_cases hneg : uint32_range_compare (H m) t < 0
        · rw [if_pos hneg]
          refine ih ((m : Int) + 1) hi _ _ _ (by omega) hhi (by omega) (by omega) ?_ hup ?_
          · intro b hb
            by_cases hbm : b = m
            · subst hbm; exact hneg
            · exact uint32_range_compare_trans (hmono b m (by omega) hmK) hneg
          · by_cases hl : (m : Int) + 1 ≤ hi
            · exact Or.inl hl
            · refine Or.inr (Or.inl ⟨hneg, by omega, ?_, by omega⟩)
              congr 1
              omega
        · rw [if_neg hneg]
          have hz : uint32_range_compare (H m) t = 0 := by omega
          refine Or.inl ⟨m, hmK, uint32_range_compare_eq_zero.mp hz, ?_⟩
          rw [hz]
    · rw [if_neg hc]
      have hlo' : lo = ((lo.toNat : Nat) : Int) := by omega
      refine Or.inr ⟨lo.toNat, mi, cmp, h, by omega, rfl, ?_, ?_, ?_⟩
      · intro b hb; exact hlo b (by omega)
      · intro b hb1 hb2; exact hup b (by omega) hb2
      · rcases hex with hex | ⟨e1, e2, e3, e4⟩ | ⟨e1, e2⟩
        · exact absurd hex hc
        · refine Or.inl ⟨e1, by omega, ?_, by omega⟩
          rw [e3]; congr 1; omega
        · exact Or.inr ⟨e1, by omega⟩

theorem locate_bucket_spec (d : integer_fc_dictionary) (t : List Nat)
    (H : Nat → List Nat) (K : Nat) (hK : K ≤ 2147483648) (hK1 : 1 ≤ K)
    (hbk : d.buckets = K)
    (hH : ∀ b, b < K → d.header b = some (H b))
    (hmono : ∀ b b', b < b' → b' < K → uint32_range_compare (H b) (H b') < 0) :
    (∃ b, b < K ∧ H b = t ∧ d.locate_bucket t = some (true, t, b)) ∨
    (∃ b, b < K ∧ uint32_range_compare (H b) t < 0 ∧
        (∀ b', b < b' → b' < K → 0 < uint32_range_compare (H b') t) ∧
        d.locate_bucket t = some (false, H b, b)) ∨
    (0 < uint32_range_compare (H 0) t ∧ d.locate_bucket t = none) := by
  have hloop := locate_bucket_loop_spec d t H K (by omega) hH hmono (K + 1) 0
    ((K : Int) - 1) 0 0 [] (le_refl _) (by omega) (by omega) (by omega)
    (fun b hb => by omega) (fun b hb1 hb2 => by omega) (Or.inl (by omega))
  unfold locate_bucket
  rw [to_int32_buckets_minus_one d K hbk hK1 hK, hbk]
  rcases hloop with ⟨b, hb, hbt, hr⟩ | ⟨lo', mi', cmp', h', hl, hr, hlow, hupp, hex⟩
  · rw [hr]
    simp only []
    rw [to_uint32_natCast b (by omega), hbt]
    exact Or.inl ⟨b, hb, hbt, rfl⟩
  · rw [hr]
    simp only []
    rcases hex with ⟨e1, e2, e3, e4⟩ | ⟨e1, e2⟩
    · rw [if_pos e1]
      have : to_uint32 mi' = lo' - 1 := by
        rw [e2, to_uint32_of_nonneg _ (by omega) (by omega)]; omega
      rw [this, e3]
      exact Or.inr (Or.inl ⟨lo' - 1, by omega, hlow _ (by omega),
        fun b' hb1 hb2 => hupp b' (by omega) hb2, rfl⟩)
    · rw [if_neg (by omega)]
      by_cases hz : lo' = 0
      · subst hz
        have : to_uint32 (mi' - 1) = 4294967295 := by rw [e2]; decide
        rw [this]
        have hnone : d.header 4294967295 = none := by
          unfold header
          rw [if_neg (by rw [hbk]; omega)]
        rw [hnone]
        exact Or.inr (Or.inr ⟨hupp 0 (le_refl _) (by omega), rfl⟩)
      · have : to_uint32 (mi' - 1) = lo' - 1 := by
          rw [e2, to_uint32_of_nonneg _ (by omega) (by omega)]; omega
        rw [this, hH _ (by omega)]
        exact Or.inr (Or.inl ⟨lo' - 1, by omega, hlow _ (by omega),
          fun b' hb1 hb2 => hupp b' (by omega) hb2, rfl⟩)

/-! ## Order facts about the stored sequences -/

theorem sorted_lt {S : List (List Nat)}
    (hs : S.Pairwise (fun a b => uint32_range_compare a b < 0))
    {i j : Nat} {a b : List Nat} (hi : S[i]? = some a) (hj : S[j]? = some b) (hij : i < j) :
    uint32_range_compare a b < 0 := by
  rw [List.pairwise_iff_getElem] at hs
  obtain ⟨hi', rfl⟩ := List.getElem?_eq_some.mp hi
  obtain ⟨hj', rfl⟩ := List.getElem?_eq_some.mp hj
  exact hs i j hi' hj' hij

theorem sorted_le {S : List (List Nat)}
    (hs : S.Pairwise (fun a b => uint32_range_compare a b < 0))
    {i j : Nat} {a b : List Nat} (hi : S[i]? = some a) (hj : S[j]? = some b) (hij : i ≤ j) :
    uint32_range_compare a b ≤ 0 := by
  rcases Nat.lt_or_ge i j with h | h
  · exact le_of_lt (sorted_lt hs hi hj h)
  · have : i = j := by omega
    subst this
    rw [hi] at hj
    cases hj
    rw [uint32_range_compare_self]

theorem sorted_index_lt {S : List (List Nat)}
    (hs : S.Pairwise (fun a b => uint32_range_compare a b < 0))
    {i j : Nat} {a b : List Nat} (hi : S[i]? = some a) (hj : S[j]? = some b)
    (hab : uint32_range_compare a b < 0) : i < j := by
  by_contra hc
  have := sorted_le hs hj hi (by omega)
  rw [uint32_range_compare_swap] at this
  omega

theorem sorted_index_eq {S : List (List Nat)}
    (hs : S.Pairwise (fun a b => uint32_range_compare a b < 0))
    {i j : Nat} {a : List Nat} (hi : S[i]? = some a) (hj : S[j]? = some a) : i = j := by
  rcases Nat.lt_trichotomy i j with h | h | h
  · have := sorted_lt hs hi hj h; rw [uint32_range_compare_self] at this; omega
  · exact h
  · have := sorted_lt hs hj hi h; rw [uint32_range_compare_self] at this; omega

theorem hseg_getElem? (B : Nat) (S : List (List Nat)) (b : Nat)
    (hm : S.length % (B + 1) ≠ 0) (hb : b < (S.length + B) / (B + 1)) :
    S[b * (B + 1)]? = some (hseg B S b) := by
  have hlt := bucket_start_lt S.length B b hm hb
  simp [hseg, List.getD_eq_getElem?_getD, hlt]

theorem hseg_mono (B : Nat) (S : List (List Nat))
    (hs : S.Pairwise (fun a b => uint32_range_compare a b < 0))
    (hm : S.length % (B + 1) ≠ 0) (b b' : Nat) (hbb : b < b')
    (hb' : b' < (S.length + B) / (B + 1)) :
    uint32_range_compare (hseg B S b) (hseg B S b') < 0 := by
  refine sorted_lt hs (hseg_getElem? B S b hm (by omega)) (hseg_getElem? B S b' hm hb') ?_
  exact Nat.mul_lt_mul_of_pos_right hbb (by omega)

theorem Represents.header_some {B : Nat} {d : integer_fc_dictionary} {S : List (List Nat)}
    (hR : Represents B d S) (hm : S.length % (B + 1) ≠ 0) (b : Nat)
    (hb : b < (S.length + B) / (B + 1)) : d.header b = some (hseg B S b) := by
  rw [hR.header_eq b (by rw [hR.buckets_eq]; exact hb), hseg_getElem? B S b hm hb]

/-- The start of an in-bucket scan of a represented dictionary. -/
theorem Represents.locate_init {B : Nat} {d : integer_fc_dictionary} {S : List (List Nat)}
    (hR : Represents B d S) (hm : S.length % (B + 1) ≠ 0) (hB : B < 4294967296)
    (b : Nat) (hb : b < (S.length + B) / (B + 1)) (decoded : List Nat)
    (hfit : EntriesFit decoded.length S) :
    ∃ pb, INT_FC_DICT_LOCATE_INIT B d (hseg B S b) b decoded =
        some (hseg B S b ++ decoded.drop (hseg B S b).length,
          (bucket_entries B S b).length, pb) ∧
      enc_deltas (hseg B S b) (bucket_entries B S b) <+: d.m_buckets.drop pb ∧
      EntriesFit (hseg B S b ++ decoded.drop (hseg B S b).length).length
        (bucket_entries B S b) := by
  have hbd : b < d.buckets := by rw [hR.buckets_eq]; exact hb
  obtain ⟨pb, pe, q1, _, q3⟩ := hR.deltas _ hbd
  have hmem : hseg B S b ∈ S := List.getElem?_mem (hseg_getElem? B S b hm hb)
  obtain ⟨g1, _, _⟩ := hfit _ hmem
  have hout : (hseg B S b ++ decoded.drop (hseg B S b).length).length = decoded.length := by
    simp; omega
  refine ⟨pb, ?_, q3, by rw [hout]; exact bucket_entries_fit B S b hfit⟩
  unfold INT_FC_DICT_LOCATE_INIT
  rw [if_pos g1, q1]
  simp only []
  rw [hR.bucket_size_eq _ hbd, bucket_entries_length B S b hm hb,
    Nat.mod_eq_of_lt (by have := delta_count_le S.length B b; omega)]

/-- `locate` finds every stored sequence at its own position. -/
theorem locate_stored (B : Nat) (d : integer_fc_dictionary) (S : List (List Nat))
    (hR : Represents B d S)
    (hs : S.Pairwise (fun a b => uint32_range_compare a b < 0))
    (hm : S.length % (B + 1) ≠ 0) (hN : S.length < 2147483648) (hB : B + 1 < 4294967296)
    (decoded : List Nat) (hfit : EntriesFit decoded.length S)
    (i : Nat) (x : List Nat) (hx : S[i]? = some x) :
    locate B d decoded x = some i := by
  have hi : i < S.length := (List.getElem?_eq_some.mp hx).1
  have hKle : (S.length + B) / (B + 1) ≤ S.length + 1 := by
    rw [bucket_count_eq S.length B hm]
    have := Nat.div_le_self S.length (B + 1)
    omega
  have hK1 : 1 ≤ (S.length + B) / (B + 1) := by
    rw [bucket_count_eq S.length B hm]; exact Nat.le_add_left 1 _
  have hb0 := bucket_of_lt S.length B i hm hi
  have hidx : (B + 1) * (i / (B + 1)) + i % (B + 1) = i := Nat.div_add_mod i (B + 1)
  have hkl : i % (B + 1) < B + 1 := Nat.mod_lt _ (by omega)
  unfold locate
  rcases locate_bucket_spec d x (hseg B S) _ (by omega) hK1 hR.buckets_eq
      (fun b hb => hR.header_some hm b hb) (fun b b' h1 h2 => hseg_mono B S hs hm b b' h1 h2)
    with ⟨b, hb, hbt, hr⟩ | ⟨b, hb, hlt, hgt, hr⟩ | ⟨hpos, _⟩
  · rw [hr]
    simp only [if_true]
    have hS := hseg_getElem? B S b hm hb
    rw [hbt] at hS
    have := sorted_index_eq hs hS hx
    rw [this, Nat.mod_eq_of_lt (by omega)]
  · rw [hr]
    simp only []
    have hSb := hseg_getElem? B S b hm hb
    have hbi : b * (B + 1) < i := sorted_index_lt hs hSb hx hlt
    have hb_le : b ≤ i / (B + 1) := by
      rw [Nat.le_div_iff_mul_le (by omega)]; omega
    have hb_ge : i / (B + 1) ≤ b := by
      by_contra hc
      have h1 := hgt (i / (B + 1)) (by omega) hb0
      have h2 := sorted_le hs (hseg_getElem? B S _ hm hb0) hx
        (by rw [Nat.mul_comm]; omega)
      omega
    have hbeq : b = i / (B + 1) := by omega
    have hk1 : 1 ≤ i % (B + 1) := by
      rw [hbeq, Nat.mul_comm] at hbi; omega
    have hkd := offset_le_delta_count S.length B i hm hi
    rw [← hbeq] at hkd hidx
    obtain ⟨pb, hinit, hchain, hfit'⟩ := hR.locate_init hm (by omega) b hb decoded hfit
    have hfound := locate_scan_found d x (bucket_entries B S b) (i % (B + 1) - 1) 1 pb
      (hseg B S b) _ hchain (List.prefix_append _ _) hfit'
      (by
        rw [bucket_entries_getElem? B S b _ hm hb (by omega), ← hx]
        congr 1
        rw [Nat.mul_comm]; omega)
      (by
        intro j' e' hj' he'
        rw [bucket_entries_getElem? B S b _ hm hb (by omega)] at he'
        have := sorted_lt hs he' hx (by rw [Nat.mul_comm]; omega)
        rw [uint32_range_compare_swap]
        omega)
    rw [if_neg (by simp)]
    unfold locate_in_bucket
    rw [hinit]
    simp only []
    rw [hfound]
    simp only []
    have hdc := delta_count_le S.length B b
    rw [if_neg (by unfold invalid_term_id; omega)]
    congr 1
    rw [Nat.mul_comm] at hidx
    have : b * (B + 1) % 4294967296 = b * (B + 1) := Nat.mod_eq_of_lt (by omega)
    rw [this]
    omega
  · have h2 := sorted_le hs (hseg_getElem? B S 0 hm (by omega)) hx (by omega)
    omega

/-! ## The two header searches of `locate_buckets` -/

theorem to_uint64_of_nonneg (x : Int) (h0 : 0 ≤ x) (h1 : x < 18446744073709551616) :
    to_uint64 x = x.toNat := by
  unfold to_uint64
  omega

theorem locate_buckets_left_loop_spec (d : integer_fc_dictionary) (p : List Nat)
    (H : Nat → List Nat) (K : Nat) (hK : K < 4294967296)
    (hH : ∀ b, b < K → d.header b = some (H b))
    (hmono : ∀ b b', b ≤ b' → b' < K →
      uint32_range_compare_n (H b) p p.length ≤ uint32_range_compare_n (H b') p p.length) :
    ∀ (fuel : Nat) (lo hi : Int),
      0 ≤ lo → hi < K → lo ≤ hi + 1 → (hi + 1 - lo).toNat < fuel →
      (∀ b : Nat, (b : Int) < lo → uint32_range_compare_n (H b) p p.length < 0) →
      (∀ b : Nat, hi < (b : Int) → b < K → 0 ≤ uint32_range_compare_n (H b) p p.length) →
      ∃ lo' : Nat, lo' ≤ K ∧
        locate_buckets_left_loop d p p.length fuel lo hi = some (lo' : Int) ∧
        (∀ b : Nat, b < lo' → uint32_range_compare_n (H b) p p.length < 0) ∧
        (∀ b : Nat, lo' ≤ b → b < K → 0 ≤ uint32_range_compare_n (H b) p p.length) := by
  intro fuel
  induction fuel with
  | zero => intro lo hi _ _ _ hf; omega
  | succ fuel ih =>
    intro lo hi h0 hhi hle hf hlo hup
    unfold locate_buckets_left_loop
    by_cases hc : lo ≤ hi
    · rw [if_pos hc]
      have hm1 : lo ≤ (lo + hi) / 2 := by omega
      have hm2 : (lo + hi) / 2 ≤ hi := by omega
      obtain ⟨m, hm⟩ : ∃ m : Nat, (lo + hi) / 2 = (m : Int) :=
        ⟨((lo + hi) / 2).toNat, by omega⟩
      rw [hm] at hm1 hm2 ⊢
      have hmK : m < K := by omega
      simp only [to_uint32_natCast m (by omega), hH m hmK]
      by_cases hpos : uint32_range_compare_n (H m) p p.length ≥ 0
      · rw [if_pos hpos]
        refine ih lo ((m : Int) - 1) h0 (by omega) (by omega) (by omega) hlo ?_
        intro b hb1 hb2
        exact le_trans hpos (hmono m b (by omega) hb2)
      · rw [if_neg hpos]
        refine ih ((m : Int) + 1) hi (by omega) hhi (by omega) (by omega) ?_ hup
        intro b hb
        have := hmono b m (by omega) hmK
        omega
    · rw [if_neg hc]
      refine ⟨lo.toNat, by omega, by congr 1; omega, ?_, ?_⟩
      · intro b hb; exact hlo b (by omega)
      · intro b hb1 hb2; exact hup b (by omega) hb2

theorem locate_buckets_right_loop_spec (d : integer_fc_dictionary) (p : List Nat)
    (H : Nat → List Nat) (K : Nat) (hK : K < 4294967296) (left : Nat)
    (hH : ∀ b, b < K → d.header b = some (H b))
    (hmono : ∀ b b', b ≤ b' → b' < K →
      uint32_range_compare_n (H b) p p.length ≤ uint32_range_compare_n (H b') p p.length) :
    ∀ (fuel : Nat) (lo hi : Int),
      (left : Int) ≤ lo → hi < K → lo ≤ hi + 1 → (hi + 1 - lo).toNat < fuel →
      (∀ b : Nat, left ≤ b → (b : Int) < lo →
        uint32_range_compare_n (H b) p p.length ≤ 0) →
      (∀ b : Nat, hi < (b : Int) → b < K → 0 < uint32_range_compare_n (H b) p p.length) →
      ∃ hi' : Int, (left : Int) - 1 ≤ hi' ∧ hi' < K ∧
        locate_buckets_right_loop d p p.length fuel lo hi = some hi' ∧
        (∀ b : Nat, left ≤ b → (b : Int) ≤ hi' →
          uint32_range_compare_n (H b) p p.length ≤ 0) ∧
        (∀ b : Nat, hi' < (b : Int) → b < K →
          0 < uint32_range_compare_n (H b) p p.length) := by
  intro fuel
  induction fuel with
  | zero => intro lo hi _ _ _ hf; omega
  | succ fuel ih =>
    intro lo hi h0 hhi hle hf hlo hup
    unfold locate_buckets_right_loop
    by_cases hc : lo ≤ hi
    · rw [if_pos hc]
      have hm1 : lo ≤ (lo + hi) / 2 := by omega
      have hm2 : (lo + hi) / 2 ≤ hi := by omega
      obtain ⟨m, hm⟩ : ∃ m : Nat, (lo + hi) / 2 = (m : Int) :=
        ⟨((lo + hi) / 2).toNat, by omega⟩
      rw [hm] at hm1 hm2 ⊢
      have hmK : m < K := by omega
      simp only [to_uint32_natCast m (by omega), hH m hmK]
      by_cases hpos : uint32_range_compare_n (H m) p p.length ≤ 0
      · rw [if_pos hpos]
        refine ih ((m : Int) + 1) hi (by omega) hhi (by omega) (by omega) ?_ hup
        intro b hb1 hb2
        exact le_trans (hmono b m (by omega) hmK) hpos
      · rw [if_neg hpos]
        refine ih lo ((m : Int) - 1) h0 (by omega) (by omega) (by omega) hlo ?_
        intro b hb1 hb2
        have := hmono m b (by omega) hb2
        omega
    · rw [if_neg hc]
      refine ⟨hi, by omega, hhi, rfl, ?_, hup⟩
      intro b hb1 hb2; exact hlo b hb1 (by omega)

theorem compare_n_self (p : List Nat) : uint32_range_compare_n p p p.length = 0 :=
  uint32_range_compare_n_eq_zero.mpr (List.prefix_refl p)

theorem locate_buckets_spec (d : integer_fc_dictionary) (p : List Nat)
    (H : Nat → List Nat) (K : Nat) (hK : K ≤ 2147483648) (hK1 : 1 ≤ K)
    (hbk : d.buckets = K)
    (hH : ∀ b, b < K → d.header b = some (H b))
    (hmono : ∀ b b', b ≤ b' → b' < K →
      uint32_range_compare_n (H b) p p.length ≤ uint32_range_compare_n (H b') p p.length) :
    ∃ left right : Nat, d.locate_buckets p = some (left, right) ∧
      left ≤ right ∧ right < K ∧
      (∀ b, left < b → b < K → 0 ≤ uint32_range_compare_n (H b) p p.length) ∧
      (uint32_range_compare_n (H right) p p.length ≤ 0 ∨
        (right = 0 ∧ 0 < uint32_range_compare_n (H 0) p p.length)) := by
  obtain ⟨lo, hlo, hr, hlow, hupp⟩ := locate_buckets_left_loop_spec d p H K (by omega) hH hmono
    (K + 1) 0 ((K : Int) - 1) (le_refl _) (by omega) (by omega) (by omega)
    (fun b hb => by omega) (fun b hb1 hb2 => by omega)
  have hbm : d.buckets_minus_one = K - 1 := buckets_minus_one_eq d K hbk hK1
  have hbi : to_int32 d.buckets_minus_one = (K : Int) - 1 :=
    to_int32_buckets_minus_one d K hbk hK1 hK
  unfold locate_buckets
  simp only [hbi, hbk, hr]
  rw [to_uint32_natCast lo (by omega)]
  by_cases hloK : lo = K
  · rw [if_pos hloK]
    have e : to_uint64 ((lo : Int) - 1) = K - 1 := by
      rw [to_uint64_of_nonneg _ (by omega) (by omega)]; omega
    rw [e]
    refine ⟨K - 1, K - 1, rfl, le_refl _, by omega, fun b h1 h2 => by omega, Or.inl ?_⟩
    exact le_of_lt (hlow _ (by omega))
  · rw [if_neg hloK]
    have hloK' : lo < K := by omega
    have hleft : ∃ left : Nat, d.locate_buckets_left p (lo : Int) = some (left : Int) ∧
        left ≤ lo ∧ lo ≤ left + 1 ∧
        (uint32_range_compare_n (H left) p p.length ≤ 0 ∨
          (left = 0 ∧ 0 < uint32_range_compare_n (H 0) p p.length)) := by
      unfold locate_buckets_left
      by_cases hz : lo = 0
      · subst hz
        refine ⟨0, by simp, le_refl _, by omega, ?_⟩
        have := hupp 0 (le_refl _) hloK'
        rcases lt_or_eq_of_le this with h | h
        · exact Or.inr ⟨rfl, h⟩
        · exact Or.inl (le_of_eq h.symm)
      · rw [if_neg (by omega), to_uint32_natCast lo (by omega), hH lo hloK']
        simp only []
        by_cases he : uint32_range_compare (H lo) p = 0
        · rw [if_pos he]
          refine ⟨lo, rfl, le_refl _, by omega, Or.inl ?_⟩
          rw [uint32_range_compare_eq_zero.mp he, compare_n_self]
        · rw [if_neg he]
          refine ⟨lo - 1, by congr 1; omega, by omega, by omega, Or.inl ?_⟩
          exact le_of_lt (hlow _ (by omega))
    obtain ⟨left, hleft, hl1, hl2, hl3⟩ := hleft
    rw [hleft]
    simp only []
    have hA : ∀ b, left < b → b < K → 0 ≤ uint32_range_compare_n (H b) p p.length :=
      fun b h1 h2 => hupp b (by omega) h2
    unfold locate_buckets_right
    rw [to_uint32_natCast left (by omega), hbk, hbi, hbm]
    have e64 : to_uint64 (left : Int) = left := by
      rw [to_uint64_of_nonneg _ (by omega) (by omega)]; omega
    by_cases hlast : left = K - 1
    · rw [if_pos hlast]
      simp only [e64]
      exact ⟨left, left, rfl, le_refl _, by omega, hA, hl3⟩
    · rw [if_neg hlast]
      have hl1K : left + 1 < K := by omega
      have e1 : to_uint32 ((left : Int) + 1) = left + 1 := by
        rw [to_uint32_of_nonneg _ (by omega) (by omega)]; omega
      rw [e1, hH _ hl1K]
      simp only []
      by_cases hgt : uint32_range_compare_n (H (left + 1)) p p.length > 0
      · rw [if_pos hgt]
        simp only [e64]
        exact ⟨left, left, rfl, le_refl _, by omega, hA, hl3⟩
      · rw [if_neg hgt]
        obtain ⟨hi', g1, g2, g3, g4, g5⟩ := locate_buckets_right_loop_spec d p H K (by omega)
          left hH hmono (K + 1) (left : Int) ((K : Int) - 1) (le_refl _) (by omega)
          (by omega) (by omega) (fun b hb1 hb2 => by omega) (fun b hb1 hb2 => by omega)
        rw [g3]
        simp only []
        have hge : (left : Int) + 1 ≤ hi' := by
          by_contra hc
          have := g5 (left + 1) (by push_cast; omega) hl1K
          omega
        have e2 : to_uint64 hi' = hi'.toNat := to_uint64_of_nonneg _ (by omega) (by omega)
        rw [e64, e2]
        refine ⟨left, hi'.toNat, rfl, by omega, by omega, hA, Or.inl ?_⟩
        exact g4 hi'.toNat (by omega) (by omega)

/-! ## The inclusive prefix range -/

theorem compare_n_sorted_mono {S : List (List Nat)}
    (hs : S.Pairwise (fun a b => uint32_range_compare a b < 0)) (p : List Nat)
    {i j : Nat} {a b : List Nat} (hi : S[i]? = some a) (hj : S[j]? = some b) (hij : i ≤ j) :
    uint32_range_compare_n a p p.length ≤ uint32_range_compare_n b p p.length :=
  uint32_range_compare_n_mono p (sorted_le hs hi hj hij)

theorem right_locate_spec (B : Nat) (d : integer_fc_dictionary) (S : List (List Nat))
    (hR : Represents B d S) (hm : S.length % (B + 1) ≠ 0) (hB : B < 4294967296)
    (b : Nat) (hb : b < (S.length + B) / (B + 1)) (decoded : List Nat)
    (hfit : EntriesFit decoded.length S) (p : List Nat) :
    ∃ j, right_locate B d decoded p (hseg B S b) b = some j ∧
      j ≤ delta_count B S.length b ∧
      (∀ j' y, 1 ≤ j' → j' ≤ j → S[b * (B + 1) + j']? = some y →
        uint32_range_compare_n y p p.length ≤ 0) ∧
      (j < delta_count B S.length b → ∃ y, S[b * (B + 1) + j + 1]? = some y ∧
        0 < uint32_range_compare_n y p p.length) := by
  obtain ⟨pb, hinit, hchain, hfit'⟩ := hR.locate_init hm hB b hb decoded hfit
  have hlen := bucket_entries_length B S b hm hb
  obtain ⟨j, h1, h2, h3⟩ := right_locate_scan_spec d p (bucket_entries B S b).length
    (bucket_entries B S b) 1 pb (hseg B S b) _ hchain (List.prefix_append _ _) hfit'
  have hres : right_locate B d decoded p (hseg B S b) b = some j := by
    unfold right_locate
    rw [hinit]
    simp only []
    rcases h3 with ⟨e, _, _, hr⟩ | ⟨hj, hr⟩
    · rw [hr]; congr 1; omega
    · rw [hr, hj]
  refine ⟨j, hres, by omega, ?_, ?_⟩
  · intro j' y hj1 hj2 hy
    refine h2 (j' - 1) y (by omega) ?_
    rw [bucket_entries_getElem? B S b _ hm hb (by omega), ← hy]
    congr 1; omega
  · intro hj
    rcases h3 with ⟨e, he, hpos, _⟩ | ⟨hj', _⟩
    · refine ⟨e, ?_, hpos⟩
      rw [bucket_entries_getElem? B S b _ hm hb (by omega)] at he
      rw [← he]; congr 1; omega
    · omega

theorem left_locate_spec (B : Nat) (d : integer_fc_dictionary) (S : List (List Nat))
    (hR : Represents B d S) (hm : S.length % (B + 1) ≠ 0) (hB : B + 1 < 4294967296)
    (b : Nat) (hb : b < (S.length + B) / (B + 1)) (decoded : List Nat)
    (hfit : EntriesFit decoded.length S) (p : List Nat) :
    ∃ off, left_locate B d decoded p (hseg B S b) b = some off ∧ 1 ≤ off ∧
      ((off ≤ delta_count B S.length b ∧
          (∃ e, S[b * (B + 1) + off]? = some e ∧ p <+: e) ∧
          ∀ j' e', 1 ≤ j' → j' < off → S[b * (B + 1) + j']? = some e' → ¬ p <+: e') ∨
        (off = delta_count B S.length b + 1 ∧
          ∀ j' e', 1 ≤ j' → j' ≤ delta_count B S.length b →
            S[b * (B + 1) + j']? = some e' → ¬ p <+: e')) := by
  obtain ⟨pb, hinit, hchain, hfit'⟩ := hR.locate_init hm (by omega) b hb decoded hfit
  have hlen := bucket_entries_length B S b hm hb
  have hdc := delta_count_le S.length B b
  obtain ⟨off, h1, h2⟩ := left_locate_scan_spec d p (bucket_entries B S b).length
    (bucket_entries B S b) 1 pb (hseg B S b) _ hchain (List.prefix_append _ _) hfit'
  have hres : left_locate B d decoded p (hseg B S b) b = some off := by
    unfold left_locate
    rw [hinit]
    simp only []
    exact h1
  rcases h2 with ⟨j, e, hj, he, hp, hmin⟩ | ⟨hoff, hnone⟩
  · have hjl : j < (bucket_entries B S b).length := (List.getElem?_eq_some.mp he).1
    refine ⟨off, hres, by omega, Or.inl ⟨by omega, ⟨e, ?_, hp⟩, ?_⟩⟩
    · rw [bucket_entries_getElem? B S b _ hm hb (by omega)] at he
      rw [← he]; congr 1; omega
    · intro j' e' hj1 hj2 he'
      refine hmin (j' - 1) e' (by omega) ?_
      rw [bucket_entries_getElem? B S b _ hm hb (by omega), ← he']
      congr 1; omega
  · rw [hlen, Nat.mod_eq_of_lt (by omega)] at hoff
    refine ⟨off, hres, by omega, Or.inr ⟨hoff, ?_⟩⟩
    intro j' e' hj1 hj2 he'
    refine hnone e' (List.getElem?_mem (n := j' - 1) ?_)
    rw [bucket_entries_getElem? B S b _ hm hb (by omega), ← he']
    congr 1; omega

theorem locate_prefix_sound (B : Nat) (d : integer_fc_dictionary) (S : List (List Nat))
    (hR : Represents B d S)
    (hs : S.Pairwise (fun a b => uint32_range_compare a b < 0))
    (hm : S.length % (B + 1) ≠ 0) (hN : S.length < 2147483648) (hB : B + 1 < 4294967296)
    (dl dr : List Nat) (hfl : EntriesFit dl.length S) (hfr : EntriesFit dr.length S)
    (p : List Nat) :
    ∃ a b, locate_prefix B d dl dr p = some (a, b) ∧
      ∀ j, a ≤ j → j ≤ b → ∃ x, S[j]? = some x ∧ p <+: x := by
  have hKle : (S.length + B) / (B + 1) ≤ S.length + 1 := by
    rw [bucket_count_eq S.length B hm]
    have := Nat.div_le_self S.length (B + 1)
    omega
  have hK1 : 1 ≤ (S.length + B) / (B + 1) := by
    rw [bucket_count_eq S.length B hm]; exact Nat.le_add_left 1 _
  have hpcmono : ∀ b b', b ≤ b' → b' < (S.length + B) / (B + 1) →
      uint32_range_compare_n (hseg B S b) p p.length ≤
        uint32_range_compare_n (hseg B S b') p p.length := fun b b' h1 h2 =>
    compare_n_sorted_mono hs p (hseg_getElem? B S b hm (by omega))
      (hseg_getElem? B S b' hm h2) (Nat.mul_le_mul_right _ h1)
  obtain ⟨left, right, hlb, hlr, hrK, hA, hBr⟩ := locate_buckets_spec d p (hseg B S) _
    (by omega) hK1 hR.buckets_eq (fun b hb => hR.header_some hm b hb) hpcmono
  have hleftK : left < (S.length + B) / (B + 1) := by omega
  have hl_start := bucket_start_lt S.length B left hm hleftK
  have hl_end := bucket_end_le S.length B left hm hleftK
  have hr_end := bucket_end_le S.length B right hm hrK
  obtain ⟨jr, hrl, hjr, hrle, _⟩ := right_locate_spec B d S hR hm (by omega) right hrK dr hfr p
  -- the soundness argument, for any left end that starts at a non-smaller entry
  have key : ∀ pbeg : Nat,
      (pbeg < S.length → ∃ z, S[pbeg]? = some z ∧ 0 ≤ uint32_range_compare_n z p p.length) →
      (right = 0 ∧ 0 < uint32_range_compare_n (hseg B S 0) p p.length → 1 ≤ pbeg) →
      ∀ j, pbeg ≤ j → j ≤ right * (B + 1) + jr → ∃ x, S[j]? = some x ∧ p <+: x := by
    intro pbeg hz hone j hj1 hj2
    have hjN : j < S.length := by omega
    obtain ⟨z, hz1, hz2⟩ := hz (by omega)
    refine ⟨S[j], List.getElem?_eq_getElem hjN, ?_⟩
    have hx : S[j]? = some S[j] := List.getElem?_eq_getElem hjN
    have hge := le_trans hz2 (compare_n_sorted_mono hs p hz1 hx hj1)
    have hyN : right * (B + 1) + jr < S.length := by omega
    have hy : S[right * (B + 1) + jr]? = some S[right * (B + 1) + jr] :=
      List.getElem?_eq_getElem hyN
    have hxy := compare_n_sorted_mono hs p hx hy hj2
    rcases hBr with hle | ⟨hr0, hpos⟩
    · have hyle : uint32_range_compare_n S[right * (B + 1) + jr] p p.length ≤ 0 := by
        by_cases hj0 : jr = 0
        · have h0 := hseg_getElem? B S right hm hrK
          have : S[right * (B + 1) + jr]? = some (hseg B S right) := by
            rw [hj0]; exact h0
          have hv : S[right * (B + 1) + jr] = hseg B S right :=
            Option.some.inj (hy.symm.trans this)
          rw [hv]
          exact hle
        · exact hrle jr _ (by omega) (le_refl _) hy
      exact uint32_range_compare_n_eq_zero.mp (by omega)
    · exfalso
      have h1 := hone ⟨hr0, hpos⟩
      subst hr0
      have hj0 : jr = 0 := by
        by_contra hc
        have hyle := hrle jr _ (by omega) (le_refl _) hy
        have h0 := hseg_getElem? B S 0 hm hrK
        have := compare_n_sorted_mono hs p h0 hy (by omega)
        omega
      omega
  have e_r : right * (B + 1) % 4294967296 = right * (B + 1) := Nat.mod_eq_of_lt (by omega)
  have e_l : left * (B + 1) % 4294967296 = left * (B + 1) := Nat.mod_eq_of_lt (by omega)
  have e_end : (right * (B + 1) + jr) % 4294967296 = right * (B + 1) + jr :=
    Nat.mod_eq_of_lt (by omega)
  unfold locate_prefix
  rw [hlb]
  simp only []
  rw [Nat.mod_eq_of_lt (show left < 4294967296 by omega),
    Nat.mod_eq_of_lt (show right < 4294967296 by omega),
    hR.header_some hm left hleftK, hR.header_some hm right hrK]
  simp only [e_r, e_l]
  by_cases hhd : uint32_range_compare (hseg B S left) p = 0
  · simp only [hhd, ne_eq, not_true_eq_false, if_false, hrl, e_end]
    refine ⟨_, _, rfl, key (left * (B + 1)) ?_ ?_⟩
    · intro _
      refine ⟨hseg B S left, hseg_getElem? B S left hm hleftK, ?_⟩
      rw [uint32_range_compare_eq_zero.mp hhd, compare_n_self]
    · rintro ⟨hr0, hpos⟩
      have hl0 : left = 0 := by omega
      rw [hl0, uint32_range_compare_eq_zero] at hhd
      rw [hhd, compare_n_self] at hpos
      omega
  · obtain ⟨off, hll, hoff1, hoff⟩ := left_locate_spec B d S hR hm hB left hleftK dl hfl p
    have hdc := delta_count_le S.length B left
    have e_b : (left * (B + 1) + off) % 4294967296 = left * (B + 1) + off :=
      Nat.mod_eq_of_lt (by rcases hoff with ⟨h, _⟩ | ⟨h, _⟩ <;> omega)
    simp only [hhd, ne_eq, not_false_eq_true, if_true, hll, hrl, e_end, e_b]
    refine ⟨_, _, rfl, key (left * (B + 1) + off) ?_ (fun _ => by omega)⟩
    intro hlt
    rcases hoff with ⟨_, ⟨e, he, hp⟩, _⟩ | ⟨ho, _⟩
    · exact ⟨e, he, le_of_eq (uint32_range_compare_n_eq_zero.mpr hp).symm⟩
    · by_cases hnext : left + 1 < (S.length + B) / (B + 1)
      · have hbe := (bucket_end_inner S.length B left hm hnext).1
        have hidx : left * (B + 1) + off = (left + 1) * (B + 1) := by omega
        rw [hidx]
        exact ⟨hseg B S (left + 1), hseg_getElem? B S (left + 1) hm hnext,
          hA (left + 1) (by omega) hnext⟩
      · have := bucket_end_last S.length B left hm (by omega)
        omega

/-! ## The claims -/

/-- The scenario corpus is a valid source for `BucketSize = 2`, at most 64 terms per
completion and terminator `0xFFFFFFFF`. -/
theorem spec_corpus_valid : ValidSource 2 64 4294967295 spec_corpus :=
  ⟨by decide, by decide, by decide, by decide, by decide, by decide, by decide⟩

/-- C1. Build/extract round trip: for a valid source (strictly increasing, `N >= 1`
completions of 1 to `MAX - 1` terms closed by the terminator, `N` not a multiple of
`BucketSize + 1`) the builder yields a dictionary, and for every id `i < N` and every
buffer of at least `MAX` words `extract(i, buf)` returns the number of terms of the
`i`-th completion without its terminator and leaves exactly those terms, in order, in the
first positions of the buffer. -/
theorem extract_build_roundtrip (BucketSize MAX term : Nat) (src : List completion_record)
    (hv : ValidSource BucketSize MAX term src) :
    ∃ d, build_dictionary BucketSize MAX term src = some d ∧
      ∀ (i : Nat) (r : completion_record) (buf : List Nat),
        src[i]? = some r → MAX ≤ buf.length →
        ∃ buf', extract BucketSize d i buf = some (r.completion.length - 1, buf') ∧
          buf'.take (r.completion.length - 1) =
            r.completion.take (r.completion.length - 1) ∧
          buf'.length = buf.length := by
  obtain ⟨d, hd, hR⟩ := build_represents BucketSize MAX term src hv
  refine ⟨d, hd, ?_⟩
  intro i r buf hr hbuf
  have hm : (stored src).length % (BucketSize + 1) ≠ 0 := by
    rw [stored_length]; exact hv.not_multiple
  have hx : (stored src)[i]? = some (strip r.completion) := by
    rw [stored_getElem?, hr]; rfl
  have hfit := stored_fit BucketSize MAX term src hv buf.length (by omega)
  obtain ⟨buf', e1, e2, e3⟩ := extract_spec BucketSize d (stored src) hR hm i _ hx buf hfit
  have hlen : (strip r.completion).length = r.completion.length - 1 := by
    simp [strip]
  rw [hlen] at e1 e2
  exact ⟨buf', e1, e2, e3⟩

/-- Witness of C1 on the scenario corpus. -/
theorem extract_build_roundtrip_witness :
    ValidSource 2 64 4294967295 spec_corpus ∧
    ∃ d, build_dictionary 2 64 4294967295 spec_corpus = some d ∧
      ∀ (i : Nat) (r : completion_record) (buf : List Nat),
        spec_corpus[i]? = some r → 64 ≤ buf.length →
        ∃ buf', extract 2 d i buf = some (r.completion.length - 1, buf') ∧
          buf'.take (r.completion.length - 1) =
            r.completion.take (r.completion.length - 1) ∧
          buf'.length = buf.length :=
  ⟨spec_corpus_valid, extract_build_roundtrip 2 64 4294967295 spec_corpus spec_corpus_valid⟩

/-- C2. Locate undoes extract: for a valid source whose completions fit the 64-word
decode scratch (`MAX <= 65`), and for every id `i < N`, `extract(i)` produces a completion
on which `locate` returns `i`, whatever the scratch held before the call. -/
theorem locate_extract_roundtrip (BucketSize MAX term : Nat) (src : List completion_record)
    (hv : ValidSource BucketSize MAX term src) (hmax : MAX ≤ 65) :
    ∃ d, build_dictionary BucketSize MAX term src = some d ∧
      ∀ (i : Nat) (buf decoded : List Nat),
        i < src.length → MAX ≤ buf.length → decoded.length = 64 →
        ∃ n buf', extract BucketSize d i buf = some (n, buf') ∧
          locate BucketSize d decoded (buf'.take n) = some i := by
  obtain ⟨d, hd, hR⟩ := build_represents BucketSize MAX term src hv
  refine ⟨d, hd, ?_⟩
  intro i buf decoded hi hbuf hdec
  have hm : (stored src).length % (BucketSize + 1) ≠ 0 := by
    rw [stored_length]; exact hv.not_multiple
  have hi' : i < (stored src).length := by rw [stored_length]; exact hi
  have hx : (stored src)[i]? = some (stored src)[i] := List.getElem?_eq_getElem hi'
  have hfit := stored_fit BucketSize MAX term src hv buf.length (by omega)
  have hfit' := stored_fit BucketSize MAX term src hv decoded.length (by omega)
  obtain ⟨buf', e1, e2, _⟩ := extract_spec BucketSize d (stored src) hR hm i _ hx buf hfit
  refine ⟨_, buf', e1, ?_⟩
  rw [e2]
  exact locate_stored BucketSize d (stored src) hR hv.increasing hm
    (by rw [stored_length]; exact hv.size_lt) hv.bucket_lt decoded hfit' i _ hx

/-- Witness of C2 on the scenario corpus. -/
theorem locate_extract_roundtrip_witness :
    ValidSource 2 64 4294967295 spec_corpus ∧ 64 ≤ 65 ∧
    ∃ d, build_dictionary 2 64 4294967295 spec_corpus = some d ∧
      ∀ (i : Nat) (buf decoded : List Nat),
        i < spec_corpus.length → 64 ≤ buf.length → decoded.length = 64 →
        ∃ n buf', extract 2 d i buf = some (n, buf') ∧
          locate 2 d decoded (buf'.take n) = some i :=
  ⟨spec_corpus_valid, by decide,
    locate_extract_roundtrip 2 64 4294967295 spec_corpus spec_corpus_valid (by decide)⟩

/-- C4. Prefix range soundness: for a valid source whose completions fit the 64-word
decode scratch, `locate_prefix(p)` returns a pair `[a, b]` such that every id `j` with
`a <= j <= b` is below `N` and `extract(j)` starts with `p`; consequently the range is
empty (`a > b`) when `p` is a prefix of no stored completion. -/
theorem locate_prefix_range_sound (BucketSize MAX term : Nat)
    (src : List completion_record)
    (hv : ValidSource BucketSize MAX term src) (hmax : MAX ≤ 65) :
    ∃ d, build_dictionary BucketSize MAX term src = some d ∧
      ∀ (p decoded_l decoded_r : List Nat),
        decoded_l.length = 64 → decoded_r.length = 64 →
        ∃ a b, locate_prefix BucketSize d decoded_l decoded_r p = some (a, b) ∧
          (∀ (j : Nat) (buf : List Nat), a ≤ j → j ≤ b → MAX ≤ buf.length →
            j < src.length ∧
            ∃ n buf', extract BucketSize d j buf = some (n, buf') ∧ p <+: buf'.take n) ∧
          ((∀ (j : Nat) (buf : List Nat) (n : Nat) (buf' : List Nat), j < src.length →
              MAX ≤ buf.length → extract BucketSize d j buf = some (n, buf') →
              ¬ p <+: buf'.take n) → b < a) := by
  obtain ⟨d, hd, hR⟩ := build_represents BucketSize MAX term src hv
  refine ⟨d, hd, ?_⟩
  intro p dl dr hdl hdr
  have hm : (stored src).length % (BucketSize + 1) ≠ 0 := by
    rw [stored_length]; exact hv.not_multiple
  have hfl := stored_fit BucketSize MAX term src hv dl.length (by omega)
  have hfr := stored_fit BucketSize MAX term src hv dr.length (by omega)
  obtain ⟨a, b, hab, hsound⟩ := locate_prefix_sound BucketSize d (stored src) hR
    hv.increasing hm (by rw [stored_length]; exact hv.size_lt) hv.bucket_lt dl dr hfl hfr p
  have hin : ∀ (j : Nat) (buf : List Nat), a ≤ j → j ≤ b → MAX ≤ buf.length →
      j < src.length ∧
      ∃ n buf', extract BucketSize d j buf = some (n, buf') ∧ p <+: buf'.take n := by
    intro j buf h1 h2 hbuf
    obtain ⟨x, hx, hp⟩ := hsound j h1 h2
    have hj : j < src.length := by
      have := (List.getElem?_eq_some.mp hx).1
      rw [stored_length] at this
      exact this
    have hfit := stored_fit BucketSize MAX term src hv buf.length (by omega)
    obtain ⟨buf', e1, e2, _⟩ := extract_spec BucketSize d (stored src) hR hm j x hx buf hfit
    exact ⟨hj, x.length, buf', e1, by rw [e2]; exact hp⟩
  refine ⟨a, b, hab, hin, ?_⟩
  intro hnone
  by_contra hc
  obtain ⟨hj, n, buf', e1, e2⟩ := hin a (List.replicate MAX 0) (le_refl _) (by omega)
    (by simp)
  exact hnone a (List.replicate MAX 0) n buf' hj (by simp) e1 e2

/-- Witness of C4 on the scenario corpus. -/
theorem locate_prefix_range_sound_witness :
    ValidSource 2 64 4294967295 spec_corpus ∧ 64 ≤ 65 ∧
    ∃ d, build_dictionary 2 64 4294967295 spec_corpus = some d ∧
      ∀ (p decoded_l decoded_r : List Nat),
        decoded_l.length = 64 → decoded_r.length = 64 →
        ∃ a b, locate_prefix 2 d decoded_l decoded_r p = some (a, b) ∧
          (∀ (j : Nat) (buf : List Nat), a ≤ j → j ≤ b → 64 ≤ buf.length →
            j < spec_corpus.length ∧
            ∃ n buf', extract 2 d j buf = some (n, buf') ∧ p <+: buf'.take n) ∧
          ((∀ (j : Nat) (buf : List Nat) (n : Nat) (buf' : List Nat),
              j < spec_corpus.length →
              64 ≤ buf.length → extract 2 d j buf = some (n, buf') →
              ¬ p <+: buf'.take n) → b < a) :=
  ⟨spec_corpus_valid, by decide,
    locate_prefix_range_sound 2 64 4294967295 spec_corpus spec_corpus_valid (by decide)⟩

/-! ## Inputs on which the code leaves its specification -/

/-- The builder turns the scenario corpus into `spec_dictionary`. -/
theorem spec_dictionary_built :
    build_dictionary 2 64 4294967295 spec_corpus = some spec_dictionary := by decide

/-- C3. On the scenario dictionary `locate_prefix([10])` returns `[1, 2]`: id 0, whose
completion `[10, 20]` starts with `[10]`, is left out, because the first header extends
the query without being equal to it. -/
theorem locate_prefix_skips_first_header :
    build_dictionary 2 64 4294967295 spec_corpus = some spec_dictionary ∧
    locate_prefix 2 spec_dictionary scratch0 scratch0 [10] = some (1, 2) ∧
    (extract 2 spec_dictionary 0 scratch0).map (fun r => r.2.take r.1) = some [10, 20] ∧
    uint32_range_compare [10, 20] [10] ≠ 0 ∧
    uint32_range_compare_n [10, 20] [10] 1 = 0 := by decide

/-- C5. On the scenario dictionary the range variant with prefix `[11]` and term range
`[4, 5]` returns the empty range `[3, 3)`, although ids 3 and 4 hold `[11, 5, 7]` and
`[11, 5, 8]`: the right search stops in the bucket before the one that starts with
`[11, 5, ...]`. -/
theorem locate_prefix_range_stops_before_next_bucket :
    build_dictionary 2 64 4294967295 spec_corpus = some spec_dictionary ∧
    locate_prefix_range 2 spec_dictionary scratch0 scratch0 [11] (4, 5)
      = some ((3, 3), [11]) ∧
    locate_bucket spec_dictionary [11, 5] = some (false, [10, 20], 0) ∧
    (extract 2 spec_dictionary 3 scratch0).map (fun r => r.2.take r.1) = some [11, 5, 7] ∧
    (extract 2 spec_dictionary 4 scratch0).map (fun r => r.2.take r.1) = some [11, 5, 8] := by
  decide

/-- C6. On the scenario dictionary `locate([13])`, a sequence greater than the last
completion, selects the last bucket and its scan runs off the end of the bucket, which
is `assert(false)`; so does `locate([10, 31])` in the first bucket. -/
theorem locate_scan_runs_off_the_bucket :
    build_dictionary 2 64 4294967295 spec_corpus = some spec_dictionary ∧
    locate_bucket spec_dictionary [13] = some (false, [12], 2) ∧
    locate_in_bucket 2 spec_dictionary scratch0 [13] [12] 2 = none ∧
    locate 2 spec_dictionary scratch0 [13] = none ∧
    locate_bucket spec_dictionary [10, 31] = some (false, [10, 20], 0) ∧
    locate 2 spec_dictionary scratch0 [10, 31] = none := by decide

/-- C7. On the scenario dictionary `locate([9])`, a sequence below the first header,
leaves the binary search with `mi = 0` and `cmp > 0`, sets `bucket_id = mi - 1`, which is
`0xFFFFFFFF` as a `uint32_t`, and calls `header` on it: the assertion `i < buckets()`
fails and no id is returned. -/
theorem locate_below_first_header_faults :
    build_dictionary 2 64 4294967295 spec_corpus = some spec_dictionary ∧
    locate_bucket_loop spec_dictionary [9] 4 0 2 0 0 [] = some (false, 0, 1, [10, 20]) ∧
    to_uint32 (0 - 1) = 4294967295 ∧
    header spec_dictionary 4294967295 = none ∧
    locate_bucket spec_dictionary [9] = none ∧
    locate 2 spec_dictionary scratch0 [9] = none := by decide

/-- C8. On the scenario dictionary the range variant with prefix `[9]` and term range
`[0, 1]` does not return: its first bucket search is for `[9, 0]`, below the first
header, and calls `header(0xFFFFFFFF)`. -/
theorem locate_prefix_range_below_first_header_faults :
    build_dictionary 2 64 4294967295 spec_corpus = some spec_dictionary ∧
    locate_bucket spec_dictionary [9, 0] = none ∧
    locate_prefix_range 2 spec_dictionary scratch0 scratch0 [9] (0, 1) = none := by decide

/-- C9. On the scenario dictionary the range variant with prefix `[10]` and the inverted
term range `[25, 5]` does not return: the left search for `[10, 25]` succeeds, the right
search for `[10, 5]` is below the first header and calls `header(0xFFFFFFFF)`. -/
theorem locate_prefix_range_inverted_faults :
    build_dictionary 2 64 4294967295 spec_corpus = some spec_dictionary ∧
    locate_bucket spec_dictionary [10, 25] = some (false, [10, 20], 0) ∧
    locate_bucket spec_dictionary [10, 5] = none ∧
    locate_prefix_range 2 spec_dictionary scratch0 scratch0 [10] (25, 5) = none := by
  decide

/-- C10. On the scenario dictionary `locate_prefix([])` returns `[1, 6]`, not `[0, 6]`:
the first header is not equal to the empty query, so the left end is taken from the scan
of the deltas, which starts at offset 1. -/
theorem locate_prefix_empty_skips_first :
    build_dictionary 2 64 4294967295 spec_corpus = some spec_dictionary ∧
    locate_prefix 2 spec_dictionary scratch0 scratch0 [] = some (1, 6) ∧
    locate_buckets spec_dictionary [] = some (0, 2) := by decide

/-! ## The caller's buffer, the tail count, the bucket search below the first header -/

/-- C15. The range variant restores the caller's buffer: whenever
`locate_prefix(prefix, [a, b])` returns, the prefix buffer it leaves is the buffer it was
given, for `a = b` (two terms pushed and popped) as for `a != b` (one term). -/
theorem locate_prefix_range_restores_buffer (BucketSize : Nat) (d : integer_fc_dictionary)
    (decoded_l decoded_r pfx : List Nat) (r : Nat × Nat) (rng : Nat × Nat) (pfx' : List Nat)
    (h : locate_prefix_range BucketSize d decoded_l decoded_r pfx r = some (rng, pfx')) :
    pfx' = pfx := by
  unfold locate_prefix_range at h
  simp only [] at h
  split at h
  · exact absurd h (by simp)
  · split at h
    · exact absurd h (by simp)
    · split at h
      · exact absurd h (by simp)
      · split at h
        · exact absurd h (by simp)
        · simp only [Option.some.injEq, Prod.mk.injEq] at h
          rw [← h.2]
          split_ifs <;> simp [List.dropLast_concat]

/-- Witness of C15 on the scenario dictionary, for `a != b` and for `a = b`. -/
theorem locate_prefix_range_restores_buffer_witness :
    locate_prefix_range 2 spec_dictionary scratch0 scratch0 [11] (5, 6)
      = some ((3, 6), [11]) ∧
    locate_prefix_range 2 spec_dictionary scratch0 scratch0 [11] (5, 5)
      = some ((3, 5), [11]) ∧
    [11] = [11] :=
  ⟨by decide, by decide,
    locate_prefix_range_restores_buffer 2 spec_dictionary scratch0 scratch0 [11] (5, 5)
      (3, 5) [11] (by decide)⟩

/-- C12. With `N = 6` completions and `BucketSize = 2` (`N` a multiple of
`BucketSize + 1`) the tail count `N - (N / 3) * 3 - 1` is `0xFFFFFFFF` in unsigned
arithmetic: `bucket_size` of the last bucket is `4294967295`, not 2, and the builder, asked
for that many records after the second header, runs off the six records of its source. -/
theorem tail_count_wraps_on_full_last_bucket :
    (spec_corpus.take 6).length = 6 ∧ 6 % (2 + 1) = 0 ∧
    build_dictionary 2 64 4294967295 (spec_corpus.take 6) = none ∧
    full_tail_dictionary.buckets = 2 ∧
    bucket_size 2 full_tail_dictionary 0 = 2 ∧
    bucket_size 2 full_tail_dictionary 1 = 4294967295 := by decide

/-- C17. On the scenario dictionary `locate_bucket` returns `true` on a header and `false`
with the greatest smaller header above the first header, but for `t = [9]`, below the
first header, it does not return `false`: the exit branch calls `header(0xFFFFFFFF)`. -/
theorem locate_bucket_does_not_return_below_first_header :
    locate_bucket spec_dictionary [11, 5, 7] = some (true, [11, 5, 7], 1) ∧
    locate_bucket spec_dictionary [11, 6] = some (false, [11, 5, 7], 1) ∧
    uint32_range_compare [10, 20] [9] = 1 ∧
    locate_bucket spec_dictionary [9] = none := by decide

/-! ## Bucket sizes and pointer tables -/

theorem build_segmented (B MAX term : Nat) (src : List completion_record)
    (hv : ValidSource B MAX term src) :
    ∃ d, build_dictionary B MAX term src = some d ∧ Represents B d (stored src) ∧
      Segmented d.m_pointers_to_headers d.m_headers ((src.length + B) / (B + 1))
        (hseg B (stored src)) ∧
      Segmented d.m_pointers_to_buckets d.m_buckets ((src.length + B) / (B + 1))
        (bseg B (stored src)) := by
  obtain ⟨d, hd, hR⟩ := build_represents B MAX term src hv
  obtain ⟨bl, hb, _, hH, hB⟩ := construct_spec B MAX term src hv
  have : d = bl.build := by
    simp only [build_dictionary, hb, Option.map_some', Option.some.injEq] at hd
    exact hd.symm
  subst this
  exact ⟨_, hd, hR, hH, hB⟩

theorem sum_map_range_const (f : Nat → Nat) (c : Nat) :
    ∀ n, (∀ b, b < n → f b = c) → ((List.range n).map f).sum = n * c := by
  intro n
  induction n with
  | zero => intro _; simp
  | succ n ih =>
    intro h
    rw [List.range_succ, List.map_append, List.sum_append,
      ih (fun b hb => h b (by omega))]
    simp [h n (by omega)]
    ring

theorem delta_count_sum (N B : Nat) (hm : N % (B + 1) ≠ 0) :
    ((List.range ((N + B) / (B + 1))).map (fun b => delta_count B N b + 1)).sum = N := by
  have hK := bucket_count_eq N B hm
  have h1 := Nat.div_add_mod N (B + 1)
  have h2 : N % (B + 1) < B + 1 := Nat.mod_lt _ (by omega)
  rw [hK, List.range_succ, List.map_append, List.sum_append,
    sum_map_range_const _ (B + 1)]
  · have hl : delta_count B N (N / (B + 1)) = N % (B + 1) - 1 := by
      unfold delta_count
      rw [hK, if_neg (by simp)]
    simp only [List.map_cons, List.map_nil, List.sum_cons, List.sum_nil, hl]
    rw [Nat.mul_comm]
    omega
  · intro b hb
    unfold delta_count
    rw [hK, if_pos (by omega)]

/-- C11 as the code has it. For a valid source the builder yields a dictionary in which
`bucket_size(b)` is the number of completions of bucket `b` that follow its header:
`BucketSize` for every bucket but the last, and in general the offsets `j` of the ids
`b * (BucketSize + 1) + j` of bucket `b` are exactly those with `j <= bucket_size(b)`; so
bucket `b` holds `bucket_size(b) + 1` completions and these counts sum to `N`. -/
theorem bucket_size_counts_followers (BucketSize MAX term : Nat)
    (src : List completion_record) (hv : ValidSource BucketSize MAX term src) :
    ∃ d, build_dictionary BucketSize MAX term src = some d ∧
      d.size = src.length ∧
      d.buckets = (src.length + BucketSize) / (BucketSize + 1) ∧
      (∀ b, b + 1 < d.buckets → bucket_size BucketSize d b = BucketSize) ∧
      (∀ b j, b < d.buckets →
        (j ≤ bucket_size BucketSize d b ↔
          (j < BucketSize + 1 ∧ b * (BucketSize + 1) + j < src.length))) ∧
      ((List.range d.buckets).map (fun b => bucket_size BucketSize d b + 1)).sum
        = src.length := by
  obtain ⟨d, hd, hR⟩ := build_represents BucketSize MAX term src hv
  have hm := hv.not_multiple
  have hK : d.buckets = (src.length + BucketSize) / (BucketSize + 1) := by
    rw [hR.buckets_eq, stored_length]
  have hbs : ∀ b, b < d.buckets →
      bucket_size BucketSize d b = delta_count BucketSize src.length b := by
    intro b hb
    rw [hR.bucket_size_eq b hb, stored_length]
  refine ⟨d, hd, by rw [size, hR.size_eq, stored_length], hK, ?_, ?_, ?_⟩
  · intro b hb
    rw [hbs b (by omega)]
    unfold delta_count
    rw [← hK, if_pos (by omega)]
  · intro b j hb
    rw [hbs b hb]
    rw [hK] at hb
    have hle := delta_count_le src.length BucketSize b
    by_cases hl : b + 1 < (src.length + BucketSize) / (BucketSize + 1)
    · have := bucket_end_inner src.length BucketSize b hm hl
      have hsm : (b + 1) * (BucketSize + 1) = b * (BucketSize + 1) + (BucketSize + 1) := by
        ring
      constructor
      · intro h; omega
      · intro h; omega
    · have := bucket_end_last src.length BucketSize b hm (by omega)
      constructor
      · intro h; omega
      · intro h; omega
  · rw [← delta_count_sum src.length BucketSize hm, hK]
    apply congrArg
    apply List.map_congr_left
    intro b hb
    rw [hbs b (by rw [hK]; exact List.mem_range.mp hb)]

/-- Witness of the amended C11 on the scenario corpus. -/
theorem bucket_size_counts_followers_witness :
    ValidSource 2 64 4294967295 spec_corpus ∧
    ∃ d, build_dictionary 2 64 4294967295 spec_corpus = some d ∧
      d.size = spec_corpus.length ∧
      d.buckets = (spec_corpus.length + 2) / (2 + 1) ∧
      (∀ b, b + 1 < d.buckets → bucket_size 2 d b = 2) ∧
      (∀ b j, b < d.buckets →
        (j ≤ bucket_size 2 d b ↔ (j < 2 + 1 ∧ b * (2 + 1) + j < spec_corpus.length))) ∧
      ((List.range d.buckets).map (fun b => bucket_size 2 d b + 1)).sum
        = spec_corpus.length :=
  ⟨spec_corpus_valid, bucket_size_counts_followers 2 64 4294967295 spec_corpus
    spec_corpus_valid⟩

/-- C11 as stated fails on the scenario dictionary: `bucket_size` is 2, 2, 0 for the three
buckets, which hold 3, 3 and 1 completions, and the sum of `bucket_size` is 4, not 7. -/
theorem bucket_size_is_not_the_cardinality :
    build_dictionary 2 64 4294967295 spec_corpus = some spec_dictionary ∧
    spec_dictionary.size = 7 ∧ spec_dictionary.buckets = 3 ∧
    (List.range 3).map (bucket_size 2 spec_dictionary) = [2, 2, 0] ∧
    ((List.range 3).map (bucket_size 2 spec_dictionary)).sum ≠ 7 ∧
    (List.range 3).map (fun i => (extract 2 spec_dictionary i scratch0).map
      (fun r => r.2.take r.1)) = [some [10, 20], some [10, 21], some [10, 30]] := by
  decide

theorem enc_deltas_length_pos (prev : List Nat) (es : List (List Nat)) :
    0 < (enc_deltas prev es).length ↔ 0 < es.length := by
  cases es with
  | nil => simp [enc_deltas]
  | cons e es => simp [enc_deltas, enc_delta]

/-- C13 as the code has it. For a valid source with `K` buckets both pointer tables have
`K + 1` entries and start at 0; `H[i] < H[i+1]` for every bucket (a header has at least
one term); `P[i] <= P[i+1]`, with `P[i] < P[i+1]` exactly when bucket `i` has a delta
record, that is holds at least two completions. -/
theorem pointer_tables_monotone (BucketSize MAX term : Nat)
    (src : List completion_record) (hv : ValidSource BucketSize MAX term src) :
    ∃ d, build_dictionary BucketSize MAX term src = some d ∧
      d.m_pointers_to_headers.length = d.buckets + 1 ∧
      d.m_pointers_to_buckets.length = d.buckets + 1 ∧
      d.m_pointers_to_headers[0]? = some 0 ∧
      d.m_pointers_to_buckets[0]? = some 0 ∧
      ∀ i, i < d.buckets → ∃ h0 h1 p0 p1,
        pointers_at d.m_pointers_to_headers i = some (h0, h1) ∧
        pointers_at d.m_pointers_to_buckets i = some (p0, p1) ∧
        h0 < h1 ∧ p0 ≤ p1 ∧ (p0 < p1 ↔ 0 < bucket_size BucketSize d i) := by
  obtain ⟨d, hd, hR, hH, hB⟩ := build_segmented BucketSize MAX term src hv
  have hm : (stored src).length % (BucketSize + 1) ≠ 0 := by
    rw [stored_length]; exact hv.not_multiple
  have hK : d.buckets = (src.length + BucketSize) / (BucketSize + 1) := by
    rw [hR.buckets_eq, stored_length]
  refine ⟨d, hd, by rw [hK]; exact hH.1, by rw [hK]; exact hB.1, hH.2.1, hB.2.1, ?_⟩
  intro i hi
  have hi' : i < (src.length + BucketSize) / (BucketSize + 1) := by rw [← hK]; exact hi
  have hi'' : i < ((stored src).length + BucketSize) / (BucketSize + 1) := by
    rw [stored_length]; exact hi'
  obtain ⟨h0, q1, _, _, _⟩ := hH.lookup hi'
  obtain ⟨p0, q2, _, _, _⟩ := hB.lookup hi'
  refine ⟨h0, _, p0, _, q1, q2, ?_, by omega, ?_⟩
  · -- a header has at least one term
    have hS := hseg_getElem? BucketSize (stored src) i hm hi''
    rw [stored_getElem?] at hS
    obtain ⟨r, hr, hs⟩ := Option.map_eq_some'.mp hS
    obtain ⟨t1, _, _, _⟩ := hv.shape r (List.getElem?_mem hr)
    have : (hseg BucketSize (stored src) i).length = r.completion.length - 1 := by
      rw [← hs]; simp [strip]
    omega
  · rw [hR.bucket_size_eq i hi, ← bucket_entries_length BucketSize (stored src) i hm hi'',
      ← enc_deltas_length_pos (hseg BucketSize (stored src) i)]
    unfold bseg
    omega

/-- Witness of the amended C13 on the scenario corpus. -/
theorem pointer_tables_monotone_witness :
    ValidSource 2 64 4294967295 spec_corpus ∧
    ∃ d, build_dictionary 2 64 4294967295 spec_corpus = some d ∧
      d.m_pointers_to_headers.length = d.buckets + 1 ∧
      d.m_pointers_to_buckets.length = d.buckets + 1 ∧
      d.m_pointers_to_headers[0]? = some 0 ∧
      d.m_pointers_to_buckets[0]? = some 0 ∧
      ∀ i, i < d.buckets → ∃ h0 h1 p0 p1,
        pointers_at d.m_pointers_to_headers i = some (h0, h1) ∧
        pointers_at d.m_pointers_to_buckets i = some (p0, p1) ∧
        h0 < h1 ∧ p0 ≤ p1 ∧ (p0 < p1 ↔ 0 < bucket_size 2 d i) :=
  ⟨spec_corpus_valid, pointer_tables_monotone 2 64 4294967295 spec_corpus spec_corpus_valid⟩

/-- C13 as stated fails on the scenario dictionary: the last bucket holds one completion,
`[12]`, yet its two byte pointers are equal (`P[2] = P[3] = 24`). -/
theorem bucket_pointers_equal_for_header_only_bucket :
    build_dictionary 2 64 4294967295 spec_corpus = some spec_dictionary ∧
    pointers_at spec_dictionary.m_pointers_to_buckets 2 = some (24, 24) ∧
    (extract 2 spec_dictionary 6 scratch0).map (fun r => r.2.take r.1) = some [12] ∧
    6 / (2 + 1) = 2 := by decide

/-! ## What the builder checks -/

theorem lcp_self (c : List Nat) : builder.lcp c c = c.length := by
  induction c with
  | nil => rfl
  | cons x xs ih => simp [builder.lcp, ih]

theorem write_some_ne (MAX term : Nat) (bl bl' : builder) (c prev : List Nat)
    (h : builder.write MAX term bl c (builder.lcp c prev) = some bl') : c ≠ prev := by
  intro he
  subst he
  unfold builder.write at h
  rw [lcp_self] at h
  by_cases h1 : 0 < c.length ∧ c.length ≤ MAX ∧ c.getLast? = some term
  · rw [if_pos h1] at h
    simp only [] at h
    by_cases h2 : (c.length - 1) % 256 ≥ c.length
    · have := Nat.mod_le (c.length - 1) 256
      omega
    · rw [if_neg h2] at h
      exact absurd h (by simp)
  · rw [if_neg h1] at h
    exact absurd h (by simp)

theorem construct_deltas_some (MAX term : Nat) :
    ∀ (size : Nat) (it : List completion_record) (prev : List Nat) (bl bl' : builder)
      (it' : List completion_record),
      builder.construct_deltas MAX term size it prev bl = some (bl', it') →
      size ≤ it.length ∧ it' = it.drop size ∧
      (∀ r, 0 < size → it[0]? = some r → r.completion ≠ prev) ∧
      (∀ j r r', j + 1 < size → it[j]? = some r → it[j + 1]? = some r' →
        r.completion ≠ r'.completion) := by
  intro size
  induction size with
  | zero =>
    intro it prev bl bl' it' h
    simp only [builder.construct_deltas, Option.some.injEq, Prod.mk.injEq] at h
    exact ⟨Nat.zero_le _, by simp [h.2], fun r h0 => absurd h0 (by omega),
      fun j r r' hj => absurd hj (by omega)⟩
  | succ size ih =>
    intro it prev bl bl' it' h
    cases it with
    | nil => simp [builder.construct_deltas] at h
    | cons r0 rest =>
      simp only [builder.construct_deltas] at h
      split at h
      · exact absurd h (by simp)
      · rename_i bl2 hw
        have hne := write_some_ne MAX term _ bl2 r0.completion prev hw
        obtain ⟨g1, g2, g3, g4⟩ := ih rest r0.completion bl2 bl' it' h
        refine ⟨by simp; omega, by simpa using g2, ?_, ?_⟩
        · intro r _ hr
          simp only [List.getElem?_cons_zero, Option.some.injEq] at hr
          subst hr
          exact hne
        · intro j r r' hj hr hr'
          cases j with
          | zero =>
            simp only [List.getElem?_cons_zero, Option.some.injEq] at hr
            subst hr
            rw [List.getElem?_cons_succ] at hr'
            exact Ne.symm (g3 r' (by omega) hr')
          | succ j =>
            rw [List.getElem?_cons_succ] at hr hr'
            exact g4 j r r' (by omega) hr hr'

theorem construct_buckets_some (B MAX term buckets tail : Nat) (hbk : buckets < 4294967296) :
    ∀ (k b : Nat) (it : List completion_record) (bl bl' : builder),
      b + k = buckets →
      builder.construct_buckets B MAX term buckets tail k b it bl = some bl' →
      ∀ i, (i + 1) % (B + 1) ≠ 0 → i + 1 < (k - 1) * (B + 1) + 1 + tail → 1 ≤ k →
        ∃ r r', it[i]? = some r ∧ it[i + 1]? = some r' ∧ r.completion ≠ r'.completion := by
  intro k
  induction k with
  | zero => intro b it bl bl' _ _ i _ _ hk; omega
  | succ k ih =>
    intro b it bl bl' hb h i hi hlt _
    cases it with
    | nil => simp [builder.construct_buckets] at h
    | cons hd rest =>
      simp only [builder.construct_buckets] at h
      split at h
      · exact absurd h (by simp)
      · split at h
        · exact absurd h (by simp)
        · rename_i bl2 _ bl4 it' hcd
          have hsz : (if b ≠ (buckets + 4294967296 - 1) % 4294967296 then B else tail)
              = if k = 0 then tail else B := by
            have : (buckets + 4294967296 - 1) % 4294967296 = buckets - 1 := by omega
            rw [this]
            split_ifs <;> first | rfl | omega
          rw [hsz] at hcd
          obtain ⟨g1, g2, g3, g4⟩ := construct_deltas_some MAX term _ rest hd.completion _
            bl4 it' hcd
          by_cases hin : i + 1 ≤ (if k = 0 then tail else B)
          · have hr' : i < rest.length := by omega
            cases i with
            | zero =>
              refine ⟨hd, rest[0], by simp, by simp [List.getElem?_eq_getElem hr'], ?_⟩
              exact Ne.symm (g3 rest[0] (by omega) (List.getElem?_eq_getElem hr'))
            | succ i =>
              have hr'' : i < rest.length := by omega
              refine ⟨rest[i], rest[i + 1], by simp [List.getElem?_eq_getElem hr''],
                by simp [List.getElem?_eq_getElem hr'], ?_⟩
              exact g4 i _ _ (by omega) (List.getElem?_eq_getElem hr'')
                (List.getElem?_eq_getElem hr')
          · have hk : k ≠ 0 := by
              intro hk0
              rw [if_pos hk0] at hin
              subst hk0
              simp at hlt
              omega
            rw [if_neg hk] at hin g1 g2
            obtain ⟨k', rfl⟩ : ∃ k', k = k' + 1 := ⟨k - 1, by omega⟩
            have hmul : (k' + 1 + 1 - 1) * (B + 1) = (k' + 1 - 1) * (B + 1) + (B + 1) := by
              simp only [Nat.add_sub_cancel]
              ring
            have hiB : B + 1 ≤ i := by
              by_contra hc
              have : i + 1 = B + 1 := by omega
              rw [this] at hi
              simp at hi
            obtain ⟨i', rfl⟩ : ∃ i', i = i' + (B + 1) := ⟨i - (B + 1), by omega⟩
            have hmod : (i' + 1) % (B + 1) ≠ 0 := by
              have : i' + (B + 1) + 1 = (i' + 1) + (B + 1) := by omega
              rw [this, Nat.add_mod_right] at hi
              exact hi
            obtain ⟨r, r', a1, a2, a3⟩ := ih (b + 1) it' _ bl' (by omega) h i' hmod
              (by omega) (by omega)
            refine ⟨r, r', ?_, ?_, a3⟩
            · rw [g2, List.getElem?_drop] at a1
              rw [← a1, show i' + (B + 1) = (B + i') + 1 by omega, List.getElem?_cons_succ]
            · rw [g2, List.getElem?_drop] at a2
              rw [← a2, show i' + (B + 1) + 1 = (B + (i' + 1)) + 1 by omega,
                List.getElem?_cons_succ]

/-- C14 as the code has it. The builder has no order check of its own; what stops it is
the assertion `size >= lcp` of `write`: for every source of fewer than `2^32` records in
which a record that is not the first of its bucket repeats the completion of the record
before it, the builder fails and produces no dictionary. -/
theorem builder_fails_on_repeat_inside_bucket (BucketSize MAX term : Nat)
    (src : List completion_record) (i : Nat) (r r' : completion_record)
    (hN : src.length < 4294967296)
    (hpos : (i + 1) % (BucketSize + 1) ≠ 0)
    (h1 : src[i]? = some r) (h2 : src[i + 1]? = some r')
    (heq : r.completion = r'.completion) :
    build_dictionary BucketSize MAX term src = none := by
  have hi : i + 1 < src.length := (List.getElem?_eq_some.mp h2).1
  by_contra hc
  obtain ⟨d, hd⟩ := Option.ne_none_iff_exists'.mp hc
  simp only [build_dictionary, Option.map_eq_some'] at hd
  obtain ⟨bl, hbl, _⟩ := hd
  unfold builder.construct at hbl
  simp only [] at hbl
  have hKle : (src.length + BucketSize) / (BucketSize + 1) ≤ src.length := by
    rw [Nat.div_le_iff_le_mul_add_pred (by omega)]
    have : src.length ≤ (BucketSize + 1) * src.length := Nat.le_mul_of_pos_left _ (by omega)
    have h3 : (BucketSize + 1) * src.length = BucketSize * src.length + src.length := by ring
    have h4 : BucketSize ≤ BucketSize * src.length := Nat.le_mul_of_pos_right _ (by omega)
    simp only [Nat.add_sub_cancel]
    omega
  have hK1 : 1 ≤ (src.length + BucketSize) / (BucketSize + 1) := by
    rw [Nat.le_div_iff_mul_le (by omega)]
    omega
  have e1 : ((src.length + BucketSize) / (BucketSize + 1)) % 4294967296
      = (src.length + BucketSize) / (BucketSize + 1) := Nat.mod_eq_of_lt (by omega)
  rw [e1] at hbl
  have hbound : i + 1 < ((src.length + BucketSize) / (BucketSize + 1) - 1) * (BucketSize + 1)
      + 1 + ((src.length - (src.length / (BucketSize + 1)) * (BucketSize + 1)
        + 18446744073709551616 - 1) % 18446744073709551616) % 4294967296 := by
    have hdm := Nat.div_add_mod src.length (BucketSize + 1)
    have hml : src.length % (BucketSize + 1) < BucketSize + 1 := Nat.mod_lt _ (by omega)
    have hsub : src.length - (src.length / (BucketSize + 1)) * (BucketSize + 1)
        = src.length % (BucketSize + 1) := by
      rw [Nat.mul_comm]; omega
    rw [hsub]
    by_cases hm : src.length % (BucketSize + 1) = 0
    · rw [hm]
      simp only [Nat.zero_add]
      omega
    · have hlast := bucket_end_last src.length BucketSize
        ((src.length + BucketSize) / (BucketSize + 1) - 1) hm (by omega)
      unfold delta_count at hlast
      rw [if_neg (by simp)] at hlast
      have e2 : ((src.length % (BucketSize + 1) + 18446744073709551616 - 1)
          % 18446744073709551616) % 4294967296 = src.length % (BucketSize + 1) - 1 := by
        omega
      rw [e2]
      omega
  obtain ⟨a, b, q1, q2, q3⟩ := construct_buckets_some BucketSize MAX term _ _ (by omega)
    _ 0 src _ bl (by omega) hbl i hpos hbound hK1
  rw [h1] at q1
  rw [h2] at q2
  cases q1
  cases q2
  exact q3 heq

/-- Witness of the amended C14: two equal records in one bucket. -/
theorem builder_fails_on_repeat_inside_bucket_witness :
    [(⟨[1, 4294967295], 0⟩ : completion_record), ⟨[1, 4294967295], 1⟩].length < 4294967296 ∧
    (0 + 1) % (2 + 1) ≠ 0 ∧
    build_dictionary 2 64 4294967295 [⟨[1, 4294967295], 0⟩, ⟨[1, 4294967295], 1⟩] = none :=
  ⟨by decide, by decide,
    builder_fails_on_repeat_inside_bucket 2 64 4294967295
      [⟨[1, 4294967295], 0⟩, ⟨[1, 4294967295], 1⟩] 0 ⟨[1, 4294967295], 0⟩
      ⟨[1, 4294967295], 1⟩ (by decide) (by decide) rfl rfl rfl⟩

/-- C14 as stated fails: the builder turns the decreasing source `[2], [1]` into a
dictionary, and also the source `[1], [2], [3], [3], [4]`, whose repeated completion opens
the second bucket (`BucketSize = 2`). -/
theorem builder_accepts_unsorted_source :
    uint32_range_compare [1] [2] < 0 ∧
    build_dictionary 2 64 4294967295 [⟨[2, 4294967295], 0⟩, ⟨[1, 4294967295], 1⟩]
      = some { m_size := 2, m_pointers_to_headers := [0, 1],
               m_pointers_to_buckets := [0, 6], m_headers := [2],
               m_buckets := [0, 1, 1, 0, 0, 0] } ∧
    uint32_range_compare [3] [3] = 0 ∧
    build_dictionary 2 64 4294967295
      [⟨[1, 4294967295], 0⟩, ⟨[2, 4294967295], 1⟩, ⟨[3, 4294967295], 2⟩,
       ⟨[3, 4294967295], 3⟩, ⟨[4, 4294967295], 4⟩]
      = some { m_size := 5, m_pointers_to_headers := [0, 1, 2],
               m_pointers_to_buckets := [0, 12, 18], m_headers := [1, 3],
               m_buckets := [0, 1, 2, 0, 0, 0, 0, 1, 3, 0, 0, 0, 0, 1, 4, 0, 0, 0] } := by
  decide

/-! ## The scans as functions of the decoded entries -/

theorem locate_scan_eq (d : integer_fc_dictionary) (t : List Nat) (es : List (List Nat)) :
    ∀ (i curr : Nat) (prev out : List Nat),
      enc_deltas prev es <+: d.m_buckets.drop curr → prev <+: out →
      EntriesFit out.length es →
      locate_scan d t es.length i curr out = locate_entries t i es := by
  induction es with
  | nil => intro i curr prev out _ _ _; rfl
  | cons e es ih =>
    intro i curr prev out hc ho hf
    obtain ⟨f1, f2, f3⟩ := hf.head_fit
    obtain ⟨s1, s2, s3, s4⟩ := scan_step d curr prev e es out hc ho f1 f2 f3
    have hf' : EntriesFit (e ++ out.drop e.length).length es := by rw [s3]; exact hf.tail_fit
    simp only [List.length_cons, locate_scan, s1, s4, locate_entries]
    rw [ih (i + 1) _ e _ s2 (List.prefix_append _ _) hf']

theorem left_locate_scan_eq (d : integer_fc_dictionary) (p : List Nat) (n : Nat)
    (es : List (List Nat)) :
    ∀ (i curr : Nat) (prev out : List Nat),
      enc_deltas prev es <+: d.m_buckets.drop curr → prev <+: out →
      EntriesFit out.length es →
      left_locate_scan d p n es.length i curr out = some (left_locate_entries p n i es) := by
  induction es with
  | nil => intro i curr prev out _ _ _; rfl
  | cons e es ih =>
    intro i curr prev out hc ho hf
    obtain ⟨f1, f2, f3⟩ := hf.head_fit
    obtain ⟨s1, s2, s3, s4⟩ := scan_step d curr prev e es out hc ho f1 f2 f3
    have hf' : EntriesFit (e ++ out.drop e.length).length es := by rw [s3]; exact hf.tail_fit
    simp only [List.length_cons, left_locate_scan, s1, s4, left_locate_entries]
    rw [ih (i + 1) _ e _ s2 (List.prefix_append _ _) hf']
    split_ifs <;> rfl

theorem right_locate_scan_eq (d : integer_fc_dictionary) (p : List Nat) (n : Nat)
    (es : List (List Nat)) :
    ∀ (i curr : Nat) (prev out : List Nat),
      enc_deltas prev es <+: d.m_buckets.drop curr → prev <+: out →
      EntriesFit out.length es →
      right_locate_scan d p n es.length i curr out
        = some (right_locate_entries p n i es) := by
  induction es with
  | nil => intro i curr prev out _ _ _; rfl
  | cons e es ih =>
    intro i curr prev out hc ho hf
    obtain ⟨f1, f2, f3⟩ := hf.head_fit
    obtain ⟨s1, s2, s3, s4⟩ := scan_step d curr prev e es out hc ho f1 f2 f3
    have hf' : EntriesFit (e ++ out.drop e.length).length es := by rw [s3]; exact hf.tail_fit
    simp only [List.length_cons, right_locate_scan, s1, s4, right_locate_entries]
    rw [ih (i + 1) _ e _ s2 (List.prefix_append _ _) hf']
    split_ifs <;> rfl

theorem left_locate2_scan_eq (d : integer_fc_dictionary) (p : List Nat) (n : Nat)
    (es : List (List Nat)) :
    ∀ (i curr : Nat) (prev out : List Nat),
      enc_deltas prev es <+: d.m_buckets.drop curr → prev <+: out →
      EntriesFit out.length es →
      left_locate2_scan d p n es.length i curr out
        = some (left_locate2_entries p n i es) := by
  induction es with
  | nil => intro i curr prev out _ _ _; rfl
  | cons e es ih =>
    intro i curr prev out hc ho hf
    obtain ⟨f1, f2, f3⟩ := hf.head_fit
    obtain ⟨s1, s2, s3, s4⟩ := scan_step d curr prev e es out hc ho f1 f2 f3
    have hf' : EntriesFit (e ++ out.drop e.length).length es := by rw [s3]; exact hf.tail_fit
    simp only [List.length_cons, left_locate2_scan, s1, s4, left_locate2_entries]
    rw [ih (i + 1) _ e _ s2 (List.prefix_append _ _) hf']
    split_ifs <;> rfl

section buckets_of_a_represented_dictionary

variable {B : Nat} {d : integer_fc_dictionary} {S : List (List Nat)}

theorem locate_in_bucket_eq (hR : Represents B d S) (hm : S.length % (B + 1) ≠ 0)
    (hB : B < 4294967296) (b : Nat) (hb : b < (S.length + B) / (B + 1))
    (decoded : List Nat) (hfit : EntriesFit decoded.length S) (t : List Nat) :
    locate_in_bucket B d decoded t (hseg B S b) b
      = locate_entries t 1 (bucket_entries B S b) := by
  obtain ⟨pb, hinit, hchain, hfit'⟩ := hR.locate_init hm hB b hb decoded hfit
  unfold locate_in_bucket
  rw [hinit]
  exact locate_scan_eq d t _ 1 pb _ _ hchain (List.prefix_append _ _) hfit'

theorem left_locate_eq (hR : Represents B d S) (hm : S.length % (B + 1) ≠ 0)
    (hB : B < 4294967296) (b : Nat) (hb : b < (S.length + B) / (B + 1))
    (decoded : List Nat) (hfit : EntriesFit decoded.length S) (p : List Nat) :
    left_locate B d decoded p (hseg B S b) b
      = some (left_locate_entries p (bucket_entries B S b).length 1
          (bucket_entries B S b)) := by
  obtain ⟨pb, hinit, hchain, hfit'⟩ := hR.locate_init hm hB b hb decoded hfit
  unfold left_locate
  rw [hinit]
  exact left_locate_scan_eq d p _ _ 1 pb _ _ hchain (List.prefix_append _ _) hfit'

theorem right_locate_eq (hR : Represents B d S) (hm : S.length % (B + 1) ≠ 0)
    (hB : B < 4294967296) (b : Nat) (hb : b < (S.length + B) / (B + 1))
    (decoded : List Nat) (hfit : EntriesFit decoded.length S) (p : List Nat) :
    right_locate B d decoded p (hseg B S b) b
      = some (right_locate_entries p (bucket_entries B S b).length 1
          (bucket_entries B S b)) := by
  obtain ⟨pb, hinit, hchain, hfit'⟩ := hR.locate_init hm hB b hb decoded hfit
  unfold right_locate
  rw [hinit]
  exact right_locate_scan_eq d p _ _ 1 pb _ _ hchain (List.prefix_append _ _) hfit'

theorem left_locate2_eq (hR : Represents B d S) (hm : S.length % (B + 1) ≠ 0)
    (hB : B < 4294967296) (b : Nat) (hb : b < (S.length + B) / (B + 1))
    (decoded : List Nat) (hfit : EntriesFit decoded.length S) (p : List Nat) :
    left_locate2 B d decoded p (hseg B S b) b
      = some (left_locate2_entries p (bucket_entries B S b).length 1
          (bucket_entries B S b)) := by
  obtain ⟨pb, hinit, hchain, hfit'⟩ := hR.locate_init hm hB b hb decoded hfit
  unfold left_locate2
  rw [hinit]
  exact left_locate2_scan_eq d p _ _ 1 pb _ _ hchain (List.prefix_append _ _) hfit'

end buckets_of_a_represented_dictionary

/-! ## A found id is a match -/

theorem locate_entries_some (t : List Nat) (es : List (List Nat)) :
    ∀ (i r : Nat), locate_entries t i es = some r →
      r = invalid_term_id ∨ ∃ j, r = i + j ∧ es[j]? = some t := by
  induction es with
  | nil => intro i r h; simp [locate_entries] at h
  | cons e es ih =>
    intro i r h
    unfold locate_entries at h
    by_cases h0 : uint32_range_compare t e = 0
    · rw [if_pos h0] at h
      refine Or.inr ⟨0, ?_, ?_⟩
      · exact (Option.some.inj h).symm
      · rw [uint32_range_compare_eq_zero.mp h0]; simp
    · rw [if_neg h0] at h
      by_cases h1 : uint32_range_compare t e < 0
      · rw [if_pos h1] at h
        exact Or.inl (Option.some.inj h).symm
      · rw [if_neg h1] at h
        rcases ih (i + 1) r h with hr | ⟨j, hj, he⟩
        · exact Or.inl hr
        · exact Or.inr ⟨j + 1, by omega, by simpa using he⟩

theorem bucket_count_le (N B : Nat) (hm : N % (B + 1) ≠ 0) :
    (N + B) / (B + 1) ≤ N + 1 ∧ 1 ≤ (N + B) / (B + 1) := by
  rw [bucket_count_eq N B hm]
  have := Nat.div_le_self N (B + 1)
  exact ⟨by omega, Nat.le_add_left 1 _⟩

/-- An id returned by `locate` holds the query. -/
theorem locate_sound (B : Nat) (d : integer_fc_dictionary) (S : List (List Nat))
    (hR : Represents B d S)
    (hs : S.Pairwise (fun a b => uint32_range_compare a b < 0))
    (hm : S.length % (B + 1) ≠ 0) (hN : S.length < 2147483648) (hB : B + 1 < 4294967296)
    (decoded : List Nat) (hfit : EntriesFit decoded.length S)
    (t : List Nat) (id : Nat) (h : locate B d decoded t = some id)
    (hne : id ≠ invalid_term_id) : S[id]? = some t := by
  obtain ⟨hKle, hK1⟩ := bucket_count_le S.length B hm
  rcases locate_bucket_spec d t (hseg B S) _ (by omega) hK1 hR.buckets_eq
    (fun b hb => hR.header_some hm b hb) (hseg_mono B S hs hm)
    with ⟨b, hb, hbt, hr⟩ | ⟨b, hb, _, _, hr⟩ | ⟨_, hr⟩
  · have hlt := bucket_start_lt S.length B b hm hb
    unfold locate at h
    rw [hr] at h
    simp only [if_true] at h
    rw [Nat.mod_eq_of_lt (by omega)] at h
    rw [← Option.some.inj h, hseg_getElem? B S b hm hb, hbt]
  · have hlt := bucket_start_lt S.length B b hm hb
    have hend := bucket_end_le S.length B b hm hb
    unfold locate at h
    rw [hr] at h
    simp only [Bool.false_eq_true, if_false] at h
    rw [locate_in_bucket_eq hR hm (by omega) b hb decoded hfit t] at h
    cases hle : locate_entries t 1 (bucket_entries B S b) with
    | none => rw [hle] at h; simp at h
    | some off =>
      rw [hle] at h
      simp only [] at h
      by_cases hoff : off = invalid_term_id
      · rw [if_pos hoff] at h
        exact absurd (Option.some.inj h).symm hne
      · rw [if_neg hoff] at h
        rcases locate_entries_some t _ 1 off hle with hi | ⟨j, hj, he⟩
        · exact absurd hi hoff
        · have hjl : j < (bucket_entries B S b).length := (List.getElem?_eq_some.mp he).1
          rw [bucket_entries_length B S b hm hb] at hjl
          rw [bucket_entries_getElem? B S b j hm hb hjl] at he
          rw [Nat.mod_eq_of_lt (by omega), Nat.mod_eq_of_lt (by omega)] at h
          rw [← Option.some.inj h, ← he]
          congr 1
          omega
  · unfold locate at h
    rw [hr] at h
    simp at h

/-- C20. A found id is a real match: for a valid source whose completions fit the
64-word decode scratch, if `locate(t)` returns a value `id` different from
`invalid_term_id`, then `id < N` and `extract(id)` returns the number of terms of `t` and
leaves exactly the terms of `t` in the buffer. -/
theorem locate_found_is_match (BucketSize MAX term : Nat) (src : List completion_record)
    (hv : ValidSource BucketSize MAX term src) (hmax : MAX ≤ 65) :
    ∃ d, build_dictionary BucketSize MAX term src = some d ∧
      ∀ (t decoded buf : List Nat) (id : Nat),
        decoded.length = 64 → MAX ≤ buf.length →
        locate BucketSize d decoded t = some id → id ≠ invalid_term_id →
        id < src.length ∧
        ∃ buf', extract BucketSize d id buf = some (t.length, buf') ∧
          buf'.take t.length = t := by
  obtain ⟨d, hd, hR⟩ := build_represents BucketSize MAX term src hv
  refine ⟨d, hd, ?_⟩
  intro t decoded buf id hdec hbuf hloc hne
  have hm : (stored src).length % (BucketSize + 1) ≠ 0 := by
    rw [stored_length]; exact hv.not_multiple
  have hfit := stored_fit BucketSize MAX term src hv buf.length (by omega)
  have hfit' := stored_fit BucketSize MAX term src hv decoded.length (by omega)
  have hx := locate_sound BucketSize d (stored src) hR hv.increasing hm
    (by rw [stored_length]; exact hv.size_lt) hv.bucket_lt decoded hfit' t id hloc hne
  have hid : id < src.length := by
    have := (List.getElem?_eq_some.mp hx).1
    rw [stored_length] at this
    exact this
  obtain ⟨buf', e1, e2, _⟩ := extract_spec BucketSize d (stored src) hR hm id t hx buf hfit
  exact ⟨hid, buf', e1, e2⟩

/-- Witness of C20 on the scenario corpus. -/
theorem locate_found_is_match_witness :
    ValidSource 2 64 4294967295 spec_corpus ∧ 64 ≤ 65 ∧
    (∃ d, build_dictionary 2 64 4294967295 spec_corpus = some d ∧
      ∀ (t decoded buf : List Nat) (id : Nat),
        decoded.length = 64 → 64 ≤ buf.length →
        locate 2 d decoded t = some id → id ≠ invalid_term_id →
        id < spec_corpus.length ∧
        ∃ buf', extract 2 d id buf = some (t.length, buf') ∧
          buf'.take t.length = t) ∧
    build_dictionary 2 64 4294967295 spec_corpus = some spec_dictionary ∧
    scratch0.length = 64 ∧ locate 2 spec_dictionary scratch0 [10, 21] = some 1 :=
  ⟨spec_corpus_valid, by decide,
    locate_found_is_match 2 64 4294967295 spec_corpus spec_corpus_valid (by decide),
    by decide, by decide, by decide⟩

/-! ## The scratch areas do not show in the results -/

section scratch
variable {B : Nat} {d : integer_fc_dictionary} {S : List (List Nat)}

theorem locate_scratch_free (hR : Represents B d S)
    (hs : S.Pairwise (fun a b => uint32_range_compare a b < 0))
    (hm : S.length % (B + 1) ≠ 0) (hN : S.length < 2147483648) (hB : B + 1 < 4294967296)
    (dec1 dec2 : List Nat) (hf1 : EntriesFit dec1.length S)
    (hf2 : EntriesFit dec2.length S) (t : List Nat) :
    locate B d dec1 t = locate B d dec2 t := by
  obtain ⟨hKle, hK1⟩ := bucket_count_le S.length B hm
  unfold locate
  rcases locate_bucket_spec d t (hseg B S) _ (by omega) hK1 hR.buckets_eq
    (fun b hb => hR.header_some hm b hb) (hseg_mono B S hs hm)
    with ⟨b, hb, hbt, hr⟩ | ⟨b, hb, _, _, hr⟩ | ⟨_, hr⟩
  · rw [hr]
    simp
  · rw [hr]
    simp only [locate_in_bucket_eq hR hm (by omega) b hb dec1 hf1 t,
      locate_in_bucket_eq hR hm (by omega) b hb dec2 hf2 t]
  · rw [hr]

theorem locate_prefix_scratch_free (hR : Represents B d S)
    (hs : S.Pairwise (fun a b => uint32_range_compare a b < 0))
    (hm : S.length % (B + 1) ≠ 0) (hN : S.length < 2147483648) (hB : B + 1 < 4294967296)
    (dl1 dr1 dl2 dr2 : List Nat) (hl1 : EntriesFit dl1.length S)
    (hr1 : EntriesFit dr1.length S) (hl2 : EntriesFit dl2.length S)
    (hr2 : EntriesFit dr2.length S) (p : List Nat) :
    locate_prefix B d dl1 dr1 p = locate_prefix B d dl2 dr2 p := by
  obtain ⟨hKle, hK1⟩ := bucket_count_le S.length B hm
  have hpcmono : ∀ b b', b ≤ b' → b' < (S.length + B) / (B + 1) →
      uint32_range_compare_n (hseg B S b) p p.length ≤
        uint32_range_compare_n (hseg B S b') p p.length := fun b b' h1 h2 =>
    compare_n_sorted_mono hs p (hseg_getElem? B S b hm (by omega))
      (hseg_getElem? B S b' hm h2) (Nat.mul_le_mul_right _ h1)
  obtain ⟨left, right, hlb, hlr, hrK, _, _⟩ := locate_buckets_spec d p (hseg B S) _
    (by omega) hK1 hR.buckets_eq (fun b hb => hR.header_some hm b hb) hpcmono
  have hleftK : left < (S.length + B) / (B + 1) := by omega
  unfold locate_prefix
  rw [hlb]
  simp only []
  rw [Nat.mod_eq_of_lt (show left < 4294967296 by omega),
    Nat.mod_eq_of_lt (show right < 4294967296 by omega),
    hR.header_some hm left hleftK, hR.header_some hm right hrK]
  simp only [left_locate_eq hR hm (by omega) left hleftK dl1 hl1 p,
    left_locate_eq hR hm (by omega) left hleftK dl2 hl2 p,
    right_locate_eq hR hm (by omega) right hrK dr1 hr1 p,
    right_locate_eq hR hm (by omega) right hrK dr2 hr2 p]

/-- The bucket search followed by `left_locate2`, for any scratch. -/
theorem left_side_scratch_free (hR : Represents B d S)
    (hs : S.Pairwise (fun a b => uint32_range_compare a b < 0))
    (hm : S.length % (B + 1) ≠ 0) (hN : S.length < 2147483648) (hB : B + 1 < 4294967296)
    (q : List Nat) :
    d.locate_bucket q = none ∨
    ∃ (f : Bool) (h : List Nat) (b off : Nat), d.locate_bucket q = some (f, h, b) ∧
      ∀ dl : List Nat, EntriesFit dl.length S → left_locate2 B d dl q h b = some off := by
  obtain ⟨hKle, hK1⟩ := bucket_count_le S.length B hm
  rcases locate_bucket_spec d q (hseg B S) _ (by omega) hK1 hR.buckets_eq
    (fun b hb => hR.header_some hm b hb) (hseg_mono B S hs hm)
    with ⟨b, hb, hbt, hr⟩ | ⟨b, hb, _, _, hr⟩ | ⟨_, hr⟩
  · refine Or.inr ⟨true, q, b,
      left_locate2_entries q (bucket_entries B S b).length 1 (bucket_entries B S b), hr,
      fun D hD => ?_⟩
    have := left_locate2_eq hR hm (by omega) b hb D hD q
    rw [hbt] at this
    exact this
  · exact Or.inr ⟨false, _, b,
      left_locate2_entries q (bucket_entries B S b).length 1 (bucket_entries B S b), hr,
      fun D hD => left_locate2_eq hR hm (by omega) b hb D hD q⟩
  · exact Or.inl hr

/-- The bucket search followed by `right_locate`, for any scratch. -/
theorem right_side_scratch_free (hR : Represents B d S)
    (hs : S.Pairwise (fun a b => uint32_range_compare a b < 0))
    (hm : S.length % (B + 1) ≠ 0) (hN : S.length < 2147483648) (hB : B + 1 < 4294967296)
    (q : List Nat) :
    d.locate_bucket q = none ∨
    ∃ (f : Bool) (h : List Nat) (b off : Nat), d.locate_bucket q = some (f, h, b) ∧
      ∀ dr : List Nat, EntriesFit dr.length S → right_locate B d dr q h b = some off := by
  obtain ⟨hKle, hK1⟩ := bucket_count_le S.length B hm
  rcases locate_bucket_spec d q (hseg B S) _ (by omega) hK1 hR.buckets_eq
    (fun b hb => hR.header_some hm b hb) (hseg_mono B S hs hm)
    with ⟨b, hb, hbt, hr⟩ | ⟨b, hb, _, _, hr⟩ | ⟨_, hr⟩
  · refine Or.inr ⟨true, q, b,
      right_locate_entries q (bucket_entries B S b).length 1 (bucket_entries B S b), hr,
      fun D hD => ?_⟩
    have := right_locate_eq hR hm (by omega) b hb D hD q
    rw [hbt] at this
    exact this
  · exact Or.inr ⟨false, _, b,
      right_locate_entries q (bucket_entries B S b).length 1 (bucket_entries B S b), hr,
      fun D hD => right_locate_eq hR hm (by omega) b hb D hD q⟩
  · exact Or.inl hr

theorem locate_prefix_range_scratch_free (hR : Represents B d S)
    (hs : S.Pairwise (fun a b => uint32_range_compare a b < 0))
    (hm : S.length % (B + 1) ≠ 0) (hN : S.length < 2147483648) (hB : B + 1 < 4294967296)
    (dl1 dr1 dl2 dr2 : List Nat) (hl1 : EntriesFit dl1.length S)
    (hr1 : EntriesFit dr1.length S) (hl2 : EntriesFit dl2.length S)
    (hr2 : EntriesFit dr2.length S) (pfx : List Nat) (r : Nat × Nat) :
    locate_prefix_range B d dl1 dr1 pfx r = locate_prefix_range B d dl2 dr2 pfx r := by
  unfold locate_prefix_range
  simp only []
  rcases left_side_scratch_free hR hs hm hN hB (pfx ++ [r.1]) with h1 | ⟨f, h, b, off, h1, hl⟩
  · simp only [h1]
  · simp only [h1, hl dl1 hl1, hl dl2 hl2]
    by_cases hab : r.1 = r.2
    · simp only [hab, if_true]
      rcases right_side_scratch_free hR hs hm hN hB
        ((pfx ++ [r.2]).dropLast ++ [r.2] ++ [invalid_term_id])
        with h2 | ⟨f', h', b', off', h2, hr⟩
      · cases f <;> simp only [h2]
      · cases f <;> simp only [h2, hr dr1 hr1, hr dr2 hr2]
    · simp only [hab, if_false]
      rcases right_side_scratch_free hR hs hm hN hB
        ((pfx ++ [r.1]).dropLast ++ [r.2])
        with h2 | ⟨f', h', b', off', h2, hr⟩
      · cases f <;> simp only [h2]
      · cases f <;> simp only [h2, hr dr1 hr1, hr dr2 hr2]

end scratch

/-- C16. Scratch independence: for a valid source whose completions fit the 64-word
decode scratch, the builder yields a dictionary on which `locate(t)`, both variants of
`locate_prefix`, and `extract(id, buf)` (its returned length and the first `string_len`
terms it leaves in `buf`) do not depend on what the decode scratch areas, respectively
the output buffer, held before the call. -/
theorem results_ignore_scratch (BucketSize MAX term : Nat) (src : List completion_record)
    (hv : ValidSource BucketSize MAX term src) (hmax : MAX ≤ 65) :
    ∃ d, build_dictionary BucketSize MAX term src = some d ∧
      (∀ t dec1 dec2 : List Nat, dec1.length = 64 → dec2.length = 64 →
        locate BucketSize d dec1 t = locate BucketSize d dec2 t) ∧
      (∀ p dl1 dr1 dl2 dr2 : List Nat, dl1.length = 64 → dr1.length = 64 →
        dl2.length = 64 → dr2.length = 64 →
        locate_prefix BucketSize d dl1 dr1 p = locate_prefix BucketSize d dl2 dr2 p) ∧
      (∀ (pfx dl1 dr1 dl2 dr2 : List Nat) (r : Nat × Nat), dl1.length = 64 →
        dr1.length = 64 → dl2.length = 64 → dr2.length = 64 →
        locate_prefix_range BucketSize d dl1 dr1 pfx r
          = locate_prefix_range BucketSize d dl2 dr2 pfx r) ∧
      (∀ (i : Nat) (buf1 buf2 : List Nat), i < src.length → MAX ≤ buf1.length →
        MAX ≤ buf2.length →
        ∃ n out1 out2, extract BucketSize d i buf1 = some (n, out1) ∧
          extract BucketSize d i buf2 = some (n, out2) ∧ out1.take n = out2.take n) := by
  obtain ⟨d, hd, hR⟩ := build_represents BucketSize MAX term src hv
  have hm : (stored src).length % (BucketSize + 1) ≠ 0 := by
    rw [stored_length]; exact hv.not_multiple
  have hN : (stored src).length < 2147483648 := by rw [stored_length]; exact hv.size_lt
  have hfit : ∀ l : List Nat, MAX ≤ l.length + 1 → EntriesFit l.length (stored src) :=
    fun l hl => stored_fit BucketSize MAX term src hv l.length hl
  refine ⟨d, hd, ?_, ?_, ?_, ?_⟩
  · intro t dec1 dec2 h1 h2
    exact locate_scratch_free hR hv.increasing hm hN hv.bucket_lt dec1 dec2
      (hfit _ (by omega)) (hfit _ (by omega)) t
  · intro p dl1 dr1 dl2 dr2 h1 h2 h3 h4
    exact locate_prefix_scratch_free hR hv.increasing hm hN hv.bucket_lt dl1 dr1 dl2 dr2
      (hfit _ (by omega)) (hfit _ (by omega)) (hfit _ (by omega)) (hfit _ (by omega)) p
  · intro pfx dl1 dr1 dl2 dr2 r h1 h2 h3 h4
    exact locate_prefix_range_scratch_free hR hv.increasing hm hN hv.bucket_lt dl1 dr1 dl2
      dr2 (hfit _ (by omega)) (hfit _ (by omega)) (hfit _ (by omega)) (hfit _ (by omega))
      pfx r
  · intro i buf1 buf2 hi hb1 hb2
    have hi' : i < (stored src).length := by rw [stored_length]; exact hi
    have hx : (stored src)[i]? = some (stored src)[i] := List.getElem?_eq_getElem hi'
    obtain ⟨o1, e1, t1, _⟩ := extract_spec BucketSize d (stored src) hR hm i _ hx buf1
      (hfit _ (by omega))
    obtain ⟨o2, e2, t2, _⟩ := extract_spec BucketSize d (stored src) hR hm i _ hx buf2
      (hfit _ (by omega))
    exact ⟨_, o1, o2, e1, e2, by rw [t1, t2]⟩

/-- Witness of C16 on the scenario corpus. -/
theorem results_ignore_scratch_witness :
    ValidSource 2 64 4294967295 spec_corpus ∧ 64 ≤ 65 ∧
    ∃ d, build_dictionary 2 64 4294967295 spec_corpus = some d ∧
      (∀ t dec1 dec2 : List Nat, dec1.length = 64 → dec2.length = 64 →
        locate 2 d dec1 t = locate 2 d dec2 t) ∧
      (∀ p dl1 dr1 dl2 dr2 : List Nat, dl1.length = 64 → dr1.length = 64 →
        dl2.length = 64 → dr2.length = 64 →
        locate_prefix 2 d dl1 dr1 p = locate_prefix 2 d dl2 dr2 p) ∧
      (∀ (pfx dl1 dr1 dl2 dr2 : List Nat) (r : Nat × Nat), dl1.length = 64 →
        dr1.length = 64 → dl2.length = 64 → dr2.length = 64 →
        locate_prefix_range 2 d dl1 dr1 pfx r = locate_prefix_range 2 d dl2 dr2 pfx r) ∧
      (∀ (i : Nat) (buf1 buf2 : List Nat), i < spec_corpus.length → 64 ≤ buf1.length →
        64 ≤ buf2.length →
        ∃ n out1 out2, extract 2 d i buf1 = some (n, out1) ∧
          extract 2 d i buf2 = some (n, out2) ∧ out1.take n = out2.take n) :=
  ⟨spec_corpus_valid, by decide,
    results_ignore_scratch 2 64 4294967295 spec_corpus spec_corpus_valid (by decide)⟩

/-! ## The cursor over the delta records of a bucket -/

theorem enc_delta_length (prev e : List Nat) :
    (enc_delta prev e).length = 2 + 4 * (e.length - builder.lcp e prev) := by
  simp [enc_delta, bytes_of_words_length]
  omega

theorem enc_deltas_length (es : List (List Nat)) :
    ∀ prev : List Nat, (enc_deltas prev es).length
      = ((delta_records prev es).map (fun r => 2 + 4 * r.2)).sum := by
  induction es with
  | nil => intro prev; rfl
  | cons e es ih =>
    intro prev
    simp only [enc_deltas, delta_records, List.length_append, List.map_cons, List.sum_cons,
      enc_delta_length, ih e]

theorem delta_records_length (es : List (List Nat)) :
    ∀ prev : List Nat, (delta_records prev es).length = es.length := by
  induction es with
  | nil => intro prev; rfl
  | cons e es ih => intro prev; simp [delta_records, ih e]

theorem delta_records_getElem? (es : List (List Nat)) :
    ∀ (prev : List Nat) (j : Nat) (r : Nat × Nat), (delta_records prev es)[j]? = some r →
      ∃ p c, (prev :: es)[j]? = some p ∧ es[j]? = some c ∧
        r.1 + r.2 = c.length ∧ r.1 ≤ p.length := by
  induction es with
  | nil => intro prev j r h; simp [delta_records] at h
  | cons e es ih =>
    intro prev j r h
    cases j with
    | zero =>
      simp only [delta_records, List.getElem?_cons_zero] at h
      have hr := Option.some.inj h
      refine ⟨prev, e, by simp, by simp, ?_, ?_⟩
      · rw [← hr]
        have := lcp_le_left e prev
        simp only []
        omega
      · rw [← hr]
        exact lcp_le_right e prev
    | succ j =>
      simp only [delta_records, List.getElem?_cons_succ] at h
      obtain ⟨p, c, h1, h2, h3, h4⟩ := ih e j r h
      exact ⟨p, c, by simpa using h1, by simpa using h2, h3, h4⟩

theorem decode_records_spec (d : integer_fc_dictionary) (es : List (List Nat)) :
    ∀ (curr : Nat) (prev out : List Nat),
      enc_deltas prev es <+: d.m_buckets.drop curr → prev <+: out →
      EntriesFit out.length es →
      decode_records d es.length curr out
        = some (curr + (enc_deltas prev es).length, delta_records prev es) := by
  induction es with
  | nil => intro curr prev out _ _ _; rfl
  | cons e es ih =>
    intro curr prev out hc ho hf
    obtain ⟨f1, f2, f3⟩ := hf.head_fit
    obtain ⟨s1, s2, s3, _⟩ := scan_step d curr prev e es out hc ho f1 f2 f3
    have hf' : EntriesFit (e ++ out.drop e.length).length es := by rw [s3]; exact hf.tail_fit
    simp only [List.length_cons, decode_records, s1]
    rw [ih _ e _ s2 (List.prefix_append _ _) hf']
    simp only [enc_deltas, delta_records, List.length_append, enc_delta_length, advance]
    congr 2
    omega

/-- C19. Bucket byte spans match the decoder's cursor: for a valid source the builder
yields a dictionary such that, for every bucket `b < K` and every buffer of at least `MAX`
words holding the bucket's header, decoding `bucket_size(b)` records from byte offset
`P[b]`, the cursor advancing by `(l - lcp_len) * 4 + 2` after each one, succeeds and
ends exactly at `P[b+1]`; `P[b+1]` is `P[b]` plus the sum of `2 + 4 * suf_len` over the
records read; and the `j`-th record has `lcp + suf_len` equal to the number of terms of
stored completion `b * (BucketSize + 1) + j + 1` and `lcp` at most the number of terms of
the completion before it. -/
theorem bucket_span_matches_cursor (BucketSize MAX term : Nat)
    (src : List completion_record) (hv : ValidSource BucketSize MAX term src) :
    ∃ d, build_dictionary BucketSize MAX term src = some d ∧
      ∀ (b : Nat) (buf : List Nat), b < d.buckets → MAX ≤ buf.length →
        ∃ (pb pe : Nat) (h : List Nat) (recs : List (Nat × Nat)),
          pointers_at d.m_pointers_to_buckets b = some (pb, pe) ∧
          d.header b = some h ∧
          decode_records d (bucket_size BucketSize d b) pb (h ++ buf.drop h.length)
            = some (pe, recs) ∧
          pe = pb + (recs.map (fun r => 2 + 4 * r.2)).sum ∧
          recs.length = bucket_size BucketSize d b ∧
          ∀ (j : Nat) (r : Nat × Nat), recs[j]? = some r →
            ∃ p c, (stored src)[b * (BucketSize + 1) + j]? = some p ∧
              (stored src)[b * (BucketSize + 1) + j + 1]? = some c ∧
              r.1 + r.2 = c.length ∧ r.1 ≤ p.length := by
  obtain ⟨d, hd, hR⟩ := build_represents BucketSize MAX term src hv
  refine ⟨d, hd, ?_⟩
  intro b buf hb hbuf
  have hm : (stored src).length % (BucketSize + 1) ≠ 0 := by
    rw [stored_length]; exact hv.not_multiple
  have hfit := stored_fit BucketSize MAX term src hv buf.length (by omega)
  have hbK : b < ((stored src).length + BucketSize) / (BucketSize + 1) := by
    rw [← hR.buckets_eq]; exact hb
  obtain ⟨pb, pe, q1, q2, q3⟩ := hR.deltas b hb
  have hmem : hseg BucketSize (stored src) b ∈ stored src :=
    List.getElem?_mem (hseg_getElem? BucketSize (stored src) b hm hbK)
  obtain ⟨g1, _, _⟩ := hfit _ hmem
  have hout : (hseg BucketSize (stored src) b
      ++ buf.drop (hseg BucketSize (stored src) b).length).length = buf.length := by
    simp; omega
  have hlen := bucket_entries_length BucketSize (stored src) b hm hbK
  have hdec := decode_records_spec d (bucket_entries BucketSize (stored src) b) pb
    (hseg BucketSize (stored src) b) _ q3 (List.prefix_append _ _)
    (by rw [hout]; exact bucket_entries_fit BucketSize (stored src) b hfit)
  refine ⟨pb, pe, hseg BucketSize (stored src) b,
    delta_records (hseg BucketSize (stored src) b) (bucket_entries BucketSize (stored src) b),
    q1, hR.header_some hm b hbK, ?_, ?_, ?_, ?_⟩
  · rw [hR.bucket_size_eq b hb, ← hlen, hdec, q2]
    rfl
  · rw [q2]
    exact congrArg (pb + ·) (enc_deltas_length _ _)
  · rw [delta_records_length, hlen, hR.bucket_size_eq b hb]
  · intro j r hr
    obtain ⟨p, c, h1, h2, h3, h4⟩ := delta_records_getElem? _ _ j r hr
    have hj : j < delta_count BucketSize (stored src).length b := by
      rw [← hlen]; exact (List.getElem?_eq_some.mp h2).1
    refine ⟨p, c, ?_, ?_, h3, h4⟩
    · rw [← (bucket_run_getElem? BucketSize (stored src) b j hm hbK (by omega)).1]
      exact h1
    · rw [← h2, bucket_entries_getElem? BucketSize (stored src) b j hm hbK hj]
      congr 1
      omega

/-- Witness of C19 on the scenario corpus. -/
theorem bucket_span_matches_cursor_witness :
    ValidSource 2 64 4294967295 spec_corpus ∧
    (∃ d, build_dictionary 2 64 4294967295 spec_corpus = some d ∧
      ∀ (b : Nat) (buf : List Nat), b < d.buckets → 64 ≤ buf.length →
        ∃ (pb pe : Nat) (h : List Nat) (recs : List (Nat × Nat)),
          pointers_at d.m_pointers_to_buckets b = some (pb, pe) ∧
          d.header b = some h ∧
          decode_records d (bucket_size 2 d b) pb (h ++ buf.drop h.length)
            = some (pe, recs) ∧
          pe = pb + (recs.map (fun r => 2 + 4 * r.2)).sum ∧
          recs.length = bucket_size 2 d b ∧
          ∀ (j : Nat) (r : Nat × Nat), recs[j]? = some r →
            ∃ p c, (stored spec_corpus)[b * (2 + 1) + j]? = some p ∧
              (stored spec_corpus)[b * (2 + 1) + j + 1]? = some c ∧
              r.1 + r.2 = c.length ∧ r.1 ≤ p.length) ∧
    spec_dictionary.buckets = 3 ∧
    decode_records spec_dictionary (bucket_size 2 spec_dictionary 1) 12
      ([11, 5, 7] ++ scratch0.drop 3) = some (24, [(2, 1), (1, 1)]) :=
  ⟨spec_corpus_valid,
    bucket_span_matches_cursor 2 64 4294967295 spec_corpus spec_corpus_valid,
    by decide, by decide⟩

/-! ## Comparisons against a query closed by the largest term -/

theorem compare_of_prefix {p : List Nat} :
    ∀ {x : List Nat}, p <+: x → 0 ≤ uint32_range_compare x p := by
  induction p with
  | nil => intro x _; cases x <;> simp [uint32_range_compare]
  | cons c p ih =>
    intro x h
    cases x with
    | nil => simp at h
    | cons y ys =>
      rw [List.cons_prefix_cons] at h
      obtain ⟨rfl, h⟩ := h
      simp [uint32_range_compare, ih h]

theorem compare_n_neg_of_lt {x p : List Nat} (h : uint32_range_compare x p < 0) :
    uint32_range_compare_n x p p.length < 0 := by
  have h1 := uint32_range_compare_n_mono p (le_of_lt h)
  rw [compare_n_self] at h1
  rcases lt_or_eq_of_le h1 with h2 | h2
  · exact h2
  · have := compare_of_prefix (uint32_range_compare_n_eq_zero.mp h2)
    omega

theorem compare_n_nonneg_of_ge {x p : List Nat} (h : uint32_range_compare p x ≤ 0) :
    0 ≤ uint32_range_compare_n x p p.length := by
  have h1 := uint32_range_compare_n_mono p h
  rw [compare_n_self] at h1
  exact h1

theorem compare_n_nonpos_of_le {x p : List Nat} (h : uint32_range_compare x p ≤ 0) :
    uint32_range_compare_n x p p.length ≤ 0 := by
  have h1 := uint32_range_compare_n_mono p h
  rw [compare_n_self] at h1
  exact h1

/-- A sequence not below `qa` on its first `|qa|` terms and not above `qa ++ [m]` on its
first `|qa| + 1` terms starts with `qa`. -/
theorem prefix_of_between {qa : List Nat} (m : Nat) :
    ∀ {x : List Nat}, 0 ≤ uint32_range_compare (x.take qa.length) qa →
      uint32_range_compare (x.take (qa.length + 1)) (qa ++ [m]) ≤ 0 → qa <+: x := by
  induction qa with
  | nil => intro x _ _; exact List.nil_prefix
  | cons c qs ih =>
    intro x h1 h2
    cases x with
    | nil => simp [uint32_range_compare] at h1
    | cons y ys =>
      simp only [List.length_cons, List.take_succ_cons, List.cons_append,
        uint32_range_compare] at h1 h2
      by_cases hyc : y < c
      · rw [if_pos hyc] at h1; omega
      · rw [if_neg hyc] at h1 h2
        by_cases hcy : c < y
        · rw [if_pos hcy] at h2; omega
        · rw [if_neg hcy] at h1 h2
          have hy : y = c := by omega
          rw [hy, List.cons_prefix_cons]
          exact ⟨rfl, ih h1 h2⟩

/-- A sequence of terms below `m` that starts with `qa` is below `qa ++ [m]`. -/
theorem lt_closed_of_prefix {qa : List Nat} (m : Nat) :
    ∀ {x : List Nat}, qa <+: x → (∀ w ∈ x, w < m) →
      uint32_range_compare x (qa ++ [m]) < 0 := by
  induction qa with
  | nil =>
    intro x _ hw
    cases x with
    | nil => simp [uint32_range_compare]
    | cons y ys =>
      have := hw y (List.mem_cons_self _ _)
      simp [uint32_range_compare, this]
  | cons c qs ih =>
    intro x h hw
    cases x with
    | nil => simp at h
    | cons y ys =>
      rw [List.cons_prefix_cons] at h
      obtain ⟨rfl, h⟩ := h
      simp only [List.cons_append, uint32_range_compare, lt_self_iff_false, if_false]
      exact ih h (fun w hw' => hw w (List.mem_cons_of_mem _ hw'))

theorem compare_closed_self (qa : List Nat) (m : Nat) :
    uint32_range_compare qa (qa ++ [m]) < 0 := by
  induction qa with
  | nil => simp [uint32_range_compare]
  | cons c qs ih => simpa [uint32_range_compare] using ih

theorem compare_pos_of_le_of_pos {a b c : List Nat}
    (hab : uint32_range_compare a b ≤ 0) (hac : 0 < uint32_range_compare a c) :
    0 < uint32_range_compare b c := by
  by_contra hc
  have := uint32_range_compare_le_trans hab (not_lt.mp hc)
  omega

/-! ## The scan of `left_locate2` -/

theorem left_locate2_entries_spec (p : List Nat) (n : Nat) (es : List (List Nat)) :
    ∀ i, i + es.length = n + 1 → n + 1 < 4294967296 →
      i ≤ left_locate2_entries p n i es ∧ left_locate2_entries p n i es ≤ n + 1 ∧
      (∀ j e, j < left_locate2_entries p n i es - i → es[j]? = some e →
        uint32_range_compare_n e p p.length < 0) ∧
      (left_locate2_entries p n i es < n + 1 →
        ∃ e, es[left_locate2_entries p n i es - i]? = some e ∧
          0 ≤ uint32_range_compare_n e p p.length) := by
  induction es with
  | nil =>
    intro i hi hn
    simp only [List.length_nil, Nat.add_zero] at hi
    simp only [left_locate2_entries]
    rw [Nat.mod_eq_of_lt hn]
    exact ⟨by omega, le_refl _, fun j e hj => by omega, fun h => by omega⟩
  | cons e es ih =>
    intro i hi hn
    simp only [List.length_cons] at hi
    unfold left_locate2_entries
    by_cases hc : uint32_range_compare_n e p p.length ≥ 0
    · rw [if_pos hc]
      refine ⟨le_refl _, by omega, fun j e' hj => by omega, fun _ => ⟨e, by simp, hc⟩⟩
    · rw [if_neg hc]
      obtain ⟨h1, h2, h3, h4⟩ := ih (i + 1) (by omega) hn
      refine ⟨by omega, h2, ?_, ?_⟩
      · intro j e' hj he'
        cases j with
        | zero =>
          simp only [List.getElem?_cons_zero] at he'
          rw [← Option.some.inj he']
          omega
        | succ j =>
          simp only [List.getElem?_cons_succ] at he'
          exact h3 j e' (by omega) he'
      · intro hlt
        obtain ⟨e', he', hpos⟩ := h4 hlt
        refine ⟨e', ?_, hpos⟩
        have hidx : left_locate2_entries p n (i + 1) es - i
            = (left_locate2_entries p n (i + 1) es - (i + 1)) + 1 := by omega
        rw [hidx, List.getElem?_cons_succ]
        exact he'

theorem left_locate2_spec (B : Nat) (d : integer_fc_dictionary) (S : List (List Nat))
    (hR : Represents B d S) (hm : S.length % (B + 1) ≠ 0) (hB : B + 1 < 4294967296)
    (b : Nat) (hb : b < (S.length + B) / (B + 1)) (decoded : List Nat)
    (hfit : EntriesFit decoded.length S) (p : List Nat) :
    ∃ off, left_locate2 B d decoded p (hseg B S b) b = some off ∧ 1 ≤ off ∧
      off ≤ delta_count B S.length b + 1 ∧
      (∀ j' y, 1 ≤ j' → j' < off → S[b * (B + 1) + j']? = some y →
        uint32_range_compare_n y p p.length < 0) ∧
      (off ≤ delta_count B S.length b → ∃ y, S[b * (B + 1) + off]? = some y ∧
        0 ≤ uint32_range_compare_n y p p.length) := by
  have hlen := bucket_entries_length B S b hm hb
  have hdc := delta_count_le S.length B b
  obtain ⟨h1, h2, h3, h4⟩ := left_locate2_entries_spec p (bucket_entries B S b).length
    (bucket_entries B S b) 1 (by omega) (by omega)
  refine ⟨_, left_locate2_eq hR hm (by omega) b hb decoded hfit p, h1, by omega, ?_, ?_⟩
  · intro j' y hj1 hj2 hy
    refine h3 (j' - 1) y (by omega) ?_
    rw [bucket_entries_getElem? B S b _ hm hb (by omega), ← hy]
    congr 1; omega
  · intro hle
    obtain ⟨e, he, hpos⟩ := h4 (by omega)
    refine ⟨e, ?_, hpos⟩
    rw [bucket_entries_getElem? B S b _ hm hb (by omega)] at he
    rw [← he]
    congr 1; omega

/-! ## The two ends of a single-term range -/

theorem compare_lt_of_le_of_lt {a b c : List Nat}
    (hab : uint32_range_compare a b ≤ 0) (hbc : uint32_range_compare b c < 0) :
    uint32_range_compare a c < 0 := by
  rcases lt_or_eq_of_le hab with h | h
  · exact uint32_range_compare_trans h hbc
  · rw [uint32_range_compare_eq_zero.mp h]; exact hbc

section ends
variable {B : Nat} {d : integer_fc_dictionary} {S : List (List Nat)}

/-- The left end: the bucket search for `qa`, then `left_locate2` unless a header
matched, lands on the first stored sequence not below `qa` on its first `|qa|` terms. -/
theorem range_begin_spec (hR : Represents B d S)
    (hs : S.Pairwise (fun a b => uint32_range_compare a b < 0))
    (hm : S.length % (B + 1) ≠ 0) (hN : S.length < 2147483648) (hB : B + 1 < 4294967296)
    (dl : List Nat) (hfit : EntriesFit dl.length S) (qa x0 : List Nat)
    (h0 : S[0]? = some x0) (hfirst : uint32_range_compare x0 qa ≤ 0) :
    ∃ (f : Bool) (h : List Nat) (b beg : Nat), d.locate_bucket qa = some (f, h, b) ∧
      ((f = true ∧ beg = b * (B + 1)) ∨
        (f = false ∧ ∃ off, left_locate2 B d dl qa h b = some off ∧
          beg = b * (B + 1) + off)) ∧
      b * (B + 1) ≤ beg ∧ beg ≤ S.length ∧
      (∀ j x, j < beg → S[j]? = some x → uint32_range_compare_n x qa qa.length < 0) ∧
      (∀ j x, beg ≤ j → S[j]? = some x → 0 ≤ uint32_range_compare_n x qa qa.length) := by
  obtain ⟨hKle, hK1⟩ := bucket_count_le S.length B hm
  have hx0 : x0 = hseg B S 0 := by
    have := hseg_getElem? B S 0 hm (by omega)
    rw [Nat.zero_mul, h0] at this
    exact Option.some.inj this
  rcases locate_bucket_spec d qa (hseg B S) _ (by omega) hK1 hR.buckets_eq
    (fun b hb => hR.header_some hm b hb) (hseg_mono B S hs hm)
    with ⟨b, hb, hbt, hr⟩ | ⟨b, hb, hlt, hgt, hr⟩ | ⟨hpos, _⟩
  · have hstart := bucket_start_lt S.length B b hm hb
    have hH := hseg_getElem? B S b hm hb
    rw [hbt] at hH
    refine ⟨true, qa, b, b * (B + 1), hr, Or.inl ⟨rfl, rfl⟩, le_refl _, by omega, ?_, ?_⟩
    · intro j x hj hx
      exact compare_n_neg_of_lt (sorted_lt hs hx hH hj)
    · intro j x hj hx
      exact compare_n_nonneg_of_ge (sorted_le hs hH hx hj)
  · have hstart := bucket_start_lt S.length B b hm hb
    have hend := bucket_end_le S.length B b hm hb
    have hH := hseg_getElem? B S b hm hb
    obtain ⟨off, hoff, hoff1, hoff2, hbefore, hat⟩ :=
      left_locate2_spec B d S hR hm hB b hb dl hfit qa
    refine ⟨false, _, b, b * (B + 1) + off, hr, Or.inr ⟨rfl, off, hoff, rfl⟩, by omega,
      by omega, ?_, ?_⟩
    · intro j x hj hx
      by_cases hjb : j ≤ b * (B + 1)
      · exact compare_n_neg_of_lt (compare_lt_of_le_of_lt (sorted_le hs hx hH hjb) hlt)
      · have hidx : b * (B + 1) + (j - b * (B + 1)) = j := by omega
        refine hbefore (j - b * (B + 1)) x (by omega) (by omega) ?_
        rw [hidx]; exact hx
    · intro j x hj hx
      have hjN : j < S.length := (List.getElem?_eq_some.mp hx).1
      by_cases hle : off ≤ delta_count B S.length b
      · obtain ⟨y, hy, hpos⟩ := hat hle
        exact le_trans hpos (compare_n_sorted_mono hs qa hy hx hj)
      · by_cases hnext : b + 1 < (S.length + B) / (B + 1)
        · have hbe := (bucket_end_inner S.length B b hm hnext).1
          have hH' := hseg_getElem? B S (b + 1) hm hnext
          have hg := hgt (b + 1) (by omega) hnext
          have hsw := uint32_range_compare_swap (hseg B S (b + 1)) qa
          have h1 : 0 ≤ uint32_range_compare_n (hseg B S (b + 1)) qa qa.length :=
            compare_n_nonneg_of_ge (by omega)
          exact le_trans h1 (compare_n_sorted_mono hs qa hH' hx (by omega))
        · have := bucket_end_last S.length B b hm (by omega)
          omega
  · rw [← hx0] at hpos
    omega

/-- The right end: the bucket search for `q`, then `right_locate`, lands on the last
stored sequence not above `q` on its first `|q|` terms; every later one is above `q`. -/
theorem range_end_spec (hR : Represents B d S)
    (hs : S.Pairwise (fun a b => uint32_range_compare a b < 0))
    (hm : S.length % (B + 1) ≠ 0) (hN : S.length < 2147483648) (hB : B + 1 < 4294967296)
    (dr : List Nat) (hfit : EntriesFit dr.length S) (q x0 : List Nat)
    (h0 : S[0]? = some x0) (hfirst : uint32_range_compare x0 q ≤ 0) :
    ∃ (f : Bool) (h : List Nat) (b off : Nat), d.locate_bucket q = some (f, h, b) ∧
      right_locate B d dr q h b = some off ∧
      b * (B + 1) + off < S.length ∧
      (∀ j x, j ≤ b * (B + 1) + off → S[j]? = some x →
        uint32_range_compare_n x q q.length ≤ 0) ∧
      (∀ j x, b * (B + 1) + off < j → S[j]? = some x → 0 < uint32_range_compare x q) := by
  obtain ⟨hKle, hK1⟩ := bucket_count_le S.length B hm
  have hx0 : x0 = hseg B S 0 := by
    have := hseg_getElem? B S 0 hm (by omega)
    rw [Nat.zero_mul, h0] at this
    exact Option.some.inj this
  have huni : ∃ (f : Bool) (b : Nat), b < (S.length + B) / (B + 1) ∧
      uint32_range_compare (hseg B S b) q ≤ 0 ∧
      (∀ b', b < b' → b' < (S.length + B) / (B + 1) →
        0 < uint32_range_compare (hseg B S b') q) ∧
      d.locate_bucket q = some (f, hseg B S b, b) := by
    rcases locate_bucket_spec d q (hseg B S) _ (by omega) hK1 hR.buckets_eq
      (fun b hb => hR.header_some hm b hb) (hseg_mono B S hs hm)
      with ⟨b, hb, hbt, hr⟩ | ⟨b, hb, hlt, hgt, hr⟩ | ⟨hpos, _⟩
    · refine ⟨true, b, hb, ?_, ?_, by rw [hbt]; exact hr⟩
      · rw [hbt, uint32_range_compare_self]
      · intro b' h1 h2
        have := hseg_mono B S hs hm b b' h1 h2
        have hsw := uint32_range_compare_swap (hseg B S b) (hseg B S b')
        rw [hbt] at this hsw
        omega
    · exact ⟨false, b, hb, le_of_lt hlt, hgt, hr⟩
    · rw [← hx0] at hpos
      omega
  obtain ⟨f, b, hb, hle, hgt, hr⟩ := huni
  have hstart := bucket_start_lt S.length B b hm hb
  have hend := bucket_end_le S.length B b hm hb
  have hH := hseg_getElem? B S b hm hb
  obtain ⟨j0, hrl, hj0, hin, hnext⟩ :=
    right_locate_spec B d S hR hm (by omega) b hb dr hfit q
  refine ⟨f, _, b, j0, hr, hrl, by omega, ?_, ?_⟩
  · intro j x hj hx
    by_cases hjb : j ≤ b * (B + 1)
    · exact compare_n_nonpos_of_le
        (uint32_range_compare_le_trans (sorted_le hs hx hH hjb) hle)
    · have hidx : b * (B + 1) + (j - b * (B + 1)) = j := by omega
      refine hin (j - b * (B + 1)) x (by omega) (by omega) ?_
      rw [hidx]; exact hx
  · intro j x hj hx
    have hjN : j < S.length := (List.getElem?_eq_some.mp hx).1
    by_cases hlt : j0 < delta_count B S.length b
    · obtain ⟨y, hy, hpos⟩ := hnext hlt
      have hyq : 0 < uint32_range_compare y q := by
        by_contra hc
        have := compare_n_nonpos_of_le (not_lt.mp hc)
        omega
      exact compare_pos_of_le_of_pos (sorted_le hs hy hx (by omega)) hyq
    · by_cases hnx : b + 1 < (S.length + B) / (B + 1)
      · have hbe := (bucket_end_inner S.length B b hm hnx).1
        have hH' := hseg_getElem? B S (b + 1) hm hnx
        exact compare_pos_of_le_of_pos (sorted_le hs hH' hx (by omega))
          (hgt (b + 1) (by omega) hnx)
      · have := bucket_end_last S.length B b hm (by omega)
        omega

end ends

/-- On a represented dictionary whose terms are all below `invalid_term_id`, the range
variant with `a = b` returns exactly the positions of the sequences that start with
`pfx ++ [a]`. -/
theorem range_single_spec (B : Nat) (d : integer_fc_dictionary) (S : List (List Nat))
    (hR : Represents B d S)
    (hs : S.Pairwise (fun a b => uint32_range_compare a b < 0))
    (hm : S.length % (B + 1) ≠ 0) (hN : S.length < 2147483648) (hB : B + 1 < 4294967296)
    (hterm : ∀ x ∈ S, ∀ w ∈ x, w < invalid_term_id)
    (dl dr : List Nat) (hfl : EntriesFit dl.length S) (hfr : EntriesFit dr.length S)
    (pfx : List Nat) (a : Nat) (x0 : List Nat) (h0 : S[0]? = some x0)
    (hfirst : uint32_range_compare x0 (pfx ++ [a]) ≤ 0) :
    ∃ beg en, locate_prefix_range B d dl dr pfx (a, a) = some ((beg, en), pfx) ∧
      ∀ j, (beg ≤ j ∧ j < en) ↔ ∃ x, S[j]? = some x ∧ pfx ++ [a] <+: x := by
  obtain ⟨f, h, b, beg, hlb, hbeg, hbb, hbN, hlow, hhigh⟩ :=
    range_begin_spec hR hs hm hN hB dl hfl (pfx ++ [a]) x0 h0 hfirst
  have hfirst2 : uint32_range_compare x0 (pfx ++ [a] ++ [invalid_term_id]) ≤ 0 :=
    le_of_lt (compare_lt_of_le_of_lt hfirst (compare_closed_self _ _))
  obtain ⟨f2, h2, b2, off2, hlb2, hrl2, heN, hin, hout⟩ :=
    range_end_spec hR hs hm hN hB dr hfr (pfx ++ [a] ++ [invalid_term_id]) x0 h0 hfirst2
  refine ⟨beg, b2 * (B + 1) + off2 + 1, ?_, ?_⟩
  · unfold locate_prefix_range
    simp only [List.dropLast_concat, if_true, hlb, hlb2, hrl2]
    have e1 : b * (B + 1) % 4294967296 = b * (B + 1) := Nat.mod_eq_of_lt (by omega)
    have e2 : b2 * (B + 1) % 4294967296 = b2 * (B + 1) := Nat.mod_eq_of_lt (by omega)
    have e3 : (b2 * (B + 1) + off2) % 4294967296 = b2 * (B + 1) + off2 :=
      Nat.mod_eq_of_lt (by omega)
    have e4 : (b2 * (B + 1) + off2 + 1) % 4294967296 = b2 * (B + 1) + off2 + 1 :=
      Nat.mod_eq_of_lt (by omega)
    rcases hbeg with ⟨hf, hb⟩ | ⟨hf, off, hoff, hb⟩
    · subst hf
      simp only [not_true_eq_false, if_false, e1, e2, e3, e4, hb]
    · subst hf
      have e5 : (b * (B + 1) + off) % 4294967296 = b * (B + 1) + off :=
        Nat.mod_eq_of_lt (by omega)
      simp only [Bool.false_eq_true, not_false_eq_true, if_true, hoff, e1, e2, e3, e4, e5,
        hb]
  · intro j
    constructor
    · rintro ⟨hj1, hj2⟩
      have hjN : j < S.length := by omega
      refine ⟨S[j], List.getElem?_eq_getElem hjN, ?_⟩
      have hx : S[j]? = some S[j] := List.getElem?_eq_getElem hjN
      have p1 := hhigh j _ hj1 hx
      have p2 := hin j _ (by omega) hx
      rw [uint32_range_compare_n_length] at p1 p2
      have hl : (pfx ++ [a] ++ [invalid_term_id]).length = (pfx ++ [a]).length + 1 := by
        simp
      rw [hl] at p2
      exact prefix_of_between invalid_term_id p1 p2
    · rintro ⟨x, hx, hp⟩
      constructor
      · by_contra hc
        have := hlow j x (by omega) hx
        rw [uint32_range_compare_n_eq_zero.mpr hp] at this
        omega
      · by_contra hc
        have h1 := hout j x (by omega) hx
        have h2 := lt_closed_of_prefix invalid_term_id hp (hterm x (List.getElem?_mem hx))
        omega

/-- C18. Single-term range (`a = b`): for a valid source whose completions fit the
64-word decode scratch and whose stored terms are all smaller than `invalid_term_id`,
for every prefix and every term `a` such that the first stored completion is not above
the prefix followed by `a`, `locate_prefix(prefix, [a, a])` returns a pair `[begin, end)`
and leaves the prefix buffer as it was, and an id `j` lies in `[begin, end)` exactly when
`j < N` and `extract(j)` starts with the prefix followed by `a`. -/
theorem single_term_range_exact (BucketSize MAX term : Nat) (src : List completion_record)
    (hv : ValidSource BucketSize MAX term src) (hmax : MAX ≤ 65)
    (hterm : ∀ x ∈ stored src, ∀ w ∈ x, w < invalid_term_id) :
    ∃ d, build_dictionary BucketSize MAX term src = some d ∧
      ∀ (pfx dl dr first : List Nat) (a : Nat),
        dl.length = 64 → dr.length = 64 → (stored src)[0]? = some first →
        uint32_range_compare first (pfx ++ [a]) ≤ 0 →
        ∃ beg en, locate_prefix_range BucketSize d dl dr pfx (a, a)
            = some ((beg, en), pfx) ∧
          ∀ (j : Nat) (buf : List Nat), MAX ≤ buf.length →
            ((beg ≤ j ∧ j < en) ↔
              (j < src.length ∧ ∃ n buf', extract BucketSize d j buf = some (n, buf') ∧
                pfx ++ [a] <+: buf'.take n)) := by
  obtain ⟨d, hd, hR⟩ := build_represents BucketSize MAX term src hv
  refine ⟨d, hd, ?_⟩
  intro pfx dl dr first a hdl hdr h0 hfirst
  have hm : (stored src).length % (BucketSize + 1) ≠ 0 := by
    rw [stored_length]; exact hv.not_multiple
  have hN : (stored src).length < 2147483648 := by rw [stored_length]; exact hv.size_lt
  have hfl := stored_fit BucketSize MAX term src hv dl.length (by omega)
  have hfr := stored_fit BucketSize MAX term src hv dr.length (by omega)
  obtain ⟨beg, en, hres, hiff⟩ := range_single_spec BucketSize d (stored src) hR
    hv.increasing hm hN hv.bucket_lt hterm dl dr hfl hfr pfx a first h0 hfirst
  refine ⟨beg, en, hres, ?_⟩
  intro j buf hbuf
  have hfit := stored_fit BucketSize MAX term src hv buf.length (by omega)
  rw [hiff j]
  constructor
  · rintro ⟨x, hx, hp⟩
    have hj : j < src.length := by
      have := (List.getElem?_eq_some.mp hx).1
      rw [stored_length] at this
      exact this
    obtain ⟨buf', e1, e2, _⟩ := extract_spec BucketSize d (stored src) hR hm j x hx buf hfit
    exact ⟨hj, x.length, buf', e1, by rw [e2]; exact hp⟩
  · rintro ⟨hj, n, buf', e1, hp⟩
    have hj' : j < (stored src).length := by rw [stored_length]; exact hj
    have hx : (stored src)[j]? = some (stored src)[j] := List.getElem?_eq_getElem hj'
    obtain ⟨buf2, e3, e4, _⟩ :=
      extract_spec BucketSize d (stored src) hR hm j _ hx buf hfit
    rw [e1] at e3
    have hn : n = (stored src)[j].length := congrArg Prod.fst (Option.some.inj e3)
    have hb : buf' = buf2 := congrArg Prod.snd (Option.some.inj e3)
    refine ⟨_, hx, ?_⟩
    rw [← e4, ← hb, ← hn]
    exact hp

/-- Witness of C18 on the scenario corpus, with the range of prefix `[11]` and term 5. -/
theorem single_term_range_exact_witness :
    ValidSource 2 64 4294967295 spec_corpus ∧ 64 ≤ 65 ∧
    (∀ x ∈ stored spec_corpus, ∀ w ∈ x, w < invalid_term_id) ∧
    (∃ d, build_dictionary 2 64 4294967295 spec_corpus = some d ∧
      ∀ (pfx dl dr first : List Nat) (a : Nat),
        dl.length = 64 → dr.length = 64 → (stored spec_corpus)[0]? = some first →
        uint32_range_compare first (pfx ++ [a]) ≤ 0 →
        ∃ beg en, locate_prefix_range 2 d dl dr pfx (a, a) = some ((beg, en), pfx) ∧
          ∀ (j : Nat) (buf : List Nat), 64 ≤ buf.length →
            ((beg ≤ j ∧ j < en) ↔
              (j < spec_corpus.length ∧ ∃ n buf', extract 2 d j buf = some (n, buf') ∧
                pfx ++ [a] <+: buf'.take n))) ∧
    (stored spec_corpus)[0]? = some [10, 20] ∧
    uint32_range_compare [10, 20] ([11] ++ [5]) ≤ 0 ∧
    locate_prefix_range 2 spec_dictionary scratch0 scratch0 [11] (5, 5)
      = some ((3, 5), [11]) :=
  ⟨spec_corpus_valid, by decide, by decide,
    single_term_range_exact 2 64 4294967295 spec_corpus spec_corpus_valid (by decide)
      (by decide),
    by decide, by decide, by decide⟩

end autocomplete
